import Mathlib

/-! ZIP container of `src/gui/zipfile.cpp`

A shallow embedding of `ZIPFileEntry` and `ZIPFile`: the container writes named,
stored (uncompressed) byte streams into one file and scans the central directory
of such a file when it is opened read-only.

Conventions of the embedding

* `off_t`, `ssize_t` and `long` are 64-bit signed, `size_t` is 64-bit unsigned, and the
  host is little-endian (the read path of the source compares raw header fields with
  host constants, and `htole16`/`htole32` are then the identity).  Values of the
  signed types are `Int`s reduced by `wrapOff`, values of `size_t` are `Nat`s reduced
  by `toSize`.
* The file behind `file_fd` is a `Storage`: its bytes, the cursor of the descriptor,
  the access mode, a script of outcomes for the coming system calls (the empty script
  is a storage on which every call succeeds in full) and the log of the calls issued.
* A `ZIPFileEntry*` is a pointer to a node of the `std::map`; it is represented by the
  key of the node.  The back-pointer `ZIPFileEntry::file` is a flag (set or `NULL`),
  and the container it points to is passed to the entry operations explicitly.
-/

namespace ZipFile

/-! ## Machine integers and bytes -/

/-- A byte of the file or of a memory buffer. -/
abbrev Byte := Fin 256

/-- Reduction of an integer to the 64-bit signed range (`off_t`, `ssize_t`, `long`). -/
def wrapOff (x : Int) : Int := (x + 2 ^ 63) % 2 ^ 64 - 2 ^ 63

/-- Conversion of an integer to `size_t` (64-bit unsigned). -/
def toSize (x : Int) : Nat := (x % 2 ^ 64).toNat

/-- Conversion of an integer to `uint32_t`. -/
def toU32 (x : Int) : Nat := (x % 2 ^ 32).toNat

/-- Conversion of an integer to `uint16_t`. -/
def toU16 (x : Int) : Nat := (x % 2 ^ 16).toNat

/-- The byte with value `n mod 256`. -/
def byteOf (n : Nat) : Byte := ⟨n % 256, Nat.mod_lt n (by decide)⟩

/-- The two bytes of a 16-bit field as stored in the file (little-endian). -/
def le16 (n : Nat) : List Byte := [byteOf n, byteOf (n / 256)]

/-- The four bytes of a 32-bit field as stored in the file (little-endian). -/
def le32 (n : Nat) : List Byte :=
  [byteOf n, byteOf (n / 256), byteOf (n / 65536), byteOf (n / 16777216)]

/-- The byte at index `i` of a buffer, as a number; bytes past the end read as zero
(a record is only decoded after it has been read in full). -/
def byteAt (l : List Byte) (i : Nat) : Nat := ((l.get? i).getD 0).val

/-- The 16-bit field at offset `i` of a record. -/
def rd16 (l : List Byte) (i : Nat) : Nat := byteAt l i + 256 * byteAt l (i + 1)

/-- The 32-bit field at offset `i` of a record. -/
def rd32 (l : List Byte) (i : Nat) : Nat :=
  byteAt l i + 256 * byteAt l (i + 1) + 65536 * byteAt l (i + 2) + 16777216 * byteAt l (i + 3)

/-- The C string stored in a buffer: the bytes before the first NUL. -/
def cstr : List Byte → List Byte
  | [] => []
  | b :: t => if b.val = 0 then [] else b :: cstr t

/-! ## Record layouts (`zipfile.h`) -/

/-- Modelled from the spec: the packed local file header of the format (`zipfile.h` is
not among the sources): signature, version needed, flags, method, time, date, checksum,
compressed size, uncompressed size, filename length, extra-field length, 30 bytes. -/
structure ZIPLocalFileHeader where
  local_file_header_signature : Nat
  version_needed_to_extract : Nat
  general_purpose_bit_flag : Nat
  compression_method : Nat
  last_mod_file_time : Nat
  last_mod_file_date : Nat
  crc_32 : Nat
  compressed_size : Nat
  uncompressed_size : Nat
  file_name_length : Nat
  extra_field_length : Nat
  deriving DecidableEq, Repr

/-- Modelled from the spec: `sizeof(ZIPLocalFileHeader)`, the fixed local-header size. -/
def sizeofLocal : Nat := 30

/-- The bytes of a local file header as they lie in memory and in the file. -/
def ZIPLocalFileHeader.toBytes (h : ZIPLocalFileHeader) : List Byte :=
  le32 h.local_file_header_signature ++ le16 h.version_needed_to_extract ++
  le16 h.general_purpose_bit_flag ++ le16 h.compression_method ++
  le16 h.last_mod_file_time ++ le16 h.last_mod_file_date ++ le32 h.crc_32 ++
  le32 h.compressed_size ++ le32 h.uncompressed_size ++ le16 h.file_name_length ++
  le16 h.extra_field_length

/-- The local file header held by 30 bytes of memory. -/
def ZIPLocalFileHeader.ofBytes (l : List Byte) : ZIPLocalFileHeader where
  local_file_header_signature := rd32 l 0
  version_needed_to_extract := rd16 l 4
  general_purpose_bit_flag := rd16 l 6
  compression_method := rd16 l 8
  last_mod_file_time := rd16 l 10
  last_mod_file_date := rd16 l 12
  crc_32 := rd32 l 14
  compressed_size := rd32 l 18
  uncompressed_size := rd32 l 22
  file_name_length := rd16 l 26
  extra_field_length := rd16 l 28

/-- The header after `memset(&hdr,0,sizeof(hdr))`. -/
def ZIPLocalFileHeader.zero : ZIPLocalFileHeader :=
  ⟨0, 0, 0, 0, 0, 0, 0, 0, 0, 0, 0⟩

/-- Modelled from the spec: the packed central-directory record of the format
(`zipfile.h` is not among the sources), 46 bytes. -/
structure pkzip_central_directory_header_main where
  sig : Nat
  version_made_by : Nat
  version_needed_to_extract : Nat
  general_purpose_bit_flag : Nat
  compression_method : Nat
  last_mod_file_time : Nat
  last_mod_file_date : Nat
  crc32 : Nat
  compressed_size : Nat
  uncompressed_size : Nat
  filename_length : Nat
  extra_field_length : Nat
  file_comment_length : Nat
  disk_number_start : Nat
  internal_file_attributes : Nat
  external_file_attributes : Nat
  relative_offset_of_local_header : Nat
  deriving DecidableEq, Repr

/-- Modelled from the spec: `sizeof(pkzip_central_directory_header_main)`. -/
def sizeofCentral : Nat := 46

/-- The bytes of a central-directory record. -/
def pkzip_central_directory_header_main.toBytes
    (h : pkzip_central_directory_header_main) : List Byte :=
  le32 h.sig ++ le16 h.version_made_by ++ le16 h.version_needed_to_extract ++
  le16 h.general_purpose_bit_flag ++ le16 h.compression_method ++
  le16 h.last_mod_file_time ++ le16 h.last_mod_file_date ++ le32 h.crc32 ++
  le32 h.compressed_size ++ le32 h.uncompressed_size ++ le16 h.filename_length ++
  le16 h.extra_field_length ++ le16 h.file_comment_length ++ le16 h.disk_number_start ++
  le16 h.internal_file_attributes ++ le32 h.external_file_attributes ++
  le32 h.relative_offset_of_local_header

/-- The central-directory record held by 46 bytes of memory. -/
def pkzip_central_directory_header_main.ofBytes
    (l : List Byte) : pkzip_central_directory_header_main where
  sig := rd32 l 0
  version_made_by := rd16 l 4
  version_needed_to_extract := rd16 l 6
  general_purpose_bit_flag := rd16 l 8
  compression_method := rd16 l 10
  last_mod_file_time := rd16 l 12
  last_mod_file_date := rd16 l 14
  crc32 := rd32 l 16
  compressed_size := rd32 l 20
  uncompressed_size := rd32 l 24
  filename_length := rd16 l 28
  extra_field_length := rd16 l 30
  file_comment_length := rd16 l 32
  disk_number_start := rd16 l 34
  internal_file_attributes := rd16 l 36
  external_file_attributes := rd32 l 38
  relative_offset_of_local_header := rd32 l 42

/-- The record after `memset(&chdr,0,sizeof(chdr))`. -/
def pkzip_central_directory_header_main.zero : pkzip_central_directory_header_main :=
  ⟨0, 0, 0, 0, 0, 0, 0, 0, 0, 0, 0, 0, 0, 0, 0, 0, 0⟩

/-- Modelled from the spec: the packed end-of-central-directory record of the format
(`zipfile.h` is not among the sources), 22 bytes. -/
structure pkzip_central_directory_header_end where
  sig : Nat
  number_of_this_disk : Nat
  number_of_disk_with_start_of_central_directory : Nat
  total_number_of_entries_of_central_dir_on_this_disk : Nat
  total_number_of_entries_of_central_dir : Nat
  size_of_central_directory : Nat
  offset_of_central_directory_from_start_disk : Nat
  zipfile_comment_length : Nat
  deriving DecidableEq, Repr

/-- Modelled from the spec: `sizeof(pkzip_central_directory_header_end)`. -/
def sizeofEnd : Nat := 22

/-- The bytes of an end-of-central-directory record. -/
def pkzip_central_directory_header_end.toBytes
    (h : pkzip_central_directory_header_end) : List Byte :=
  le32 h.sig ++ le16 h.number_of_this_disk ++
  le16 h.number_of_disk_with_start_of_central_directory ++
  le16 h.total_number_of_entries_of_central_dir_on_this_disk ++
  le16 h.total_number_of_entries_of_central_dir ++ le32 h.size_of_central_directory ++
  le32 h.offset_of_central_directory_from_start_disk ++ le16 h.zipfile_comment_length

/-- The end-of-central-directory record held by 22 bytes of memory. -/
def pkzip_central_directory_header_end.ofBytes
    (l : List Byte) : pkzip_central_directory_header_end where
  sig := rd32 l 0
  number_of_this_disk := rd16 l 4
  number_of_disk_with_start_of_central_directory := rd16 l 6
  total_number_of_entries_of_central_dir_on_this_disk := rd16 l 8
  total_number_of_entries_of_central_dir := rd16 l 10
  size_of_central_directory := rd32 l 12
  offset_of_central_directory_from_start_disk := rd32 l 16
  zipfile_comment_length := rd16 l 20

/-- The record after `memset(&ehdr,0,sizeof(ehdr))`. -/
def pkzip_central_directory_header_end.zero : pkzip_central_directory_header_end :=
  ⟨0, 0, 0, 0, 0, 0, 0, 0⟩

/-- Modelled from the spec: the signature of a central-directory record (`PK\x01\x02`). -/
def PKZIP_CENTRAL_DIRECTORY_HEADER_SIG : Nat := 0x02014B50

/-- Modelled from the spec: the signature of the end-of-central-directory record
(`PK\x05\x06`). -/
def PKZIP_CENTRAL_DIRECTORY_END_SIG : Nat := 0x06054B50

/-- The four bytes `"PK\x03\x04"` that `open` expects at offset 0. -/
def localMagic : List Byte := [0x50, 0x4B, 0x03, 0x04]

/-! ## Checksum module (`zipcrc.c`) -/

/-- One bit of the reflected CRC-32 division (polynomial `0xEDB88320`). -/
def crcBit (c : Nat) : Nat :=
  if c % 2 = 1 then (c / 2) ^^^ 0xEDB88320 else c / 2

/-- One byte folded into the shift register of the CRC-32. -/
def crcByte (c : Nat) (b : Byte) : Nat :=
  crcBit (crcBit (crcBit (crcBit (crcBit (crcBit (crcBit (crcBit (c ^^^ b.val))))))))

/-- The standard CRC-32 of a byte string (as used by ZIP, gzip and PNG): register
preset to all ones, bytes folded in order, result complemented. -/
def crc32 (data : List Byte) : Nat := (data.foldl crcByte 0xFFFFFFFF) ^^^ 0xFFFFFFFF

/-- Modelled from the spec: `zipcrc_init` of the checksum module (`zipcrc.c` is not
among the sources), "initialize accumulator". -/
def zipcrc_init : Nat := 0

/-- Modelled from the spec: `zipcrc_update` of the checksum module, "fold in a buffer":
the running CRC-32 is kept in complemented form between calls. -/
def zipcrc_update (crc : Nat) (buf : List Byte) : Nat :=
  ((buf.foldl crcByte (crc ^^^ 0xFFFFFFFF)) ^^^ 0xFFFFFFFF)

/-- Modelled from the spec: `zipcrc_finalize` of the checksum module, "finalize to a
32-bit value". -/
def zipcrc_finalize (crc : Nat) : Nat := crc

/-! ## Storage backend (`::open`, `::lseek`, `::read`, `::write`, `::close`) -/

/-- Outcome scripted for one system call: full success, a short transfer of at most
`k` bytes, or failure (`-1`). -/
inductive Outcome where
  | ok
  | short (k : Nat)
  | fail
  deriving DecidableEq, Repr

/-- A system call issued on the descriptor. -/
inductive StorageOp where
  | openFile (mode : Nat)
  | seekSet (pos : Int)
  | seekEnd
  | read (count : Nat)
  | write (data : List Byte)
  | close
  deriving DecidableEq, Repr

/-- The file behind the descriptor. -/
structure Storage where
  /-- Content of the file. -/
  bytes : List Byte
  /-- File offset of the descriptor. -/
  cursor : Nat
  /-- The descriptor was opened `O_RDONLY`. -/
  rdonly : Bool
  /-- Outcomes of the coming system calls; when exhausted every call succeeds. -/
  script : List Outcome
  /-- System calls issued so far, latest first. -/
  log : List StorageOp
  deriving DecidableEq, Repr

/-- Largest file offset (`off_t` is 64-bit signed). -/
def maxOff : Nat := 2 ^ 63 - 1

/-- A file on disk with the given content, on which every system call succeeds. -/
def Storage.ofBytes (b : List Byte) : Storage := ⟨b, 0, false, [], []⟩

/-- Outcome of the next system call. -/
def Storage.outcome (s : Storage) : Outcome := s.script.headD Outcome.ok

/-- Bookkeeping of one system call: the script advances and the call is logged. -/
def Storage.tick (s : Storage) (op : StorageOp) : Storage :=
  { s with script := s.script.tail, log := op :: s.log }

/-- `::open(path,mode,0644)` on the file named by the path: the descriptor, or `-1`.
Only the access mode (low two bits) is modelled; the file is taken as `::open`
leaves it. -/
def Storage.openFile (s : Storage) (mode : Nat) : Int × Storage :=
  let s1 := s.tick (StorageOp.openFile mode)
  match s.outcome with
  | Outcome.fail => (-1, s1)
  | _ => (3, { s1 with cursor := 0, rdonly := decide (mode % 4 = 0) })

/-- `::lseek(fd,pos,SEEK_SET)`: the new offset, or `-1` (also for a negative `pos`). -/
def Storage.lseek (s : Storage) (pos : Int) : Int × Storage :=
  let s1 := s.tick (StorageOp.seekSet pos)
  match s.outcome with
  | Outcome.fail => (-1, s1)
  | _ => if pos < 0 then (-1, s1) else (pos, { s1 with cursor := pos.toNat })

/-- `::lseek(fd,0,SEEK_END)`: the size of the file, or `-1`. -/
def Storage.lseekEnd (s : Storage) : Int × Storage :=
  let s1 := s.tick StorageOp.seekEnd
  match s.outcome with
  | Outcome.fail => (-1, s1)
  | _ => ((s.bytes.length : Int), { s1 with cursor := s.bytes.length })

/-- `::read(fd,buffer,count)`: the count transferred (or `-1`), the bytes stored in
the buffer, and the storage afterwards. -/
def Storage.read (s : Storage) (count : Nat) : Int × List Byte × Storage :=
  let s1 := s.tick (StorageOp.read count)
  match s.outcome with
  | Outcome.fail => (-1, [], s1)
  | Outcome.short k =>
    let d := (s.bytes.drop s.cursor).take (min k count)
    ((d.length : Int), d, { s1 with cursor := s.cursor + d.length })
  | Outcome.ok =>
    let d := (s.bytes.drop s.cursor).take count
    ((d.length : Int), d, { s1 with cursor := s.cursor + d.length })

/-- Content of a file after `data` is stored at offset `pos`; a gap between the old
end of file and `pos` reads as zeros. -/
def writeAt (bytes : List Byte) (pos : Nat) (data : List Byte) : List Byte :=
  bytes.take pos ++ List.replicate (pos - bytes.length) (0 : Byte) ++ data ++
    bytes.drop (pos + data.length)

/-- The transfer of `::write` once its length is settled: nothing for an empty
transfer, `-1` past the largest file offset. -/
def Storage.put (s1 : Storage) (data : List Byte) : Int × Storage :=
  if data = [] then (0, s1)
  else if s1.cursor + data.length > maxOff then (-1, s1)
  else ((data.length : Int),
    { s1 with bytes := writeAt s1.bytes s1.cursor data, cursor := s1.cursor + data.length })

/-- `::write(fd,buffer,count)` with `data` the `count` bytes of the buffer: the count
transferred, or `-1` (always so on a descriptor opened read-only). -/
def Storage.write (s : Storage) (data : List Byte) : Int × Storage :=
  let s1 := s.tick (StorageOp.write data)
  if s.rdonly then (-1, s1)
  else match s.outcome with
  | Outcome.fail => (-1, s1)
  | Outcome.short k => s1.put (data.take k)
  | Outcome.ok => s1.put data

/-- `::close(fd)`. -/
def Storage.close (s : Storage) : Storage := { s with log := StorageOp.close :: s.log }

/-! ## Entries and the container -/

/-- One named stream of the archive (`class ZIPFileEntry`). -/
structure ZIPFileEntry where
  can_write : Bool
  can_extend : Bool
  name : List Byte
  file_header_offset : Int
  file_offset : Int
  file_length : Int
  position : Int
  write_crc : Nat
  /-- Whether the back-pointer `file` is set (not `NULL`). -/
  file : Bool
  deriving DecidableEq, Repr

/-- Modelled from the spec: a default-constructed entry, as `std::map::operator[]`
creates it (the member initialisers are in `zipfile.h`, not among the sources): not
writable, offsets, length and cursor zero, no container. -/
def ZIPFileEntry.fresh : ZIPFileEntry :=
  ⟨false, false, [], 0, 0, 0, 0, 0, false⟩

/-- The `std::map<std::string,ZIPFileEntry>` of a container, as the list of its nodes
in iteration order. -/
abbrev Entries := List (List Byte × ZIPFileEntry)

/-- Order of the map keys, `std::string::operator<`: bytewise lexicographic. -/
def strLt : List Byte → List Byte → Bool
  | [], [] => false
  | [], _ :: _ => true
  | _ :: _, [] => false
  | a :: as, b :: bs => if a.val < b.val then true else if b.val < a.val then false else strLt as bs

/-- `entries.find(name)`: the node with that key, if any. -/
def Entries.find : Entries → List Byte → Option ZIPFileEntry
  | [], _ => none
  | (k, e) :: t, name => if name = k then some e else Entries.find t name

/-- Insertion of a node with a key the map does not hold, at its place in key order. -/
def Entries.insertNew (name : List Byte) (e : ZIPFileEntry) : Entries → Entries
  | [] => [(name, e)]
  | (k, v) :: t =>
    if strLt name k then (name, e) :: (k, v) :: t else (k, v) :: Entries.insertNew name e t

/-- Update through a pointer to the node with key `name`. -/
def Entries.update (name : List Byte) (f : ZIPFileEntry → ZIPFileEntry) : Entries → Entries
  | [] => []
  | (k, v) :: t => if name = k then (k, f v) :: t else (k, v) :: Entries.update name f t

/-- The map after `entries[name]`: a default-constructed node is added when the key is
absent. -/
def Entries.index (m : Entries) (name : List Byte) : Entries :=
  if (m.find name).isSome then m else Entries.insertNew name ZIPFileEntry.fresh m

/-- The container (`class ZIPFile`). -/
structure ZIPFile where
  /-- Descriptor of the archive, negative when closed. -/
  file_fd : Int
  /-- The file the descriptor refers to (meaningful while `file_fd >= 0`). -/
  store : Storage
  can_write : Bool
  wrote_trailer : Bool
  current_entry : List Byte
  write_pos : Int
  entries : Entries
  deriving DecidableEq, Repr

/-- Modelled from the spec: a container as constructed (`ZIPFile::ZIPFile` has an empty
body, the member initialisers are in `zipfile.h`): closed, nothing written, no
entries. -/
def ZIPFile.init : ZIPFile :=
  ⟨-1, Storage.ofBytes [], false, false, [], 0, []⟩

/-- `ZIPFile::seek_file`, source lines 302-305. -/
def ZIPFile.seek_file (z : ZIPFile) (pos : Int) : Int × ZIPFile :=
  if z.file_fd < 0 then (-1, z)
  else ((z.store.lseek pos).1, { z with store := (z.store.lseek pos).2 })

/-- `ZIPFile::read`, source lines 307-310: the result, the bytes stored in the buffer
and the container afterwards. -/
def ZIPFile.read (z : ZIPFile) (count : Nat) : Int × List Byte × ZIPFile :=
  if z.file_fd < 0 then (-1, [], z)
  else ((z.store.read count).1, (z.store.read count).2.1,
    { z with store := (z.store.read count).2.2 })

/-- `ZIPFile::write`, source lines 312-315, with `data` the `count` bytes of the
buffer. -/
def ZIPFile.write (z : ZIPFile) (data : List Byte) : Int × ZIPFile :=
  if z.file_fd < 0 then (-1, z)
  else ((z.store.write data).1, { z with store := (z.store.write data).2 })

/-- `ZIPFile::end_of_file`, source lines 180-182 (`lseek` on a closed descriptor
fails). -/
def ZIPFile.end_of_file (z : ZIPFile) : Int × ZIPFile :=
  if z.file_fd < 0 then (-1, z)
  else (z.store.lseekEnd.1, { z with store := z.store.lseekEnd.2 })

/-- `ZIPFileEntry::seek_file`, source lines 44-56, on the entry `e` of container `c`:
the result, the entry and the container afterwards. -/
def ZIPFileEntry.seek_file (e : ZIPFileEntry) (c : ZIPFile) (pos : Int) :
    Int × ZIPFileEntry × ZIPFile :=
  if e.file = false ∨ e.file_offset = 0 then (-1, e, c)
  else if pos ≠ e.position ∧ e.can_extend = true then (-1, e, c)
  else
    let pos1 := if pos < 0 then 0 else pos
    let pos2 := if pos1 > e.file_length then e.file_length else pos1
    let r := c.seek_file (wrapOff (pos2 + e.file_offset))
    let pos3 := wrapOff (r.1 - e.file_offset)
    if pos3 < 0 ∨ pos3 > e.file_length then (-1, e, r.2)
    else (pos3, { e with position := pos3 }, r.2)

/-- `ZIPFileEntry::read`, source lines 58-72: the result, the bytes stored in the
buffer, the entry and the container afterwards.  In `seek_file(position) != position`
the call is evaluated before the right operand is loaded. -/
def ZIPFileEntry.read (e : ZIPFileEntry) (c : ZIPFile) (count : Nat) :
    Int × List Byte × ZIPFileEntry × ZIPFile :=
  if e.file = false ∨ e.file_offset = 0 then (-1, [], e, c)
  else if e.position ≥ e.file_length then (0, [], e, c)
  else
    let mread0 := toSize (e.file_length - e.position)
    let mread := if mread0 > count then count else mread0
    if mread > 0 then
      let s := e.seek_file c e.position
      if s.1 ≠ s.2.1.position then (-1, [], s.2.1, s.2.2)
      else
        let r := s.2.2.read mread
        let got := toSize r.1
        let e1 := if got > 0 then { s.2.1 with position := wrapOff (s.2.1.position + got) }
          else s.2.1
        (wrapOff got, r.2.1, e1, r.2.2)
    else (wrapOff mread, [], e, c)

/-- `ZIPFileEntry::write`, source lines 74-100, with `buffer` the memory at the
pointer (at least `count` bytes): the result, the entry and the container afterwards.
As in `read`, the call in `seek_file(position) != position` is evaluated before the
right operand is loaded. -/
def ZIPFileEntry.write (e : ZIPFileEntry) (c : ZIPFile) (buffer : List Byte) (count : Nat) :
    Int × ZIPFileEntry × ZIPFile :=
  if e.file = false ∨ e.file_offset = 0 ∨ e.can_write = false then (-1, e, c)
  else if e.position > e.file_length then (0, e, c)
  else if e.position = e.file_length ∧ e.can_extend = false then (0, e, c)
  else
    let mwrite0 := toSize (e.file_length - e.position)
    let mwrite := if e.can_extend then count else if mwrite0 > count then count else mwrite0
    if mwrite > 0 then
      let s := e.seek_file c e.position
      if s.1 ≠ s.2.1.position then (-1, s.2.1, s.2.2)
      else
        let w := s.2.2.write (buffer.take mwrite)
        let put := toSize w.1
        let e1 := if put > 0 then
            let p := wrapOff (s.2.1.position + put)
            { s.2.1 with
                position := p
                write_crc := zipcrc_update s.2.1.write_crc (buffer.take count)
                file_length := if s.2.1.file_length < p ∧ s.2.1.can_extend = true then p
                  else s.2.1.file_length }
          else s.2.1
        (wrapOff put, e1, w.2)
    else (wrapOff mwrite, e, c)

/-- `ZIPFile::close`, source lines 109-116. -/
def ZIPFile.close (z : ZIPFile) : ZIPFile :=
  if z.file_fd ≥ 0 then { z with file_fd := -1, store := z.store.close, entries := [] }
  else { z with entries := [] }

/-- `ZIPFile::get_entry`, source lines 118-127; `name` is the memory at the pointer, the
key is the C string in it. -/
def ZIPFile.get_entry (z : ZIPFile) (name : List Byte) : Option ZIPFileEntry :=
  if z.file_fd < 0 then none
  else if cstr name = [] then none
  else z.entries.find (cstr name)

/-- The local header of an entry with its sizes and checksum patched in, source lines
196-197. -/
def patchHeader (hdr : ZIPLocalFileHeader) (ent : ZIPFileEntry) : ZIPLocalFileHeader :=
  { hdr with
      compressed_size := toU32 ent.file_length
      uncompressed_size := toU32 ent.file_length
      crc_32 := toU32 (zipcrc_finalize ent.write_crc) }

/-- The header patch-up of `close_current`, source lines 195-202, for the entry `ent`
(already marked not writable); every failure is ignored. -/
def ZIPFile.patch_current (z : ZIPFile) (ent : ZIPFileEntry) : ZIPFile :=
  let s := z.seek_file ent.file_header_offset
  if s.1 = ent.file_header_offset then
    let r := s.2.read sizeofLocal
    if toSize r.1 = sizeofLocal then
      let hdr := patchHeader (ZIPLocalFileHeader.ofBytes r.2.1) ent
      let s2 := r.2.2.seek_file ent.file_header_offset
      if s2.1 = ent.file_header_offset then (s2.2.write hdr.toBytes).2
      else s2.2
    else r.2.2
  else s.2

/-- `ZIPFile::close_current`, source lines 184-207. -/
def ZIPFile.close_current (z : ZIPFile) : ZIPFile :=
  if z.can_write = false then z
  else if z.current_entry ≠ [] then
    match z.get_entry z.current_entry with
    | some ent =>
      if ent.can_write then
        let z1 := { z with
          entries := z.entries.update (cstr z.current_entry)
            (fun e => { e with can_write := false, can_extend := false }) }
        { z1.patch_current ent with current_entry := [] }
      else { z with current_entry := [] }
    | none => { z with current_entry := [] }
  else { z with current_entry := [] }

/-- The local header `new_entry` writes, source lines 156-162. -/
def newLocalHeader (name : List Byte) : ZIPLocalFileHeader :=
  { ZIPLocalFileHeader.zero with
      local_file_header_signature := 0x04034b50
      version_needed_to_extract := 20
      general_purpose_bit_flag := 0
      compression_method := 0
      file_name_length := toU16 name.length }

/-- `ZIPFile::new_entry`, source lines 129-178; `name` is the memory at the pointer.
The result is the key of the node the returned pointer refers to, `none` for `NULL`. -/
def ZIPFile.new_entry (z : ZIPFile) (name : List Byte) : Option (List Byte) × ZIPFile :=
  if z.file_fd < 0 ∨ z.can_write = false then (none, z)
  else if (z.entries.find (cstr name)).isSome then (none, z)
  else if cstr name = [] then (none, z)
  else
    let nm := cstr name
    let z1 := { z.close_current with current_entry := nm }
    let eof := z1.end_of_file
    let hoff := eof.1
    let wp := wrapOff ((toSize hoff + (sizeofLocal + nm.length)) % 2 ^ 64 : Nat)
    let z2 := { eof.2 with
      write_pos := wp
      entries := (eof.2.entries.index nm).update nm (fun e =>
        { e with
            name := nm
            can_write := true
            can_extend := true
            file_header_offset := hoff
            write_crc := zipcrc_init
            file_offset := wp
            file := true }) }
    let s := z2.seek_file hoff
    if s.1 ≠ hoff then (none, s.2.close_current)
    else
      let w := s.2.write (newLocalHeader nm).toBytes
      if toSize w.1 ≠ sizeofLocal then (none, w.2.close_current)
      else
        let w2 := w.2.write nm
        if toSize w2.1 ≠ nm.length then (none, w2.2.close_current)
        else
          let s2 := w2.2.seek_file wp
          if s2.1 ≠ wp then (none, s2.2.close_current)
          else (some nm, s2.2)

/-- The central-directory record `writeZIPFooter` emits for an entry, source lines
332-347. -/
def centralRecord (ent : ZIPFileEntry) : pkzip_central_directory_header_main :=
  { pkzip_central_directory_header_main.zero with
      sig := PKZIP_CENTRAL_DIRECTORY_HEADER_SIG
      version_made_by := 20
      version_needed_to_extract := 20
      general_purpose_bit_flag := 0
      compression_method := 0
      last_mod_file_time := 0
      last_mod_file_date := 0
      compressed_size := toU32 ent.file_length
      uncompressed_size := toU32 ent.file_length
      filename_length := toU16 ent.name.length
      disk_number_start := 1
      internal_file_attributes := 0
      external_file_attributes := 0
      relative_offset_of_local_header := toU32 ent.file_header_offset
      crc32 := toU32 (zipcrc_finalize ent.write_crc) }

/-- The loop of `writeZIPFooter` over the nodes of the map, source lines 329-356, with
the counters `cdircount` and `cdirbytes` (`uint32_t`): it stops at the first write that
is not complete. -/
def ZIPFile.write_central_directory :
    Entries → Nat → Nat → ZIPFile → Nat × Nat × ZIPFile
  | [], cdircount, cdirbytes, z => (cdircount, cdirbytes, z)
  | (_, ent) :: rest, cdircount, cdirbytes, z =>
    let w := z.write (centralRecord ent).toBytes
    if toSize w.1 ≠ sizeofCentral then (cdircount, cdirbytes, w.2)
    else
      let cdirbytes1 := (cdirbytes + sizeofCentral) % 2 ^ 32
      let cdircount1 := (cdircount + 1) % 2 ^ 32
      let w2 := w.2.write ent.name
      if toSize w2.1 ≠ ent.name.length then (cdircount1, cdirbytes1, w2.2)
      else
        ZIPFile.write_central_directory rest cdircount1
          ((cdirbytes1 + ent.name.length) % 2 ^ 32) w2.2

/-- The end-of-central-directory record `writeZIPFooter` emits, source lines 358-365. -/
def endRecord (cdircount cdirbytes : Nat) (cdirofs : Int) :
    pkzip_central_directory_header_end :=
  { pkzip_central_directory_header_end.zero with
      sig := PKZIP_CENTRAL_DIRECTORY_END_SIG
      number_of_disk_with_start_of_central_directory := 0
      number_of_this_disk := 0
      total_number_of_entries_of_central_dir_on_this_disk := toU16 cdircount
      total_number_of_entries_of_central_dir := toU16 cdircount
      size_of_central_directory := cdirbytes
      offset_of_central_directory_from_start_disk := toU32 cdirofs }

/-- `ZIPFile::writeZIPFooter`, source lines 317-370. -/
def ZIPFile.writeZIPFooter (z : ZIPFile) : ZIPFile :=
  if z.file_fd < 0 ∨ z.wrote_trailer = true ∨ z.can_write = false then z
  else
    let eof := z.close_current.end_of_file
    let cd := ZIPFile.write_central_directory eof.2.entries 0 0 eof.2
    let w := cd.2.2.write (endRecord cd.1 cd.2.1 eof.1).toBytes
    { w.2 with wrote_trailer := true, current_entry := [] }

/-- `O_RDONLY`, `O_WRONLY` and `O_RDWR` as the source assumes them (line 233). -/
def O_RDONLY : Nat := 0

/-- See `O_RDONLY`. -/
def O_WRONLY : Nat := 1

/-- See `O_RDONLY`. -/
def O_RDWR : Nat := 2

/-- The assignments to the node `entries[(char*)tmp]` for one central-directory record,
source lines 287-294. -/
def loadEntry (chdr : pkzip_central_directory_header_main) (name : List Byte)
    (e : ZIPFileEntry) : ZIPFileEntry :=
  let hoff : Int := (toU32 chdr.relative_offset_of_local_header : Nat)
  { e with
      can_write := false
      can_extend := false
      file_length := (toU32 chdr.uncompressed_size : Nat)
      file_header_offset := hoff
      file_offset := wrapOff ((toSize hoff + sizeofLocal + toU16 chdr.filename_length +
        toU16 chdr.extra_field_length) % 2 ^ 64 : Nat)
      position := 0
      name := name
      file := true }

/-- The loop over the central directory in `open`, source lines 271-295, with `remain`
the bytes of the directory not yet consumed.  Every pass that does not leave the loop
lowers `remain` by at least the record size, so `fuel >= remain` passes are enough (see
`scan_fuel`); `break` and the end of the loop both return the container as it is. -/
def ZIPFile.scan_central_directory : Nat → Int → ZIPFile → ZIPFile
  | 0, _, z => z
  | fuel + 1, remain, z =>
    if remain ≥ (sizeofCentral : Int) then
      let r := z.read sizeofCentral
      if toSize r.1 ≠ sizeofCentral then r.2.2
      else
        let remain1 := remain - sizeofCentral
        let chdr := pkzip_central_directory_header_main.ofBytes r.2.1
        if chdr.sig ≠ PKZIP_CENTRAL_DIRECTORY_HEADER_SIG then r.2.2
        else if chdr.filename_length ≥ 512 then r.2.2
        else if chdr.filename_length ≠ 0 then
          let r2 := r.2.2.read chdr.filename_length
          if r2.1 ≠ (chdr.filename_length : Int) then r2.2.2
          else
            let remain2 := remain1 - chdr.filename_length
            let name := cstr r2.2.1
            if name = [] then ZIPFile.scan_central_directory fuel remain2 r2.2.2
            else
              ZIPFile.scan_central_directory fuel remain2
                { r2.2.2 with
                    entries := (r2.2.2.entries.index name).update name (loadEntry chdr name) }
        else ZIPFile.scan_central_directory fuel remain1 r.2.2
    else z

/-- The scan of `open` in read-only mode, source lines 244-296, on the freshly opened
container. -/
def ZIPFile.scan (z : ZIPFile) : Int × ZIPFile :=
  let eof := z.end_of_file
  let fsz := eof.1
  if fsz < 64 then (-1, eof.2.close)
  else
    let s0 := eof.2.seek_file 0
    if s0.1 ≠ 0 then (-1, s0.2.close)
    else
      let r0 := s0.2.read 4
      if r0.1 ≠ 4 then (-1, r0.2.2.close)
      else if r0.2.1 ≠ localMagic then (-1, r0.2.2.close)
      else
        let s1 := r0.2.2.seek_file (wrapOff (fsz - sizeofEnd))
        if s1.1 ≠ wrapOff (fsz - sizeofEnd) then (-1, s1.2.close)
        else
          let r1 := s1.2.read sizeofEnd
          if toSize r1.1 ≠ sizeofEnd then (-1, r1.2.2.close)
          else
            let ehdr := pkzip_central_directory_header_end.ofBytes r1.2.1
            if ehdr.sig ≠ PKZIP_CENTRAL_DIRECTORY_END_SIG then (-1, r1.2.2.close)
            else if ehdr.size_of_central_directory > 0x100000 then (-1, r1.2.2.close)
            else if ehdr.offset_of_central_directory_from_start_disk = 0 then
              (-1, r1.2.2.close)
            else if (ehdr.offset_of_central_directory_from_start_disk : Int) ≥ fsz then
              (-1, r1.2.2.close)
            else
              let s2 := r1.2.2.seek_file ehdr.offset_of_central_directory_from_start_disk
              if s2.1 ≠ (ehdr.offset_of_central_directory_from_start_disk : Int) then
                (-1, s2.2.close)
              else
                (0, ZIPFile.scan_central_directory ehdr.size_of_central_directory
                  ehdr.size_of_central_directory s2.2)

/-- `ZIPFile::open`, source lines 209-300.  `path` is `none` for a `NULL` pointer, and
otherwise the file the path names, as `::open` finds it. -/
def ZIPFile.open (z : ZIPFile) (path : Option Storage) (mode : Nat) : Int × ZIPFile :=
  let z0 := z.close
  match path with
  | none => (-1, z0)
  | some disk =>
    if mode % 4 = O_WRONLY then (-1, z0)
    else
      let o := disk.openFile mode
      let z1 := { z0 with file_fd := o.1, store := o.2 }
      if o.1 < 0 then (-1, z1)
      else
        let s := z1.store.lseek 0
        if s.1 ≠ 0 then (-1, { z1 with store := s.2 }.close)
        else
          let z2 := { z1 with
            store := s.2
            entries := []
            current_entry := []
            wrote_trailer := false
            write_pos := 0
            can_write := decide (mode % 4 = O_RDWR) }
          if mode % 4 = O_RDONLY then z2.scan else (0, z2)

/-! ## Use of an entry through its pointer -/

/-- `ent->seek_file(pos)` for the node with key `name` of the container; `-1` and no
effect when there is no such node. -/
def ZIPFile.entry_seek (z : ZIPFile) (name : List Byte) (pos : Int) : Int × ZIPFile :=
  match z.entries.find name with
  | none => (-1, z)
  | some e =>
    ((e.seek_file z pos).1,
      { (e.seek_file z pos).2.2 with
          entries := z.entries.update name (fun _ => (e.seek_file z pos).2.1) })

/-- `ent->read(buffer,count)` for the node with key `name` of the container. -/
def ZIPFile.entry_read (z : ZIPFile) (name : List Byte) (count : Nat) :
    Int × List Byte × ZIPFile :=
  match z.entries.find name with
  | none => (-1, [], z)
  | some e =>
    ((e.read z count).1, (e.read z count).2.1,
      { (e.read z count).2.2.2 with
          entries := z.entries.update name (fun _ => (e.read z count).2.2.1) })

/-- `ent->write(buffer,count)` for the node with key `name` of the container. -/
def ZIPFile.entry_write (z : ZIPFile) (name : List Byte) (buffer : List Byte) (count : Nat) :
    Int × ZIPFile :=
  match z.entries.find name with
  | none => (-1, z)
  | some e =>
    ((e.write z buffer count).1,
      { (e.write z buffer count).2.2 with
          entries := z.entries.update name (fun _ => (e.write z buffer count).2.1) })

/-! ## Storage on which every call succeeds -/

/-- The container is open on a writable descriptor and no system call of the storage
fails or falls short. -/
def Ideal (z : ZIPFile) : Prop :=
  0 ≤ z.file_fd ∧ z.store.script = [] ∧ z.store.rdonly = false

instance (z : ZIPFile) : Decidable (Ideal z) := by
  unfold Ideal
  infer_instance

/-- The container is open and no system call of the storage fails or falls short (the
descriptor may be read-only). -/
def IdealRead (z : ZIPFile) : Prop :=
  0 ≤ z.file_fd ∧ z.store.script = []

instance (z : ZIPFile) : Decidable (IdealRead z) := by
  unfold IdealRead
  infer_instance

/-- Result of an `open` that failed closed: negative result, handle released, no
entries. -/
def Rejected (r : Int × ZIPFile) : Prop := r.1 = -1 ∧ r.2.file_fd = -1 ∧ r.2.entries = []

/-! ## Central directory as a list of records -/

/-- A central-directory record as it lies in the file: the 46 bytes of the fixed part
and the filename bytes that follow. -/
abbrev RawRecord := List Byte × List Byte

/-- A record that passes the checks of the directory loop (source lines 275-276): record
signature, filename length below the 512-byte scratch buffer, filename present in
full. -/
def WellFormedRecord (r : RawRecord) : Prop :=
  r.1.length = sizeofCentral ∧ rd32 r.1 0 = PKZIP_CENTRAL_DIRECTORY_HEADER_SIG ∧
    rd16 r.1 28 = r.2.length ∧ r.2.length < 512

instance (r : RawRecord) : Decidable (WellFormedRecord r) := by
  unfold WellFormedRecord
  infer_instance

/-- The bytes of a sequence of records. -/
def dirBytes : List RawRecord → List Byte
  | [] => []
  | r :: t => r.1 ++ r.2 ++ dirBytes t

/-- The map after the directory loop has taken in one well-formed record: a record
whose name decodes to the empty string is skipped (line 284). -/
def loadRecord (m : Entries) (r : RawRecord) : Entries :=
  if cstr r.2 = [] then m
  else (m.index (cstr r.2)).update (cstr r.2)
    (loadEntry (pkzip_central_directory_header_main.ofBytes r.1) (cstr r.2))

/-- The map after the directory loop has taken in a sequence of well-formed records. -/
def loadRecords (m : Entries) : List RawRecord → Entries
  | [] => m
  | r :: t => loadRecords (loadRecord m r) t

/-- Bytes at the place where the loop expects a record that make it leave the loop:
fewer than 46 bytes (the record cannot be read in full), a wrong record signature, a
filename length of 512 or more, or fewer bytes after the record than the filename
length (the filename cannot be read in full). -/
def Malformed (rest : List Byte) : Prop :=
  rest.length < sizeofCentral ∨ rd32 rest 0 ≠ PKZIP_CENTRAL_DIRECTORY_HEADER_SIG ∨
    512 ≤ rd16 rest 28 ∨ rest.length < sizeofCentral + rd16 rest 28

instance (rest : List Byte) : Decidable (Malformed rest) := by
  unfold Malformed
  infer_instance

/-! ## Writer sessions -/

/-- Successive `write` calls through the pointer to the entry `name`, one per chunk,
each with `count` the size of its chunk. -/
def ZIPFile.write_chunks (z : ZIPFile) (name : List Byte) : List (List Byte) → ZIPFile
  | [] => z
  | c :: t => ZIPFile.write_chunks (z.entry_write name c c.length).2 name t

/-- `new_entry(name)` followed, when it returns an entry, by the writes of the chunks
of its payload through the returned pointer. -/
def ZIPFile.store_stream (z : ZIPFile) (name : List Byte) (chunks : List (List Byte)) :
    ZIPFile :=
  match (z.new_entry name).1 with
  | some k => (z.new_entry name).2.write_chunks k chunks
  | none => (z.new_entry name).2

/-- The streams of a session stored one after the other. -/
def ZIPFile.store_all (z : ZIPFile) : List (List Byte × List (List Byte)) → ZIPFile
  | [] => z
  | s :: t => ZIPFile.store_all (z.store_stream s.1 s.2) t

/-- The file a writer session leaves on disk: an empty file opened read-write, the
streams stored, `writeZIPFooter`, `close`. -/
def archiveOf (session : List (List Byte × List (List Byte))) : List Byte :=
  (((ZIPFile.init.open (some (Storage.ofBytes [])) O_RDWR).2.store_all
    session).writeZIPFooter.close).store.bytes

/-- A session that stores every payload with a single `write`. -/
def singleWrites (pairs : List (List Byte × List Byte)) : List (List Byte × List (List Byte)) :=
  pairs.map (fun p => (p.1, [p.2]))

/-! ## Layout of a writer session -/

/-- A stream of a session: its name and the payload written so far. -/
abbrev Stream := List Byte × List Byte

/-- The entry of a stream while it is being appended, its local header at offset `off`. -/
def activeEntry (off : Nat) (name payload : List Byte) : ZIPFileEntry :=
  { can_write := true
    can_extend := true
    name := name
    file_header_offset := (off : Int)
    file_offset := ((off + (sizeofLocal + name.length) : Nat) : Int)
    file_length := (payload.length : Int)
    position := (payload.length : Int)
    write_crc := zipcrc_update zipcrc_init payload
    file := true }

/-- The entry of a stream once it is finalized. -/
def finalEntry (off : Nat) (name payload : List Byte) : ZIPFileEntry :=
  { activeEntry off name payload with can_write := false, can_extend := false }

/-- The local header of a finalized stream: sizes and checksum patched in. -/
def finalHeader (s : Stream) : ZIPLocalFileHeader :=
  patchHeader (newLocalHeader s.1) (activeEntry 0 s.1 s.2)

/-- The bytes of a finalized stream: local header, name, payload. -/
def block (s : Stream) : List Byte := (finalHeader s).toBytes ++ s.1 ++ s.2

/-- The bytes of finalized streams laid one after the other. -/
def blocks : List Stream → List Byte
  | [] => []
  | s :: t => block s ++ blocks t

/-- The entry a session holds for a name: that of the first stream of that name, with
the offset its block has when the first block starts at `off`. -/
def specFind (off : Nat) : List Stream → List Byte → Option ZIPFileEntry
  | [], _ => none
  | s :: t, n =>
    if n = s.1 then some (finalEntry off s.1 s.2) else specFind (off + (block s).length) t n

/-- The central directory `writeZIPFooter` emits for a map: one record per node, in
iteration order. -/
def directoryOf (m : Entries) : List RawRecord :=
  m.map (fun ke => ((centralRecord ke.2).toBytes, ke.2.name))

/-- State of a writer with no stream open: the file holds the finalized blocks of
`done` and the map their entries. -/
structure Idle (z : ZIPFile) (done : List Stream) : Prop where
  ideal : Ideal z
  writable : z.can_write = true
  current : z.current_entry = []
  bytes : z.store.bytes = blocks done
  find : ∀ n, z.entries.find n = specFind 0 done n
  nodup : (z.entries.map Prod.fst).Nodup

/-- State of a writer with the stream `name` open and `payload` written to it: the file
holds the finalized blocks of `done`, then the unpatched header, the name and the
payload of the open stream. -/
structure Active (z : ZIPFile) (done : List Stream) (name payload : List Byte) : Prop where
  ideal : Ideal z
  writable : z.can_write = true
  current : z.current_entry = name
  bytes : z.store.bytes = blocks done ++ (newLocalHeader name).toBytes ++ name ++ payload
  find : ∀ n, z.entries.find n =
    if n = name then some (activeEntry (blocks done).length name payload)
    else specFind 0 done n
  nodup : (z.entries.map Prod.fst).Nodup
  fresh : specFind 0 done name = none
  cname : cstr name = name
  nonempty : name ≠ []

/-- State of a writer between two `new_entry` calls: no stream open, or the last stream
of `done` still open. -/
def Ready (z : ZIPFile) (done : List Stream) : Prop :=
  Idle z done ∨ ∃ pre n p, done = pre ++ [(n, p)] ∧ Active z pre n p

/-- The streams a session stores: each name with the concatenation of its chunks. -/
def streamsOf (session : List (List Byte × List (List Byte))) : List Stream :=
  session.map (fun s => (s.1, s.2.flatten))

/-- A name the container can store and find again: a non-empty C string. -/
def ValidName (name : List Byte) : Prop := cstr name = name ∧ name ≠ []

instance (name : List Byte) : Decidable (ValidName name) := by
  unfold ValidName
  infer_instance

/-- Size of the local blocks of a list of streams: header, name and payload of each. -/
def bodySize (l : List Stream) : Nat :=
  (l.map (fun s => sizeofLocal + s.1.length + s.2.length)).sum

/-- Size of the central directory for a list of names: record and name of each. -/
def dirSize (names : List (List Byte)) : Nat :=
  (names.map (fun n => sizeofCentral + n.length)).sum

/-- Size of the archive of a list of streams: blocks, central directory, end record. -/
def archiveSize (l : List Stream) : Nat :=
  bodySize l + dirSize (l.map Prod.fst) + sizeofEnd

/-- The entry the directory loop creates for the central record `writeZIPFooter` emitted
for the entry `e`, under the key `n`. -/
def loadedEntry (e : ZIPFileEntry) (n : List Byte) : ZIPFileEntry :=
  loadEntry (pkzip_central_directory_header_main.ofBytes (centralRecord e).toBytes) n
    ZIPFileEntry.fresh

/-- The entry a reader holds for a stream whose local header lies at `off`. -/
def readerEntry (off : Nat) (name payload : List Byte) : ZIPFileEntry :=
  { can_write := false
    can_extend := false
    name := name
    file_header_offset := (off : Int)
    file_offset := ((off + (sizeofLocal + name.length) : Nat) : Int)
    file_length := (payload.length : Int)
    position := 0
    write_crc := 0
    file := true }

/-- Reopening a file read-only with a fresh container, on a storage that does not fail:
the result of `open` and the container. -/
def readBack (archive : List Byte) : Int × ZIPFile :=
  ZIPFile.init.open (some (Storage.ofBytes archive)) O_RDONLY

/-- What a read leaves untouched on an ideal storage. -/
def Kept (z z1 : ZIPFile) : Prop :=
  z1.entries = z.entries ∧ z1.file_fd = z.file_fd ∧ z1.store.bytes = z.store.bytes ∧
    IdealRead z1 ∧ z1.can_write = z.can_write

/-! ## Sample states -/

/-- The name `STATE.BIN`. -/
def stateBin : List Byte := [0x53, 0x54, 0x41, 0x54, 0x45, 0x2E, 0x42, 0x49, 0x4E]

/-- A container just opened read-write on an empty file. -/
def emptyRW : ZIPFile := (ZIPFile.init.open (some (Storage.ofBytes [])) O_RDWR).2

/-- The container after `new_entry("STATE.BIN")` and a write of four bytes. -/
def sampleActive : ZIPFile :=
  ((emptyRW.new_entry stateBin).2.entry_write stateBin [1, 2, 3, 4] 4).2

/-- The entry being extended in `sampleActive`: payload at offset 39, four bytes
written, cursor at the end. -/
def sampleExtending : ZIPFileEntry :=
  ⟨true, true, stateBin, 0, 39, 4, 4, zipcrc_update zipcrc_init [1, 2, 3, 4], true⟩

/-- A writable entry of fixed size (not extending) with its cursor at the end of its
four bytes. -/
def sampleFixedAtEnd : ZIPFileEntry :=
  { sampleExtending with can_extend := false }

/-- The archive the sample session leaves on disk: `STATE.BIN` with four bytes, 120
bytes in all. -/
def sampleArchive : List Byte := sampleActive.writeZIPFooter.close.store.bytes

/-- The sample archive with the first byte of its end-of-central-directory signature
(offset 98) cleared. -/
def sampleBadTrailer : List Byte := sampleArchive.set 98 0

/-- The archive with the streams `A` (one byte 1) and `B` (one byte 2): local blocks at
offsets 0 and 32, central records at 64 and 111, end record at 158, 180 bytes. -/
def sampleTwo : List Byte := archiveOf (singleWrites [([0x41], [1]), ([0x42], [2])])

/-- The archive `sampleTwo` with the first signature byte of the central record of `B`
(offset 111) cleared. -/
def sampleBadRecord : List Byte := sampleTwo.set 111 0

/-! ## Steps of `new_entry` -/

/-- The header offset `new_entry` takes for a new entry `nm`: the end of the file once
the previous entry is finalized, source lines 137-139. -/
def ZIPFile.entry_start (z : ZIPFile) (nm : List Byte) : Int :=
  (({ z.close_current with current_entry := nm } : ZIPFile).end_of_file).1

/-- The payload offset `new_entry` takes for a new entry `nm`, source line 146. -/
def ZIPFile.entry_payload (z : ZIPFile) (nm : List Byte) : Int :=
  wrapOff ((toSize (z.entry_start nm) + (sizeofLocal + nm.length)) % 2 ^ 64 : Nat)

/-- The container of `new_entry` once the node of the new entry `nm` is set up, before
the header is written, source lines 137-149. -/
def ZIPFile.begin_entry (z : ZIPFile) (nm : List Byte) : ZIPFile :=
  { (({ z.close_current with current_entry := nm } : ZIPFile).end_of_file).2 with
      write_pos := z.entry_payload nm
      entries :=
        ((({ z.close_current with current_entry := nm } : ZIPFile).end_of_file).2.entries.index
          nm).update nm (fun e =>
            { e with
                name := nm
                can_write := true
                can_extend := true
                file_header_offset := z.entry_start nm
                write_crc := zipcrc_init
                file_offset := z.entry_payload nm
                file := true }) }

/-! ## Sessions as sequences of calls -/

/-- A call of a session on the container or, through the pointer to a node of the map
(named by its key), on one of its entries. -/
inductive Call where
  | new_entry (name : List Byte)
  | close_current
  | writeZIPFooter
  | close
  | get_entry (name : List Byte)
  | entry_seek (name : List Byte) (pos : Int)
  | entry_read (name : List Byte) (count : Nat)
  | entry_write (name : List Byte) (buffer : List Byte) (count : Nat)
  deriving DecidableEq, Repr

/-- The container after one call of a session (results are dropped). -/
def ZIPFile.call (z : ZIPFile) : Call → ZIPFile
  | Call.new_entry name => (z.new_entry name).2
  | Call.close_current => z.close_current
  | Call.writeZIPFooter => z.writeZIPFooter
  | Call.close => z.close
  | Call.get_entry _ => z
  | Call.entry_seek name pos => (z.entry_seek name pos).2
  | Call.entry_read name count => (z.entry_read name count).2.2
  | Call.entry_write name buffer count => (z.entry_write name buffer count).2

/-- The container after a sequence of calls. -/
def ZIPFile.run (z : ZIPFile) : List Call → ZIPFile
  | [] => z
  | c :: t => ZIPFile.run (z.call c) t

/-- Whether a call belongs to an appending session: `new_entry`, or a `write` through an
entry pointer whose buffer holds the `count` bytes to write. -/
def Call.isAppend : Call → Bool
  | Call.new_entry _ => true
  | Call.entry_write _ buffer count => decide (count ≤ buffer.length)
  | _ => false

/-- An upper bound of the bytes a call of an appending session adds to the file. -/
def Call.growth : Call → Nat
  | Call.new_entry name => sizeofLocal + (cstr name).length
  | Call.entry_write _ _ count => count
  | _ => 0

/-! ## Relations between states -/

/-- The container `z1` differs from `z` at most in the storage. -/
def StoreOnly (z z1 : ZIPFile) : Prop :=
  z1.file_fd = z.file_fd ∧ z1.can_write = z.can_write ∧ z1.wrote_trailer = z.wrote_trailer ∧
    z1.current_entry = z.current_entry ∧ z1.write_pos = z.write_pos ∧ z1.entries = z.entries

/-- The entry `e1` differs from `e` at most in the cursor, the length and the running
checksum. -/
def SameNode (e e1 : ZIPFileEntry) : Prop :=
  e1.can_write = e.can_write ∧ e1.can_extend = e.can_extend ∧ e1.name = e.name ∧
    e1.file_header_offset = e.file_header_offset ∧ e1.file_offset = e.file_offset ∧
    e1.file = e.file

/-- Whether a system call is a `::write`. -/
def StorageOp.isWrite : StorageOp → Bool
  | StorageOp.write _ => true
  | _ => false

/-- The `::write` calls issued on the descriptor so far, latest first. -/
def Storage.writes (s : Storage) : List StorageOp := s.log.filter StorageOp.isWrite

/-- From `s` to `s1` no `::write` was issued and the file bytes are the same. -/
def Quiet (s s1 : Storage) : Prop := s1.bytes = s.bytes ∧ s1.writes = s.writes

/-- From `s` to `s1` the access mode of the descriptor is the same and a storage on
which every call succeeds stays one. -/
def Tame (s s1 : Storage) : Prop := s1.rdonly = s.rdonly ∧ (s.script = [] → s1.script = [])

/-! ## Invariants of sessions -/

/-- The invariant of the container behind the single-writer property: the keys of the
map are distinct, non-empty C strings; the active-entry marker is a C string; a closed
container has no entries; every entry carries its key as its name; and an entry in
extend mode is writable and is the one the marker names. -/
def WriterInv (z : ZIPFile) : Prop :=
  (z.entries.map Prod.fst).Nodup ∧ cstr z.current_entry = z.current_entry ∧
    (z.file_fd < 0 → z.entries = []) ∧
    ∀ k e, z.entries.find k = some e →
      k ≠ [] ∧ cstr k = k ∧ e.name = k ∧
        (e.can_extend = true → k = z.current_entry ∧ e.can_write = true)

/-- State of a session on a container opened read-only on a file with the bytes `b`, on
whose descriptor the `::write` calls `w` had been issued before: the container and all
its entries are not writable, the file still has the bytes `b` and no further `::write`
has been issued. -/
def ReadOnlySession (b : List Byte) (w : List StorageOp) (z : ZIPFile) : Prop :=
  z.can_write = false ∧ (∀ k e, z.entries.find k = some e → e.can_write = false) ∧
    z.store.bytes = b ∧ z.store.writes = w

/-! ## Further sample states -/

/-- The sample container with the outcomes of its next two system calls scripted: the
first (the seek of an entry operation) succeeds, the second (the transfer) fails. -/
def sampleFailing : ZIPFile :=
  { sampleActive with
      store := { sampleActive.store with script := [Outcome.ok, Outcome.fail] } }

/-- The fixed-size entry of four bytes with its cursor at the start. -/
def sampleRewound : ZIPFileEntry := { sampleFixedAtEnd with position := 0 }

/-- A container just opened read-write on an empty file whose fourth system call from
now fails: in `new_entry` these are the seek to the end of the file, the seek to the
header offset, the write of the header (all succeed) and the write of the name (fails). -/
def sampleNameWriteFails : ZIPFile :=
  { emptyRW with
      store := { emptyRW.store with
        script := [Outcome.ok, Outcome.ok, Outcome.ok, Outcome.fail] } }

/-- A name of 4294967250 bytes `A`: with the 46 bytes of its central-directory record it
fills 2^32 bytes. -/
def sampleHugeName : List Byte := List.replicate 4294967250 0x41

/-- A storage step of `new_entry` for the new entry `nm` fails (source lines 151-175):
the seek to the header offset returns `-1`; or it returns the header offset and the
write of the header returns `-1` or fewer than the 30 bytes; or that write is complete
and the write of the filename returns `-1` or fewer bytes than the name has; or that
write is complete too and the seek to the payload offset returns `-1`. -/
def ZIPFile.entry_step_fails (z : ZIPFile) (nm : List Byte) : Prop :=
  ((z.begin_entry nm).seek_file (z.entry_start nm)).1 = -1 ∨
  (((z.begin_entry nm).seek_file (z.entry_start nm)).1 = z.entry_start nm ∧
    ((((z.begin_entry nm).seek_file (z.entry_start nm)).2.write
        (newLocalHeader nm).toBytes).1 ≠ (sizeofLocal : Int) ∨
      ((((z.begin_entry nm).seek_file (z.entry_start nm)).2.write
          (newLocalHeader nm).toBytes).1 = (sizeofLocal : Int) ∧
        (((((z.begin_entry nm).seek_file (z.entry_start nm)).2.write
            (newLocalHeader nm).toBytes).2.write nm).1 ≠ (nm.length : Int) ∨
          (((((z.begin_entry nm).seek_file (z.entry_start nm)).2.write
              (newLocalHeader nm).toBytes).2.write nm).1 = (nm.length : Int) ∧
            ((((((z.begin_entry nm).seek_file (z.entry_start nm)).2.write
              (newLocalHeader nm).toBytes).2.write nm).2.seek_file
                (z.entry_payload nm)).1 = -1))))))

instance (z : ZIPFile) (nm : List Byte) : Decidable (z.entry_step_fails nm) := by
  unfold ZIPFile.entry_step_fails
  infer_instance

/-- A container just opened read-write on an empty file whose next system call, the seek
to the end of the file in `new_entry`, fails. -/
def sampleEndSeekFails : ZIPFile :=
  { emptyRW with store := { emptyRW.store with script := [Outcome.fail] } }

/-- Names in strictly ascending order of `std::string::operator<`, the order in which a
`std::map` keyed by them is iterated. -/
def Ascending (names : List (List Byte)) : Prop :=
  names.Pairwise (fun a b => strLt a b = true)

instance (names : List (List Byte)) : Decidable (Ascending names) := by
  unfold Ascending
  infer_instance

/-- A session on an empty file that creates `B` and then `A`, one byte written to
each. -/
def sampleBthenA : ZIPFile :=
  emptyRW.run [Call.new_entry [0x42], Call.entry_write [0x42] [2] 1, Call.new_entry [0x41],
    Call.entry_write [0x41] [1] 1]

/-! # Theorems -/

/-! ## Machine integers -/

theorem wrapOff_id {x : Int} (h0 : -(2 ^ 63) ≤ x) (h1 : x < 2 ^ 63) : wrapOff x = x := by
  unfold wrapOff
  omega

theorem toSize_id {x : Int} (h0 : 0 ≤ x) (h1 : x < 2 ^ 64) : toSize x = x.toNat := by
  unfold toSize
  rw [Int.emod_eq_of_lt h0 h1]

theorem toSize_natCast {n : Nat} (h1 : n < 2 ^ 64) : toSize (n : Int) = n := by
  unfold toSize
  omega

theorem toSize_neg_one : toSize (-1) = 2 ^ 64 - 1 := by
  decide

/-! ## System calls on an ideal storage -/

theorem storage_outcome_ideal {s : Storage} (h : s.script = []) : s.outcome = Outcome.ok := by
  simp [Storage.outcome, h]

theorem storage_tick_ideal {s : Storage} (h : s.script = []) (op : StorageOp) :
    s.tick op = { s with log := op :: s.log } := by
  cases s
  simp_all [Storage.tick]

theorem storage_lseek_ideal {s : Storage} (h : s.script = []) {pos : Int} (hp : 0 ≤ pos) :
    s.lseek pos = (pos, { s with cursor := pos.toNat, log := StorageOp.seekSet pos :: s.log }) := by
  simp [Storage.lseek, storage_outcome_ideal h, storage_tick_ideal h, Int.not_lt.mpr hp]

theorem storage_lseekEnd_ideal {s : Storage} (h : s.script = []) :
    s.lseekEnd = ((s.bytes.length : Int),
      { s with cursor := s.bytes.length, log := StorageOp.seekEnd :: s.log }) := by
  simp [Storage.lseekEnd, storage_outcome_ideal h, storage_tick_ideal h]

theorem storage_read_ideal {s : Storage} (h : s.script = []) (count : Nat) :
    s.read count = ((((s.bytes.drop s.cursor).take count).length : Int),
      (s.bytes.drop s.cursor).take count,
      { s with cursor := s.cursor + ((s.bytes.drop s.cursor).take count).length,
               log := StorageOp.read count :: s.log }) := by
  simp [Storage.read, storage_outcome_ideal h, storage_tick_ideal h]

theorem storage_write_ideal {s : Storage} (h : s.script = []) (hrw : s.rdonly = false)
    {data : List Byte} (hne : data ≠ []) (hmax : s.cursor + data.length ≤ maxOff) :
    s.write data = ((data.length : Int),
      { s with bytes := writeAt s.bytes s.cursor data, cursor := s.cursor + data.length,
               log := StorageOp.write data :: s.log }) := by
  simp [Storage.write, Storage.put, storage_outcome_ideal h, storage_tick_ideal h, hrw, hne,
    Nat.not_lt.mpr hmax]

theorem zip_seek_file_ideal {z : ZIPFile} (h : IdealRead z) {pos : Int} (hp : 0 ≤ pos) :
    z.seek_file pos = (pos, { z with store :=
      { z.store with cursor := pos.toNat, log := StorageOp.seekSet pos :: z.store.log } }) := by
  simp [ZIPFile.seek_file, Int.not_lt.mpr h.1, storage_lseek_ideal h.2 hp]

theorem zip_end_of_file_ideal {z : ZIPFile} (h : IdealRead z) :
    z.end_of_file = ((z.store.bytes.length : Int), { z with store :=
      { z.store with cursor := z.store.bytes.length, log := StorageOp.seekEnd :: z.store.log } }) := by
  simp [ZIPFile.end_of_file, Int.not_lt.mpr h.1, storage_lseekEnd_ideal h.2]

theorem zip_read_ideal {z : ZIPFile} (h : IdealRead z) (count : Nat) :
    z.read count = ((((z.store.bytes.drop z.store.cursor).take count).length : Int),
      (z.store.bytes.drop z.store.cursor).take count,
      { z with store := { z.store with
          cursor := z.store.cursor + ((z.store.bytes.drop z.store.cursor).take count).length,
          log := StorageOp.read count :: z.store.log } }) := by
  simp [ZIPFile.read, Int.not_lt.mpr h.1, storage_read_ideal h.2]

theorem zip_write_ideal {z : ZIPFile} (h : Ideal z) {data : List Byte} (hne : data ≠ [])
    (hmax : z.store.cursor + data.length ≤ maxOff) :
    z.write data = ((data.length : Int), { z with store := { z.store with
        bytes := writeAt z.store.bytes z.store.cursor data,
        cursor := z.store.cursor + data.length,
        log := StorageOp.write data :: z.store.log } }) := by
  simp [ZIPFile.write, Int.not_lt.mpr h.1, storage_write_ideal h.2.1 h.2.2 hne hmax]

/-! ## Rejections -/

/-- C10: on a usable entry that is being extended, `seek_file` to any target other than
the current position returns `-1` and leaves the entry and the container, the log of
storage calls included, as they were: no storage seek is issued. -/
theorem seek_file_extending_rejected (e : ZIPFileEntry) (c : ZIPFile) (pos : Int)
    (hfile : e.file = true) (hoff : e.file_offset ≠ 0) (hext : e.can_extend = true)
    (hpos : pos ≠ e.position) :
    e.seek_file c pos = (-1, e, c) := by
  simp [ZIPFileEntry.seek_file, hfile, hoff, hext, hpos]

/-- Witness of `seek_file_extending_rejected`: a seek to 0 on the entry being extended at
position 4. -/
theorem seek_file_extending_rejected_witness :
    sampleExtending.seek_file sampleActive 0 = (-1, sampleExtending, sampleActive) :=
  seek_file_extending_rejected sampleExtending sampleActive 0 rfl (by decide) rfl (by decide)

/-- C8 as stated fails: a usable, writable entry of fixed size with its cursor at the
end (case c) gets the result 0 from `write`, while an entry that is not writable (case
a) gets `-1`; the three cases do not share one result. -/
theorem write_rejected_results_differ :
    (sampleFixedAtEnd.position = sampleFixedAtEnd.file_length ∧
      sampleFixedAtEnd.can_extend = false ∧
      (sampleFixedAtEnd.write sampleActive [7] 1).1 = 0) ∧
    (({ sampleFixedAtEnd with can_write := false } : ZIPFileEntry).write sampleActive [7] 1).1
      = -1 := by
  decide

/-- C8, amended: in each of the three cases `write` leaves the entry and the container
(file bytes included) as they were; the result is `-1` when the entry is unusable or not
writable and `0` otherwise, that is when a usable, writable entry has its cursor beyond
its length, or at its length without being in extend mode. -/
theorem write_rejected (e : ZIPFileEntry) (c : ZIPFile) (buffer : List Byte) (count : Nat)
    (h : e.can_write = false ∨ e.position > e.file_length ∨
      (e.position = e.file_length ∧ e.can_extend = false)) :
    e.write c buffer count =
      (if e.file = false ∨ e.file_offset = 0 ∨ e.can_write = false then -1 else 0, e, c) := by
  unfold ZIPFileEntry.write
  by_cases h1 : e.file = false ∨ e.file_offset = 0 ∨ e.can_write = false
  · simp [h1]
  · rw [if_neg h1, if_neg h1]
    have hw : ¬ e.can_write = false := fun hw => h1 (Or.inr (Or.inr hw))
    rcases h with h | h | h
    · exact absurd h hw
    · simp [h]
    · simp [h.1, h.2]

/-- Witness of `write_rejected`: the fixed-size entry with its cursor at the end. -/
theorem write_rejected_witness :
    sampleFixedAtEnd.write sampleActive [7] 1 = (0, sampleFixedAtEnd, sampleActive) :=
  write_rejected sampleFixedAtEnd sampleActive [7] 1 (Or.inr (Or.inr ⟨rfl, rfl⟩))

/-- C6: `new_entry` on a closed or read-only container, with a name that is already a
key of the map, or with an empty name returns `NULL` and leaves the whole container
unchanged: entries, active-entry marker, append offset, file bytes; no entry is
finalized. -/
theorem new_entry_rejected (z : ZIPFile) (name : List Byte)
    (h : z.file_fd < 0 ∨ z.can_write = false ∨ (z.entries.find (cstr name)).isSome = true ∨
      cstr name = []) :
    z.new_entry name = (none, z) := by
  unfold ZIPFile.new_entry
  by_cases h1 : z.file_fd < 0 ∨ z.can_write = false
  · rw [if_pos h1]
  · rw [if_neg h1]
    by_cases h2 : (z.entries.find (cstr name)).isSome = true
    · rw [if_pos h2]
    · rw [if_neg h2]
      have h3 : cstr name = [] := by
        rcases h with h | h | h | h
        · exact absurd (Or.inl h) h1
        · exact absurd (Or.inr h) h1
        · exact absurd h h2
        · exact h
      rw [if_pos h3]

/-- Witness of `new_entry_rejected`: the name of the active entry is a key of the map,
and the active entry stays active. -/
theorem new_entry_rejected_witness :
    sampleActive.new_entry stateBin = (none, sampleActive) :=
  new_entry_rejected sampleActive stateBin (Or.inr (Or.inr (Or.inl (by decide))))

/-! ## Entry cursor on an ideal storage -/

theorem entry_seek_file_ideal {e : ZIPFileEntry} {c : ZIPFile} (hc : IdealRead c)
    (hfile : e.file = true) (hoff : 0 < e.file_offset) (hpos : 0 ≤ e.position)
    (hle : e.position ≤ e.file_length) (hmax : e.file_offset + e.file_length ≤ (maxOff : Int)) :
    e.seek_file c e.position = (e.position, e, { c with store := { c.store with
      cursor := (e.position + e.file_offset).toNat,
      log := StorageOp.seekSet (e.position + e.file_offset) :: c.store.log } }) := by
  have hm : (maxOff : Int) = 2 ^ 63 - 1 := by decide
  have hw : wrapOff (e.position + e.file_offset) = e.position + e.file_offset :=
    wrapOff_id (by omega) (by omega)
  have hw2 : wrapOff (e.position + e.file_offset - e.file_offset) = e.position :=
    by rw [wrapOff_id (by omega) (by omega)]; omega
  have hne : e.file_offset ≠ 0 := by omega
  unfold ZIPFileEntry.seek_file
  simp only [hfile, hne, ne_eq, not_true_eq_false, false_and, or_self, if_false,
    Int.not_lt.mpr hpos, Int.not_lt.mpr hle, gt_iff_lt, hw,
    zip_seek_file_ideal hc (show (0 : Int) ≤ e.position + e.file_offset by omega), hw2,
    Bool.true_eq_false]
  cases e
  simp_all

/-- C7: `read` on a usable entry whose cursor is in `[0, file_length]` and whose payload
range lies inside the file, the storage not failing.  At the end of the stream it
returns 0 and changes nothing; otherwise it returns `m = min(count, file_length -
position)`, stores in the buffer the `m` file bytes from absolute offset `file_offset +
position` on, advances `position` by `m` and changes nothing else of the entry, nor
the file bytes. -/
theorem read_contract (e : ZIPFileEntry) (c : ZIPFile) (count : Nat)
    (hfile : e.file = true) (hoff : e.file_offset ≠ 0) (hc : IdealRead c)
    (hpos : 0 ≤ e.position) (hle : e.position ≤ e.file_length)
    (h0 : 0 ≤ e.file_offset)
    (hin : e.file_offset + e.file_length ≤ (c.store.bytes.length : Int))
    (hmax : c.store.bytes.length ≤ maxOff) :
    (e.file_length ≤ e.position → e.read c count = (0, [], e, c)) ∧
    (e.position < e.file_length →
      (e.read c count).1 = ((min count (e.file_length - e.position).toNat : Nat) : Int) ∧
      (e.read c count).2.1 = (c.store.bytes.drop (e.file_offset + e.position).toNat).take
        (min count (e.file_length - e.position).toNat) ∧
      (e.read c count).2.2.1 = { e with position := e.position +
        ((min count (e.file_length - e.position).toNat : Nat) : Int) } ∧
      (e.read c count).2.2.2.store.bytes = c.store.bytes) := by
  have hm : maxOff = 2 ^ 63 - 1 := rfl
  have hcond : ¬ (e.file = false ∨ e.file_offset = 0) := by simp [hfile, hoff]
  constructor
  · intro hge
    unfold ZIPFileEntry.read
    rw [if_neg hcond, if_pos (by omega : e.position ≥ e.file_length)]
  · intro hlt
    have hts : toSize (e.file_length - e.position) = (e.file_length - e.position).toNat :=
      toSize_id (by omega) (by omega)
    have hseek := entry_seek_file_ideal (e := e) hc hfile (by omega) hpos hle (by omega)
    unfold ZIPFileEntry.read
    rw [if_neg hcond, if_neg (by omega : ¬ e.position ≥ e.file_length)]
    simp only [hts, hseek]
    generalize hL : (e.file_length - e.position).toNat = d at *
    have hmin : (if d > count then count else d) = min count d := by
      split <;> omega
    rw [hmin]
    generalize hmm : min count d = m at *
    by_cases hm0 : m > 0
    · have hc2 : IdealRead { c with store := { c.store with
          cursor := (e.position + e.file_offset).toNat,
          log := StorageOp.seekSet (e.position + e.file_offset) :: c.store.log } } := hc
      have hlen : ((List.drop (e.position + e.file_offset).toNat c.store.bytes).take m).length
          = m := by
        rw [List.length_take, List.length_drop]
        omega
      simp only [if_pos hm0, ne_eq, not_true_eq_false, if_false, zip_read_ideal hc2, hlen,
        toSize_natCast (show m < 2 ^ 64 by omega), wrapOff_id (show -(2 ^ 63) ≤ (m : Int) by omega)
          (show (m : Int) < 2 ^ 63 by omega),
        wrapOff_id (show -(2 ^ 63) ≤ e.position + (m : Int) by omega)
          (show e.position + (m : Int) < 2 ^ 63 by omega), Int.add_comm e.file_offset e.position]
      simp
    · have hm00 : m = 0 := by omega
      subst hm00
      simp [wrapOff]

/-- Witness of `read_contract`: the entry `STATE.BIN` of the sample container, rewound
to the start of its four bytes. -/
theorem read_contract_witness :
    (({ sampleFixedAtEnd with position := 0 } : ZIPFileEntry).read sampleActive 3).1 = 3 ∧
    (({ sampleFixedAtEnd with position := 0 } : ZIPFileEntry).read sampleActive 3).2.1
      = [1, 2, 3] :=
  ⟨((read_contract { sampleFixedAtEnd with position := 0 } sampleActive 3 rfl (by decide)
      (by decide) (by decide) (by decide) (by decide) (by decide) (by decide)).2
      (by decide)).1,
   (((read_contract { sampleFixedAtEnd with position := 0 } sampleActive 3 rfl (by decide)
      (by decide) (by decide) (by decide) (by decide) (by decide) (by decide)).2
      (by decide)).2.1).trans (by decide)⟩

/-! ## Content of the file after a write -/

theorem writeAt_length (b : List Byte) (p : Nat) (d : List Byte) :
    (writeAt b p d).length = max b.length (p + d.length) := by
  simp [writeAt]
  omega

theorem writeAt_getElem_inside (b : List Byte) (p : Nat) (d : List Byte) (i : Nat)
    (hi : i < d.length) : (writeAt b p d)[p + i]? = d[i]? := by
  have hpre : (b.take p ++ List.replicate (p - b.length) (0 : Byte)).length = p := by
    simp; omega
  unfold writeAt
  generalize b.take p ++ List.replicate (p - b.length) (0 : Byte) = pre at hpre
  subst hpre
  rw [List.append_assoc, List.getElem?_append_right (by omega)]
  simp [List.getElem?_append_left, hi]

theorem writeAt_getElem_outside (b : List Byte) (p : Nat) (d : List Byte) (i : Nat)
    (hi : i < b.length) (ho : i < p ∨ p + d.length ≤ i) : (writeAt b p d)[i]? = b[i]? := by
  unfold writeAt
  rcases ho with ho | ho
  · rw [List.append_assoc, List.append_assoc, List.getElem?_append_left (by simp; omega)]
    simp [List.getElem?_take, ho]
  · have hpre : (b.take p ++ List.replicate (p - b.length) (0 : Byte) ++ d).length = p + d.length := by
      simp; omega
    rw [List.getElem?_append_right (by omega), hpre, List.getElem?_drop]
    congr 1
    omega

theorem writeAt_append_end (b d : List Byte) : writeAt b b.length d = b ++ d := by
  simp [writeAt]

theorem writeAt_middle (x old y d : List Byte) (h : old.length = d.length) :
    writeAt (x ++ old ++ y) x.length d = x ++ d ++ y := by
  simp [writeAt, h]

/-- C9: `write` on a usable, writable entry of fixed size (not extending) with cursor
`p < L = file_length`, the storage accepting every byte.  It returns `m = min(count, L -
p)`, the file then holds the first `m` bytes of the buffer at absolute offsets
`file_offset + p ..`, every other byte of the file is as before, `position` has
advanced by `m` and `file_length` is still `L`. -/
theorem write_capped (e : ZIPFileEntry) (c : ZIPFile) (buffer : List Byte) (count : Nat)
    (hfile : e.file = true) (hoff : e.file_offset ≠ 0) (hw : e.can_write = true)
    (hne : e.can_extend = false) (hc : Ideal c)
    (hpos : 0 ≤ e.position) (hlt : e.position < e.file_length) (h0 : 0 ≤ e.file_offset)
    (hmax : e.file_offset + e.file_length ≤ (maxOff : Int)) (hbuf : count ≤ buffer.length) :
    (e.write c buffer count).1 = ((min count (e.file_length - e.position).toNat : Nat) : Int) ∧
    (e.write c buffer count).2.1.position =
      e.position + ((min count (e.file_length - e.position).toNat : Nat) : Int) ∧
    (e.write c buffer count).2.1.file_length = e.file_length ∧
    (∀ i, i < min count (e.file_length - e.position).toNat →
      (e.write c buffer count).2.2.store.bytes[(e.file_offset + e.position).toNat + i]?
        = buffer[i]?) ∧
    (∀ i, i < c.store.bytes.length →
      (i < (e.file_offset + e.position).toNat ∨
        (e.file_offset + e.position).toNat + min count (e.file_length - e.position).toNat ≤ i) →
      (e.write c buffer count).2.2.store.bytes[i]? = c.store.bytes[i]?) := by
  have hm : maxOff = 2 ^ 63 - 1 := rfl
  have hcond : ¬ (e.file = false ∨ e.file_offset = 0 ∨ e.can_write = false) := by
    simp [hfile, hoff, hw]
  have hts : toSize (e.file_length - e.position) = (e.file_length - e.position).toNat :=
    toSize_id (by omega) (by omega)
  have hseek := entry_seek_file_ideal (e := e) ⟨hc.1, hc.2.1⟩ hfile (by omega) hpos
    (by omega) hmax
  unfold ZIPFileEntry.write
  rw [if_neg hcond, if_neg (by omega : ¬ e.position > e.file_length),
    if_neg (by omega : ¬ (e.position = e.file_length ∧ e.can_extend = false))]
  simp only [hts, hseek, hne, Bool.false_eq_true, if_false, and_false]
  generalize hL : (e.file_length - e.position).toNat = d at *
  have hmin : (if d > count then count else d) = min count d := by
    split <;> omega
  rw [hmin]
  generalize hmm : min count d = m at *
  by_cases hm0 : m > 0
  · have hc2 : Ideal { c with store := { c.store with
        cursor := (e.position + e.file_offset).toNat,
        log := StorageOp.seekSet (e.position + e.file_offset) :: c.store.log } } := hc
    have hlen : (buffer.take m).length = m := by
      rw [List.length_take]
      omega
    have hnil : buffer.take m ≠ [] := by
      intro hnil
      rw [hnil] at hlen
      simp at hlen
      omega
    have hwr := zip_write_ideal hc2 hnil (by simp only [hlen]; omega)
    simp only [if_pos hm0, ne_eq, not_true_eq_false, if_false, hwr, hlen,
      toSize_natCast (show m < 2 ^ 64 by omega), wrapOff_id (show -(2 ^ 63) ≤ (m : Int) by omega)
        (show (m : Int) < 2 ^ 63 by omega),
      wrapOff_id (show -(2 ^ 63) ≤ e.position + (m : Int) by omega)
        (show e.position + (m : Int) < 2 ^ 63 by omega), Int.add_comm e.file_offset e.position,
      true_and]
    refine ⟨?_, ?_⟩
    · intro i hi
      have := writeAt_getElem_inside c.store.bytes (e.position + e.file_offset).toNat
        (buffer.take m) i (by omega)
      rw [this, List.getElem?_take]
      simp [hi]
    · intro i hi ho
      exact writeAt_getElem_outside c.store.bytes _ (buffer.take m) i hi (by omega)
  · have hm00 : m = 0 := by omega
    subst hm00
    simp [wrapOff]

/-- Witness of `write_capped`: six bytes offered to the fixed-size entry of four bytes
at cursor 1; three are written. -/
theorem write_capped_witness :
    (({ sampleFixedAtEnd with position := 1 } : ZIPFileEntry).write sampleActive
      [9, 8, 7, 6, 5, 4] 6).1 = 3 :=
  (write_capped { sampleFixedAtEnd with position := 1 } sampleActive [9, 8, 7, 6, 5, 4] 6
    rfl (by decide) rfl rfl (by decide) (by decide) (by decide) (by decide) (by decide)
    (by decide)).1

/-! ## Reading calls under any storage outcome -/

theorem storage_lseek_bytes (s : Storage) (pos : Int) : (s.lseek pos).2.bytes = s.bytes := by
  unfold Storage.lseek
  cases s.outcome <;> simp [Storage.tick] <;> split <;> rfl

theorem storage_lseek_cursor (s : Storage) {pos : Int} (hp : 0 ≤ pos)
    (h : (s.lseek pos).1 = pos) : (s.lseek pos).2.cursor = pos.toNat := by
  unfold Storage.lseek at h ⊢
  cases ho : s.outcome <;> simp only [ho] at h ⊢
  · simp [Int.not_lt.mpr hp]
  · simp [Int.not_lt.mpr hp]
  · omega

theorem storage_lseekEnd_bytes (s : Storage) : s.lseekEnd.2.bytes = s.bytes := by
  unfold Storage.lseekEnd
  cases s.outcome <;> simp [Storage.tick]

theorem storage_lseekEnd_nonneg (s : Storage) (h : 0 ≤ s.lseekEnd.1) :
    s.lseekEnd.1 = (s.bytes.length : Int) := by
  unfold Storage.lseekEnd at h ⊢
  cases ho : s.outcome <;> simp only [ho] at h ⊢
  simp at h

theorem storage_read_bytes (s : Storage) (n : Nat) : (s.read n).2.2.bytes = s.bytes := by
  unfold Storage.read
  cases s.outcome <;> simp [Storage.tick]

theorem storage_read_full (s : Storage) {n : Nat} (hn : n < 2 ^ 63)
    (h : toSize (s.read n).1 = n) :
    (s.read n).2.1 = (s.bytes.drop s.cursor).take n ∧ (s.read n).2.1.length = n := by
  unfold Storage.read at h ⊢
  cases ho : s.outcome <;> simp only [ho] at h ⊢
  · have h2 := h
    rw [toSize_natCast (by rw [List.length_take]; omega)] at h2
    exact ⟨trivial, h2⟩
  · rename_i k
    have hlen : ((List.drop s.cursor s.bytes).take (min k n)).length ≤ n := by
      rw [List.length_take]
      omega
    have h2 := h
    rw [toSize_natCast (by omega)] at h2
    have hk : min k n = n := by
      rw [List.length_take] at h2
      omega
    rw [hk] at h2 ⊢
    exact ⟨rfl, h2⟩
  · rw [toSize_neg_one] at h
    omega

theorem zip_seek_file_fd (z : ZIPFile) (pos : Int) : (z.seek_file pos).2.file_fd = z.file_fd := by
  unfold ZIPFile.seek_file
  split <;> rfl

theorem zip_seek_file_entries (z : ZIPFile) (pos : Int) :
    (z.seek_file pos).2.entries = z.entries := by
  unfold ZIPFile.seek_file
  split <;> rfl

theorem zip_seek_file_bytes (z : ZIPFile) (pos : Int) :
    (z.seek_file pos).2.store.bytes = z.store.bytes := by
  unfold ZIPFile.seek_file
  split
  · rfl
  · exact storage_lseek_bytes _ _

theorem zip_seek_file_cursor (z : ZIPFile) {pos : Int} (hp : 0 ≤ pos)
    (h : (z.seek_file pos).1 = pos) : (z.seek_file pos).2.store.cursor = pos.toNat := by
  unfold ZIPFile.seek_file at h ⊢
  split at h
  · simp at h
    omega
  · rename_i hfd
    simp only [hfd, if_false]
    exact storage_lseek_cursor _ hp h

theorem zip_read_fd (z : ZIPFile) (n : Nat) : (z.read n).2.2.file_fd = z.file_fd := by
  unfold ZIPFile.read
  split <;> rfl

theorem zip_read_entries (z : ZIPFile) (n : Nat) : (z.read n).2.2.entries = z.entries := by
  unfold ZIPFile.read
  split <;> rfl

theorem zip_read_bytes (z : ZIPFile) (n : Nat) :
    (z.read n).2.2.store.bytes = z.store.bytes := by
  unfold ZIPFile.read
  split
  · rfl
  · exact storage_read_bytes _ _

theorem zip_read_full (z : ZIPFile) {n : Nat} (hn : n < 2 ^ 63)
    (h : toSize (z.read n).1 = n) :
    (z.read n).2.1 = (z.store.bytes.drop z.store.cursor).take n ∧ (z.read n).2.1.length = n := by
  unfold ZIPFile.read at h ⊢
  split at h
  · rw [toSize_neg_one] at h
    omega
  · rename_i hfd
    simp only [hfd, if_false]
    exact storage_read_full _ hn h

theorem zip_end_of_file_fd (z : ZIPFile) : z.end_of_file.2.file_fd = z.file_fd := by
  unfold ZIPFile.end_of_file
  split <;> rfl

theorem zip_end_of_file_entries (z : ZIPFile) : z.end_of_file.2.entries = z.entries := by
  unfold ZIPFile.end_of_file
  split <;> rfl

theorem zip_end_of_file_bytes (z : ZIPFile) :
    z.end_of_file.2.store.bytes = z.store.bytes := by
  unfold ZIPFile.end_of_file
  split
  · rfl
  · exact storage_lseekEnd_bytes _

theorem zip_end_of_file_nonneg (z : ZIPFile) (h : 0 ≤ z.end_of_file.1) :
    z.end_of_file.1 = (z.store.bytes.length : Int) := by
  unfold ZIPFile.end_of_file at h ⊢
  split at h
  · simp at h
  · rename_i hfd
    simp only [hfd, if_false]
    exact storage_lseekEnd_nonneg _ h

theorem zip_close_fd (z : ZIPFile) : z.close.file_fd < 0 := by
  unfold ZIPFile.close
  split
  · simp
  · simp
    omega

theorem zip_close_fd_of_open {z : ZIPFile} (h : 0 ≤ z.file_fd) : z.close.file_fd = -1 := by
  unfold ZIPFile.close
  simp [h]

theorem zip_close_entries (z : ZIPFile) : z.close.entries = [] := by
  unfold ZIPFile.close
  split <;> rfl

/-! ## Defensive open -/

theorem rejected_close {z : ZIPFile} (h : 0 ≤ z.file_fd) : Rejected (-1, z.close) :=
  ⟨rfl, zip_close_fd_of_open h, zip_close_entries _⟩

theorem rejected_ite {c : Prop} [Decidable c] {a b : Int × ZIPFile} (ha : c → Rejected a)
    (hb : ¬ c → Rejected b) : Rejected (if c then a else b) := by
  split
  · exact ha ‹_›
  · exact hb ‹_›

theorem scan_rejects (z : ZIPFile) (hfd : 0 ≤ z.file_fd) (hmax : z.store.bytes.length ≤ maxOff)
    (hbad : rd32 (z.store.bytes.drop (z.store.bytes.length - sizeofEnd)) 0
        ≠ PKZIP_CENTRAL_DIRECTORY_END_SIG ∨
      z.store.bytes.length ≤ rd32 (z.store.bytes.drop (z.store.bytes.length - sizeofEnd)) 16) :
    Rejected z.scan := by
  have hm : maxOff = 2 ^ 63 - 1 := rfl
  have hsz : sizeofEnd = 22 := rfl
  have rej : ∀ x : ZIPFile, x.file_fd = z.file_fd → Rejected (-1, x.close) :=
    fun x hx => rejected_close (by rw [hx]; exact hfd)
  unfold ZIPFile.scan
  dsimp only
  refine rejected_ite (fun _ => rej _ (by simp only [zip_end_of_file_fd])) (fun h1 => ?_)
  refine rejected_ite (fun _ => rej _ (by simp only [zip_seek_file_fd, zip_end_of_file_fd])) (fun _ => ?_)
  have hfd4 : ((z.end_of_file.2.seek_file 0).2.read 4).2.2.file_fd = z.file_fd := by
    simp only [zip_seek_file_fd, zip_read_fd, zip_end_of_file_fd]
  refine rejected_ite (fun _ => rej _ hfd4) (fun _ => ?_)
  refine rejected_ite (fun _ => rej _ hfd4) (fun _ => ?_)
  have hlen := zip_end_of_file_nonneg z (by omega)
  have hw : wrapOff (z.end_of_file.1 - (sizeofEnd : Nat))
      = ((z.store.bytes.length - sizeofEnd : Nat) : Int) := by
    rw [hlen, wrapOff_id (by omega) (by omega)]
    omega
  rw [hw]
  refine rejected_ite (fun _ => rej _ (by rw [zip_seek_file_fd, hfd4])) (fun h5 => ?_)
  have hfd6 : ∀ p, ((((z.end_of_file.2.seek_file 0).2.read 4).2.2.seek_file p).2.read
      sizeofEnd).2.2.file_fd = z.file_fd := by
    intro p
    rw [zip_read_fd, zip_seek_file_fd, hfd4]
  refine rejected_ite (fun _ => rej _ (hfd6 _)) (fun h6 => ?_)
  have hcur := zip_seek_file_cursor _ (Int.natCast_nonneg _) (not_not.mp h5)
  have hrd := zip_read_full _ (show sizeofEnd < 2 ^ 63 by decide) (not_not.mp h6)
  rw [hcur, zip_seek_file_bytes, zip_read_bytes, zip_seek_file_bytes,
    zip_end_of_file_bytes, Int.toNat_ofNat,
    List.take_of_length_le (by rw [List.length_drop]; omega)] at hrd
  rw [hrd.1]
  refine rejected_ite (fun _ => rej _ (hfd6 _)) (fun h7 => ?_)
  refine rejected_ite (fun _ => rej _ (hfd6 _)) (fun _ => ?_)
  refine rejected_ite (fun _ => rej _ (hfd6 _)) (fun _ => ?_)
  refine rejected_ite (fun _ => rej _ (hfd6 _)) (fun h10 => ?_)
  exfalso
  rcases hbad with hb | hb
  · exact h7 hb
  · apply h10
    rw [hlen]
    show (z.store.bytes.length : Int) ≤ _
    exact_mod_cast hb

theorem storage_openFile_bytes (s : Storage) (mode : Nat) :
    (s.openFile mode).2.bytes = s.bytes := by
  unfold Storage.openFile
  cases s.outcome <;> rfl

theorem storage_openFile_result (s : Storage) (mode : Nat) :
    (s.openFile mode).1 = -1 ∨ (s.openFile mode).1 = 3 := by
  unfold Storage.openFile
  cases s.outcome <;> simp

/-- C5: for every file of at least 64 bytes, under every outcome of the storage calls:
when the record at the fixed end-of-directory position (file size minus 22) does not
carry the end-of-central-directory signature, or declares a central-directory offset
greater than or equal to the file size, `open` in read-only mode returns `-1` and leaves
the container closed: `file_fd = -1`, no entries, `get_entry` gives `NULL` for every
name. -/
theorem open_defensive (z : ZIPFile) (disk : Storage) (mode : Nat)
    (hmode : mode % 4 = O_RDONLY) (hsize : 64 ≤ disk.bytes.length)
    (hmax : disk.bytes.length ≤ maxOff)
    (hbad : rd32 (disk.bytes.drop (disk.bytes.length - sizeofEnd)) 0
        ≠ PKZIP_CENTRAL_DIRECTORY_END_SIG ∨
      disk.bytes.length ≤ rd32 (disk.bytes.drop (disk.bytes.length - sizeofEnd)) 16) :
    (z.open (some disk) mode).1 = -1 ∧ (z.open (some disk) mode).2.file_fd = -1 ∧
    (z.open (some disk) mode).2.entries = [] ∧
    ∀ name, (z.open (some disk) mode).2.get_entry name = none := by
  have hlen : 22 ≤ disk.bytes.length := by omega
  have key : Rejected (z.open (some disk) mode) := by
    unfold ZIPFile.open
    dsimp only
    rw [if_neg (by rw [hmode]; decide)]
    refine rejected_ite (fun h => ⟨rfl, ?_, zip_close_entries _⟩) (fun h => ?_)
    · rcases storage_openFile_result disk mode with h3 | h3
      · exact h3
      · omega
    · have hfd : (0 : Int) ≤ (disk.openFile mode).1 := by omega
      refine rejected_ite (fun _ => rejected_close hfd) (fun _ => ?_)
      rw [if_pos hmode]
      have hb : (disk.openFile mode).2.lseek 0 |>.2.bytes = disk.bytes := by
        rw [storage_lseek_bytes, storage_openFile_bytes]
      exact scan_rejects _ hfd (by dsimp only; rw [hb]; exact hmax) (by dsimp only; rw [hb]; exact hbad)
  refine ⟨key.1, key.2.1, key.2.2, fun name => ?_⟩
  unfold ZIPFile.get_entry
  rw [if_pos (by rw [key.2.1]; decide)]

set_option maxRecDepth 100000 in
/-- Witness of `open_defensive`: the sample archive with a corrupted trailing
signature. -/
theorem open_defensive_witness :
    (ZIPFile.init.open (some (Storage.ofBytes sampleBadTrailer)) O_RDONLY).1 = -1 ∧
    (ZIPFile.init.open (some (Storage.ofBytes sampleBadTrailer)) O_RDONLY).2.file_fd = -1 :=
  ⟨(open_defensive ZIPFile.init (Storage.ofBytes sampleBadTrailer) O_RDONLY (by decide)
      (by decide) (by decide) (Or.inl (by decide))).1,
   (open_defensive ZIPFile.init (Storage.ofBytes sampleBadTrailer) O_RDONLY (by decide)
      (by decide) (by decide) (Or.inl (by decide))).2.1⟩

/-! ## Directory scan -/

theorem take_append_exact {α : Type} (a b : List α) (n : Nat) (h : a.length = n) :
    (a ++ b).take n = a := by
  subst h
  simp

theorem drop_append_exact {α : Type} (a b : List α) (n : Nat) (h : a.length = n) :
    (a ++ b).drop n = b := by
  subst h
  simp

theorem rd16_take (l : List Byte) (n i : Nat) (h : i + 2 ≤ n) : rd16 (l.take n) i = rd16 l i := by
  simp only [rd16, byteAt, List.get?_eq_getElem?, List.getElem?_take]
  rw [if_pos (by omega), if_pos (by omega)]

theorem rd32_take (l : List Byte) (n i : Nat) (h : i + 4 ≤ n) : rd32 (l.take n) i = rd32 l i := by
  simp only [rd32, byteAt, List.get?_eq_getElem?, List.getElem?_take]
  rw [if_pos (by omega), if_pos (by omega), if_pos (by omega), if_pos (by omega)]

theorem rd16_lt (l : List Byte) (i : Nat) : rd16 l i < 65536 := by
  have h1 := (((l.get? i).getD 0)).isLt
  have h2 := (((l.get? (i + 1)).getD 0)).isLt
  simp only [rd16, byteAt]
  omega

/-- One pass of the directory loop over a well-formed record. -/
theorem scan_step (fuel : Nat) (remain : Int) (z : ZIPFile) (r : RawRecord) (rest : List Byte)
    (hz : IdealRead z) (hwf : WellFormedRecord r)
    (hb : z.store.bytes.drop z.store.cursor = r.1 ++ r.2 ++ rest)
    (hrem : (sizeofCentral : Int) ≤ remain) :
    ∃ z1 : ZIPFile,
      ZIPFile.scan_central_directory (fuel + 1) remain z =
        ZIPFile.scan_central_directory fuel (remain - sizeofCentral - r.2.length) z1 ∧
      IdealRead z1 ∧ z1.file_fd = z.file_fd ∧ z1.store.bytes = z.store.bytes ∧
      z1.store.cursor = z.store.cursor + sizeofCentral + r.2.length ∧
      z1.entries = loadRecord z.entries r ∧ z1.can_write = z.can_write := by
  obtain ⟨hlen, hsig, hfn, hlt⟩ := hwf
  have h46 : sizeofCentral = 46 := rfl
  have hrd1 : (z.store.bytes.drop z.store.cursor).take sizeofCentral = r.1 := by
    rw [hb, List.append_assoc]
    exact take_append_exact _ _ _ hlen
  have hsig2 : (pkzip_central_directory_header_main.ofBytes r.1).sig
      = PKZIP_CENTRAL_DIRECTORY_HEADER_SIG := hsig
  have hfn2 : (pkzip_central_directory_header_main.ofBytes r.1).filename_length
      = r.2.length := hfn
  rw [ZIPFile.scan_central_directory]
  simp only [ge_iff_le, hrem, if_true, zip_read_ideal hz, hrd1, hlen,
    toSize_natCast (show sizeofCentral < 2 ^ 64 by decide), ne_eq, not_true_eq_false, if_false,
    hsig2, hfn2, Nat.not_le.mpr hlt]
  by_cases hn : r.2.length = 0
  · have hnil : r.2 = [] := List.length_eq_zero.mp hn
    simp only [hn, not_true_eq_false, if_false, Nat.cast_zero, Int.sub_zero, Nat.add_zero]
    refine ⟨_, rfl, hz, rfl, rfl, rfl, ?_, rfl⟩
    simp [loadRecord, hnil, cstr]
  · have hz2 : IdealRead { z with store := { z.store with
        cursor := z.store.cursor + sizeofCentral,
        log := StorageOp.read sizeofCentral :: z.store.log } } := hz
    have hrd2 : (z.store.bytes.drop (z.store.cursor + sizeofCentral)).take r.2.length = r.2 := by
      rw [← List.drop_drop, hb, List.append_assoc, drop_append_exact _ _ _ hlen]
      exact take_append_exact _ _ _ rfl
    simp only [hn, not_false_eq_true, if_true, zip_read_ideal hz2, hrd2, not_true_eq_false,
      if_false]
    by_cases hc : cstr r.2 = []
    · simp only [hc, if_true]
      refine ⟨_, rfl, hz, rfl, rfl, ?_, ?_, rfl⟩
      · simp
      · simp [loadRecord, hc]
    · simp only [hc, if_false]
      refine ⟨_, rfl, hz, rfl, rfl, ?_, ?_, rfl⟩
      · simp
      · simp [loadRecord, hc]

theorem dirBytes_length_cons (r : RawRecord) (t : List RawRecord) :
    (dirBytes (r :: t)).length = r.1.length + r.2.length + (dirBytes t).length := by
  simp [dirBytes, Nat.add_assoc]

/-- The directory loop over a sequence of well-formed records. -/
theorem scan_records (recs : List RawRecord) (hwf : ∀ r ∈ recs, WellFormedRecord r) :
    ∀ (fuel : Nat) (remain : Int) (z : ZIPFile) (rest : List Byte),
      IdealRead z → z.store.bytes.drop z.store.cursor = dirBytes recs ++ rest →
      ((dirBytes recs).length : Int) ≤ remain → remain ≤ (fuel : Int) →
      ∃ (fuel1 : Nat) (z1 : ZIPFile),
        ZIPFile.scan_central_directory fuel remain z =
          ZIPFile.scan_central_directory fuel1 (remain - (dirBytes recs).length) z1 ∧
        remain - (dirBytes recs).length ≤ (fuel1 : Int) ∧
        IdealRead z1 ∧ z1.file_fd = z.file_fd ∧ z1.store.bytes = z.store.bytes ∧
        z1.store.cursor = z.store.cursor + (dirBytes recs).length ∧
        z1.entries = loadRecords z.entries recs ∧ z1.can_write = z.can_write := by
  induction recs with
  | nil =>
    intro fuel remain z rest hz _ _ hf
    exact ⟨fuel, z, by simp [dirBytes], by simpa [dirBytes] using hf, hz, rfl, rfl,
      by simp [dirBytes], rfl, rfl⟩
  | cons r t ih =>
    intro fuel remain z rest hz hb hrem hf
    have hr := hwf r (List.mem_cons_self _ _)
    have h46 : sizeofCentral = 46 := rfl
    have hl := dirBytes_length_cons r t
    rw [hr.1] at hl
    cases fuel with
    | zero => omega
    | succ f =>
      obtain ⟨z1, he, hz1, hfd1, hb1, hc1, hen1, hw1⟩ := scan_step f remain z r (dirBytes t ++ rest)
        hz hr (by rw [hb]; simp [dirBytes]) (by omega)
      obtain ⟨f2, z2, he2, hf2, hz2, hfd2, hb2, hc2, hen2, hw2⟩ := ih
        (fun x hx => hwf x (List.mem_cons_of_mem _ hx)) f (remain - sizeofCentral - r.2.length)
        z1 rest hz1
        (by
          rw [hb1, hc1, Nat.add_assoc, ← List.drop_drop, hb]
          simp only [dirBytes, List.append_assoc]
          rw [← List.append_assoc]
          exact drop_append_exact _ _ _ (by simp [hr.1]))
        (by omega) (by omega)
      refine ⟨f2, z2, ?_, by omega, hz2, by rw [hfd2, hfd1], by rw [hb2, hb1], by omega, ?_,
        by rw [hw2, hw1]⟩
      · rw [he, he2]
        congr 1
        omega
      · rw [hen2, hen1]
        rfl

/-- The directory loop ends when fewer than 46 bytes of the directory remain. -/
theorem scan_stop (fuel : Nat) (remain : Int) (z : ZIPFile) (h : remain < (sizeofCentral : Int)) :
    ZIPFile.scan_central_directory fuel remain z = z := by
  cases fuel with
  | zero => rfl
  | succ f =>
    rw [ZIPFile.scan_central_directory, if_neg (by omega)]

/-- The fuel of the directory loop is never used up: any two amounts of fuel of at
least `remain` give the same result, under every outcome of the storage calls. -/
theorem scan_fuel (f1 : Nat) :
    ∀ (f2 : Nat) (remain : Int) (z : ZIPFile), remain ≤ (f1 : Int) → remain ≤ (f2 : Int) →
      ZIPFile.scan_central_directory f1 remain z = ZIPFile.scan_central_directory f2 remain z := by
  have h46 : sizeofCentral = 46 := rfl
  induction f1 with
  | zero =>
    intro f2 remain z h1 _
    rw [scan_stop 0 remain z (by omega), scan_stop f2 remain z (by omega)]
  | succ f ih =>
    intro f2 remain z h1 h2
    cases f2 with
    | zero => rw [scan_stop 0 remain z (by omega), scan_stop (f + 1) remain z (by omega)]
    | succ g =>
      rw [ZIPFile.scan_central_directory, ZIPFile.scan_central_directory]
      dsimp only
      split
      · split
        · rfl
        · split
          · rfl
          · split
            · rfl
            · split
              · split
                · rfl
                · split
                  · exact ih g _ _ (by omega) (by omega)
                  · exact ih g _ _ (by omega) (by omega)
              · exact ih g _ _ (by omega) (by omega)
      · rfl

theorem kept_read {z : ZIPFile} (hz : IdealRead z) (n : Nat) : Kept z (z.read n).2.2 := by
  rw [zip_read_ideal hz]
  exact ⟨rfl, rfl, rfl, hz, rfl⟩

theorem kept_trans {a b c : ZIPFile} (h1 : Kept a b) (h2 : Kept b c) : Kept a c :=
  ⟨h2.1.trans h1.1, h2.2.1.trans h1.2.1, h2.2.2.1.trans h1.2.2.1, h2.2.2.2.1,
    h2.2.2.2.2.trans h1.2.2.2.2⟩

/-- The directory loop leaves the entries as they are when the bytes at the cursor are
not a record it accepts. -/
theorem scan_malformed (fuel : Nat) (remain : Int) (z : ZIPFile) (hz : IdealRead z)
    (hm : Malformed (z.store.bytes.drop z.store.cursor)) :
    Kept z (ZIPFile.scan_central_directory fuel remain z) := by
  have h46 : sizeofCentral = 46 := rfl
  have hself : Kept z z := ⟨rfl, rfl, rfl, hz, rfl⟩
  cases fuel with
  | zero => exact hself
  | succ f =>
    rw [ZIPFile.scan_central_directory]
    by_cases hr : remain ≥ (sizeofCentral : Int)
    · rw [if_pos hr]
      dsimp only
      split
      · exact kept_read hz _
      · rename_i h1
        have hfull := zip_read_full z (show sizeofCentral < 2 ^ 63 by decide) (not_not.mp h1)
        have hlen46 : sizeofCentral ≤ (z.store.bytes.drop z.store.cursor).length := by
          have := hfull.2
          rw [hfull.1, List.length_take] at this
          omega
        split
        · exact kept_read hz _
        · rename_i h2
          split
          · exact kept_read hz _
          · rename_i h3
            have hsig : rd32 (z.store.bytes.drop z.store.cursor) 0
                = PKZIP_CENTRAL_DIRECTORY_HEADER_SIG := by
              have := not_not.mp h2
              rw [hfull.1] at this
              rw [← this]
              exact (rd32_take _ _ _ (by omega)).symm
            have hfn : (pkzip_central_directory_header_main.ofBytes
                (z.read sizeofCentral).2.1).filename_length
                = rd16 (z.store.bytes.drop z.store.cursor) 28 := by
              rw [hfull.1]
              exact rd16_take _ _ _ (by omega)
            rw [hfn] at h3 ⊢
            have hshort : (z.store.bytes.drop z.store.cursor).length
                < sizeofCentral + rd16 (z.store.bytes.drop z.store.cursor) 28 := by
              rcases hm with hm | hm | hm | hm
              · omega
              · exact absurd hsig hm
              · omega
              · exact hm
            have hk := kept_read hz sizeofCentral
            have hz2 : IdealRead (z.read sizeofCentral).2.2 := hk.2.2.2.1
            have hcur : (z.read sizeofCentral).2.2.store.cursor
                = z.store.cursor + sizeofCentral := by
              rw [zip_read_ideal hz]
              simp only [List.length_take]
              omega
            rw [if_pos (by omega)]
            rw [if_pos]
            · exact kept_trans hk (kept_read hz2 _)
            · rw [zip_read_ideal hz2, hcur, zip_read_bytes]
              have hne : ((z.store.bytes.drop (z.store.cursor + sizeofCentral)).take
                  (rd16 (z.store.bytes.drop z.store.cursor) 28)).length
                  ≠ rd16 (z.store.bytes.drop z.store.cursor) 28 := by
                rw [List.length_take, List.length_drop]
                rw [List.length_drop] at hshort hlen46
                omega
              dsimp only
              exact_mod_cast hne
    · rw [if_neg hr]
      exact hself

theorem zip_seek_file_ok {z : ZIPFile} {pos : Int} (hfd : 0 ≤ z.file_fd)
    (hs : z.store.script = []) (hp : 0 ≤ pos) :
    z.seek_file pos = (pos, { z with store :=
      { z.store with cursor := pos.toNat, log := StorageOp.seekSet pos :: z.store.log } }) :=
  zip_seek_file_ideal ⟨hfd, hs⟩ hp

theorem zip_end_of_file_ok {z : ZIPFile} (hfd : 0 ≤ z.file_fd) (hs : z.store.script = []) :
    z.end_of_file = ((z.store.bytes.length : Int), { z with store :=
      { z.store with cursor := z.store.bytes.length, log := StorageOp.seekEnd :: z.store.log } }) :=
  zip_end_of_file_ideal ⟨hfd, hs⟩

theorem zip_read_ok {z : ZIPFile} (hfd : 0 ≤ z.file_fd) (hs : z.store.script = [])
    (count : Nat) :
    z.read count = ((((z.store.bytes.drop z.store.cursor).take count).length : Int),
      (z.store.bytes.drop z.store.cursor).take count,
      { z with store := { z.store with
          cursor := z.store.cursor + ((z.store.bytes.drop z.store.cursor).take count).length,
          log := StorageOp.read count :: z.store.log } }) :=
  zip_read_ideal ⟨hfd, hs⟩ count

/-- The checks of `open` before the directory loop, on a file that passes them. -/
theorem scan_prelude (z : ZIPFile) (hz : IdealRead z)
    (hlen : 64 ≤ z.store.bytes.length) (hmax : z.store.bytes.length ≤ maxOff)
    (hmagic : z.store.bytes.take 4 = localMagic)
    (hsig : rd32 (z.store.bytes.drop (z.store.bytes.length - sizeofEnd)) 0
      = PKZIP_CENTRAL_DIRECTORY_END_SIG)
    (hsize : rd32 (z.store.bytes.drop (z.store.bytes.length - sizeofEnd)) 12 ≤ 0x100000)
    (hoff0 : rd32 (z.store.bytes.drop (z.store.bytes.length - sizeofEnd)) 16 ≠ 0)
    (hofflt : rd32 (z.store.bytes.drop (z.store.bytes.length - sizeofEnd)) 16
      < z.store.bytes.length) :
    ∃ z1 : ZIPFile,
      z.scan = (0, ZIPFile.scan_central_directory
        (rd32 (z.store.bytes.drop (z.store.bytes.length - sizeofEnd)) 12)
        (rd32 (z.store.bytes.drop (z.store.bytes.length - sizeofEnd)) 12) z1) ∧
      IdealRead z1 ∧ z1.file_fd = z.file_fd ∧ z1.store.bytes = z.store.bytes ∧
      z1.store.cursor = rd32 (z.store.bytes.drop (z.store.bytes.length - sizeofEnd)) 16 ∧
      z1.entries = z.entries ∧ z1.can_write = z.can_write := by
  have hm : maxOff = 2 ^ 63 - 1 := rfl
  have h22 : sizeofEnd = 22 := rfl
  have hw : wrapOff ((z.store.bytes.length : Int) - (sizeofEnd : Nat))
      = ((z.store.bytes.length - sizeofEnd : Nat) : Int) := by
    rw [wrapOff_id (by omega) (by omega)]
    omega
  have ht4 : ((z.store.bytes.take 4).length : Int) = 4 := by
    rw [List.length_take]
    omega
  have hend : (z.store.bytes.drop (z.store.bytes.length - sizeofEnd)).take sizeofEnd
      = z.store.bytes.drop (z.store.bytes.length - sizeofEnd) :=
    List.take_of_length_le (by rw [List.length_drop]; omega)
  have hendlen : (z.store.bytes.drop (z.store.bytes.length - sizeofEnd)).length = sizeofEnd := by
    rw [List.length_drop]
    omega
  unfold ZIPFile.scan
  simp only [zip_end_of_file_ok, zip_seek_file_ok, zip_read_ok, hz.1, hz.2, le_refl,
    Int.toNat_zero, List.drop_zero, ht4, hmagic, hw, Int.toNat_ofNat, hend, hendlen,
    Nat.cast_nonneg, pkzip_central_directory_header_end.ofBytes, hsig, hoff0,
    toSize_natCast (show sizeofEnd < 2 ^ 64 by decide), ne_eq, not_true_eq_false, if_false,
    Nat.not_lt.mpr hsize, gt_iff_lt, ge_iff_le,
    Int.not_le.mpr (show ((rd32 (z.store.bytes.drop (z.store.bytes.length - sizeofEnd)) 16 : Nat) : Int)
      < (z.store.bytes.length : Int) by exact_mod_cast hofflt),
    Int.not_lt.mpr (show (64 : Int) ≤ (z.store.bytes.length : Int) by omega)]
  exact ⟨_, rfl, ⟨hz.1, rfl⟩, rfl, rfl, rfl, rfl, rfl⟩

/-- The scan of a file that passes the checks before the directory loop and whose
directory starts with well-formed records. -/
theorem scan_read_only (z : ZIPFile) (pre : List Byte) (recs : List RawRecord)
    (rest : List Byte) (hz : IdealRead z)
    (hfile : z.store.bytes = pre ++ dirBytes recs ++ rest)
    (hlen : 64 ≤ z.store.bytes.length) (hmax : z.store.bytes.length ≤ maxOff)
    (hmagic : z.store.bytes.take 4 = localMagic)
    (hsig : rd32 (z.store.bytes.drop (z.store.bytes.length - sizeofEnd)) 0
      = PKZIP_CENTRAL_DIRECTORY_END_SIG)
    (hsize : rd32 (z.store.bytes.drop (z.store.bytes.length - sizeofEnd)) 12 ≤ 0x100000)
    (hoff : rd32 (z.store.bytes.drop (z.store.bytes.length - sizeofEnd)) 16 = pre.length)
    (hpre0 : pre.length ≠ 0) (hprelt : pre.length < z.store.bytes.length)
    (hwf : ∀ r ∈ recs, WellFormedRecord r)
    (hdecl : (dirBytes recs).length
      ≤ rd32 (z.store.bytes.drop (z.store.bytes.length - sizeofEnd)) 12)
    (hstop : rd32 (z.store.bytes.drop (z.store.bytes.length - sizeofEnd)) 12
        < (dirBytes recs).length + sizeofCentral ∨ Malformed rest) :
    z.scan.1 = 0 ∧ z.scan.2.file_fd = z.file_fd ∧ IdealRead z.scan.2 ∧
    z.scan.2.store.bytes = z.store.bytes ∧ z.scan.2.entries = loadRecords z.entries recs ∧
    z.scan.2.can_write = z.can_write := by
  obtain ⟨z3, he3, hi3, hfd3, hb3, hc3, hen3, hw3⟩ :=
    scan_prelude z hz hlen hmax hmagic hsig hsize (by rw [hoff]; exact hpre0)
      (by rw [hoff]; exact hprelt)
  obtain ⟨f4, z4, he4, hf4, hi4, hfd4, hb4, hc4, hen4, hw4⟩ :=
    scan_records recs hwf _ _ z3 rest hi3
      (by rw [hb3, hc3, hoff, hfile, List.append_assoc]; exact drop_append_exact _ _ _ rfl)
      (by exact_mod_cast hdecl) (le_refl _)
  have hk : Kept z4 (ZIPFile.scan_central_directory f4
      ((rd32 (z.store.bytes.drop (z.store.bytes.length - sizeofEnd)) 12 : Nat)
        - ((dirBytes recs).length : Nat)) z4) := by
    rcases hstop with hs | hs
    · rw [scan_stop _ _ _ (by omega)]
      exact ⟨rfl, rfl, rfl, hi4, rfl⟩
    · refine scan_malformed _ _ _ hi4 ?_
      rw [hb4, hb3, hc4, hc3, hoff, hfile]
      rw [drop_append_exact _ _ _ (by simp)]
      exact hs
  rw [he3, he4]
  refine ⟨rfl, ?_, hk.2.2.2.1, ?_, ?_, ?_⟩
  · rw [hk.2.1, hfd4, hfd3]
  · rw [hk.2.2.1, hb4, hb3]
  · rw [hk.1, hen4, hen3]
  · rw [hk.2.2.2.2, hw4, hw3]

/-- Opening read-only a file that passes the checks before the directory loop and whose
directory starts with well-formed records: the result is 0, the handle stays open and
the map holds the entries of those records, whether the loop then ends because the
declared directory size is used up or because the next bytes are not a record it
accepts. -/
theorem open_read_only (z : ZIPFile) (disk : Storage) (mode : Nat) (pre : List Byte)
    (recs : List RawRecord) (rest : List Byte)
    (hmode : mode % 4 = O_RDONLY) (hideal : disk.script = [])
    (hfile : disk.bytes = pre ++ dirBytes recs ++ rest)
    (hlen : 64 ≤ disk.bytes.length) (hmax : disk.bytes.length ≤ maxOff)
    (hmagic : disk.bytes.take 4 = localMagic)
    (hsig : rd32 (disk.bytes.drop (disk.bytes.length - sizeofEnd)) 0
      = PKZIP_CENTRAL_DIRECTORY_END_SIG)
    (hsize : rd32 (disk.bytes.drop (disk.bytes.length - sizeofEnd)) 12 ≤ 0x100000)
    (hoff : rd32 (disk.bytes.drop (disk.bytes.length - sizeofEnd)) 16 = pre.length)
    (hpre0 : pre.length ≠ 0) (hprelt : pre.length < disk.bytes.length)
    (hwf : ∀ r ∈ recs, WellFormedRecord r)
    (hdecl : (dirBytes recs).length ≤ rd32 (disk.bytes.drop (disk.bytes.length - sizeofEnd)) 12)
    (hstop : rd32 (disk.bytes.drop (disk.bytes.length - sizeofEnd)) 12
        < (dirBytes recs).length + sizeofCentral ∨ Malformed rest) :
    (z.open (some disk) mode).1 = 0 ∧ (z.open (some disk) mode).2.file_fd = 3 ∧
    IdealRead (z.open (some disk) mode).2 ∧
    (z.open (some disk) mode).2.store.bytes = disk.bytes ∧
    (z.open (some disk) mode).2.entries = loadRecords [] recs ∧
    (z.open (some disk) mode).2.can_write = false := by
  have hopen : disk.openFile mode = (3, { disk.tick (StorageOp.openFile mode) with
      cursor := 0, rdonly := decide (mode % 4 = 0) }) := by
    simp [Storage.openFile, storage_outcome_ideal hideal]
  have hs1 : ({ disk.tick (StorageOp.openFile mode) with
      cursor := 0, rdonly := decide (mode % 4 = 0) } : Storage).script = [] := by
    simp [Storage.tick, hideal]
  unfold ZIPFile.open
  simp only [hopen, if_neg (show ¬ mode % 4 = O_WRONLY by rw [hmode]; decide),
    storage_lseek_ideal hs1 (le_refl 0), if_pos hmode]
  simp only [show ¬ ((3 : Int) < 0) by decide, if_false, ne_eq, not_true_eq_false]
  have hw : decide (mode % 4 = O_RDWR) = false := by
    rw [hmode]
    decide
  rw [hw]
  exact scan_read_only _ pre recs rest
    ⟨show (0 : Int) ≤ 3 by decide, by simp [Storage.tick, hideal]⟩
    (by simpa [Storage.tick] using hfile) (by simpa [Storage.tick] using hlen)
    (by simpa [Storage.tick] using hmax) (by simpa [Storage.tick] using hmagic)
    (by simpa [Storage.tick] using hsig) (by simpa [Storage.tick] using hsize)
    (by simpa [Storage.tick] using hoff) hpre0 (by simpa [Storage.tick] using hprelt) hwf
    (by simpa [Storage.tick] using hdecl) (by simpa [Storage.tick] using hstop)

/-! ## Malformed central directory -/

set_option maxRecDepth 100000 in
/-- C4 as stated fails: the file `sampleBadRecord` has a valid leading signature and a
valid end-of-central-directory record, and the second record of its central directory
has a wrong signature; `open` in read-only mode returns 0, keeps the handle and leaves
the map populated with the entry of the first record only. -/
theorem open_malformed_record_accepted :
    sampleBadRecord.take 4 = localMagic ∧
    rd32 (sampleBadRecord.drop 158) 0 = PKZIP_CENTRAL_DIRECTORY_END_SIG ∧
    rd32 (sampleBadRecord.drop 111) 0 ≠ PKZIP_CENTRAL_DIRECTORY_HEADER_SIG ∧
    (ZIPFile.init.open (some (Storage.ofBytes sampleBadRecord)) O_RDONLY).1 = 0 ∧
    (ZIPFile.init.open (some (Storage.ofBytes sampleBadRecord)) O_RDONLY).2.file_fd = 3 ∧
    (ZIPFile.init.open (some (Storage.ofBytes sampleBadRecord)) O_RDONLY).2.entries.map
      Prod.fst = [[0x41]] := by
  decide

/-- C4, amended: for every file whose leading signature and end-of-central-directory
record pass validation and whose central directory holds well-formed records followed
by bytes that are not a record the loop accepts (wrong record signature, filename length
of 512 or more, record or filename not readable in full), `open` in read-only mode on a
storage that does not fail returns 0 and keeps the handle open; the scan stops there and
the map holds exactly the entries decoded from the records before that place. -/
theorem open_malformed_directory (z : ZIPFile) (disk : Storage) (mode : Nat)
    (pre : List Byte) (recs : List RawRecord) (rest : List Byte)
    (hmode : mode % 4 = O_RDONLY) (hideal : disk.script = [])
    (hfile : disk.bytes = pre ++ dirBytes recs ++ rest)
    (hlen : 64 ≤ disk.bytes.length) (hmax : disk.bytes.length ≤ maxOff)
    (hmagic : disk.bytes.take 4 = localMagic)
    (hsig : rd32 (disk.bytes.drop (disk.bytes.length - sizeofEnd)) 0
      = PKZIP_CENTRAL_DIRECTORY_END_SIG)
    (hsize : rd32 (disk.bytes.drop (disk.bytes.length - sizeofEnd)) 12 ≤ 0x100000)
    (hoff : rd32 (disk.bytes.drop (disk.bytes.length - sizeofEnd)) 16 = pre.length)
    (hpre0 : pre.length ≠ 0) (hprelt : pre.length < disk.bytes.length)
    (hwf : ∀ r ∈ recs, WellFormedRecord r)
    (hdecl : (dirBytes recs).length ≤ rd32 (disk.bytes.drop (disk.bytes.length - sizeofEnd)) 12)
    (hbad : Malformed rest) :
    (z.open (some disk) mode).1 = 0 ∧ (z.open (some disk) mode).2.file_fd = 3 ∧
    (z.open (some disk) mode).2.entries = loadRecords [] recs := by
  have h := open_read_only z disk mode pre recs rest hmode hideal hfile hlen hmax hmagic hsig
    hsize hoff hpre0 hprelt hwf hdecl (Or.inr hbad)
  exact ⟨h.1, h.2.1, h.2.2.2.2.1⟩

set_option maxRecDepth 100000 in
/-- Witness of `open_malformed_directory`: `sampleBadRecord`, whose directory at offset 64
holds the record of `A` followed by a record with a wrong signature. -/
theorem open_malformed_directory_witness :
    (ZIPFile.init.open (some (Storage.ofBytes sampleBadRecord)) O_RDONLY).1 = 0 ∧
    (ZIPFile.init.open (some (Storage.ofBytes sampleBadRecord)) O_RDONLY).2.file_fd = 3 ∧
    (ZIPFile.init.open (some (Storage.ofBytes sampleBadRecord)) O_RDONLY).2.entries
      = loadRecords [] [((sampleBadRecord.drop 64).take 46, [0x41])] :=
  open_malformed_directory ZIPFile.init (Storage.ofBytes sampleBadRecord) O_RDONLY
    (sampleBadRecord.take 64) [((sampleBadRecord.drop 64).take 46, [0x41])]
    (sampleBadRecord.drop 111) (by decide) rfl (by decide) (by decide) (by decide) (by decide)
    (by decide) (by decide) (by decide) (by decide) (by decide) (by decide) (by decide)
    (Or.inr (Or.inl (by decide)))

/-! ## The map of entries -/

theorem find_insertNew (m : Entries) (k : List Byte) (e : ZIPFileEntry) (n : List Byte)
    (hk : m.find k = none) :
    (Entries.insertNew k e m).find n = if n = k then some e else m.find n := by
  induction m with
  | nil => simp [Entries.insertNew, Entries.find]
  | cons a t ih =>
    obtain ⟨k1, v1⟩ := a
    have hne : k ≠ k1 := by
      intro h
      simp [Entries.find, h] at hk
    have ht : Entries.find t k = none := by
      simpa [Entries.find, hne] using hk
    unfold Entries.insertNew
    split
    · simp [Entries.find]
    · simp only [Entries.find, ih ht]
      by_cases h1 : n = k1
      · have : n ≠ k := fun h => hne (h ▸ h1)
        simp [h1, this, Ne.symm hne]
      · simp [h1]

theorem find_update (m : Entries) (k : List Byte) (f : ZIPFileEntry → ZIPFileEntry)
    (n : List Byte) :
    (Entries.update k f m).find n = if n = k then (m.find k).map f else m.find n := by
  induction m with
  | nil => simp [Entries.update, Entries.find]
  | cons a t ih =>
    obtain ⟨k1, v1⟩ := a
    unfold Entries.update
    by_cases hk : k = k1
    · subst hk
      by_cases hn : n = k
      · simp [Entries.find, hn]
      · simp [Entries.find, hn]
    · rw [if_neg hk]
      simp only [Entries.find, ih]
      by_cases hn : n = k1
      · have : n ≠ k := fun h => hk (h ▸ hn)
        simp [hn, Ne.symm hk]
      · simp [hn, hk]

theorem find_index_update (m : Entries) (k : List Byte) (f : ZIPFileEntry → ZIPFileEntry)
    (n : List Byte) :
    ((m.index k).update k f).find n =
      if n = k then some (f ((m.find k).getD ZIPFileEntry.fresh)) else m.find n := by
  rw [find_update]
  unfold Entries.index
  cases hk : m.find k with
  | none =>
    simp only [Option.isSome_none, Bool.false_eq_true, if_false, find_insertNew m k _ _ hk]
    by_cases hn : n = k <;> simp [hn]
  | some v =>
    simp only [Option.isSome_some, if_true, hk]
    by_cases hn : n = k <;> simp [hn]

theorem keys_update (m : Entries) (k : List Byte) (f : ZIPFileEntry → ZIPFileEntry) :
    (Entries.update k f m).map Prod.fst = m.map Prod.fst := by
  induction m with
  | nil => rfl
  | cons a t ih =>
    obtain ⟨k1, v1⟩ := a
    unfold Entries.update
    split
    · rfl
    · simp [ih]

theorem keys_insertNew (m : Entries) (k : List Byte) (e : ZIPFileEntry) :
    ((Entries.insertNew k e m).map Prod.fst).Perm (k :: m.map Prod.fst) := by
  induction m with
  | nil => simp [Entries.insertNew]
  | cons a t ih =>
    obtain ⟨k1, v1⟩ := a
    unfold Entries.insertNew
    split
    · simp
    · simp only [List.map_cons]
      exact (List.Perm.cons k1 ih).trans (List.Perm.swap k k1 _)

theorem find_none_iff (m : Entries) (k : List Byte) :
    m.find k = none ↔ k ∉ m.map Prod.fst := by
  induction m with
  | nil => simp [Entries.find]
  | cons a t ih =>
    obtain ⟨k1, v1⟩ := a
    by_cases h : k = k1
    · simp [Entries.find, h]
    · simp [Entries.find, h, ih]

theorem find_of_mem (m : Entries) (hnd : (m.map Prod.fst).Nodup) (k : List Byte)
    (e : ZIPFileEntry) (h : (k, e) ∈ m) : m.find k = some e := by
  induction m with
  | nil => simp at h
  | cons a t ih =>
    obtain ⟨k1, v1⟩ := a
    simp only [List.map_cons, List.nodup_cons] at hnd
    rcases List.mem_cons.mp h with h1 | h1
    · cases h1
      simp [Entries.find]
    · have hk : k ≠ k1 := by
        intro hk
        subst hk
        exact hnd.1 (List.mem_map_of_mem Prod.fst h1)
      simp only [Entries.find, hk, if_false]
      exact ih hnd.2 h1

/-! ## Checksum -/

theorem xor_mask_twice (c : Nat) : (c ^^^ 0xFFFFFFFF) ^^^ 0xFFFFFFFF = c := by
  rw [Nat.xor_assoc, Nat.xor_self, Nat.xor_zero]

theorem zipcrc_update_nil (c : Nat) : zipcrc_update c [] = c := by
  simp [zipcrc_update, xor_mask_twice]

theorem zipcrc_update_append (c : Nat) (a b : List Byte) :
    zipcrc_update (zipcrc_update c a) b = zipcrc_update c (a ++ b) := by
  simp [zipcrc_update, xor_mask_twice, List.foldl_append]

theorem zipcrc_is_crc32 (p : List Byte) :
    zipcrc_finalize (zipcrc_update zipcrc_init p) = crc32 p := by
  simp [zipcrc_finalize, zipcrc_update, zipcrc_init, crc32]

theorem crcBit_lt (c : Nat) (h : c < 2 ^ 32) : crcBit c < 2 ^ 32 := by
  unfold crcBit
  split
  · exact Nat.xor_lt_two_pow (by omega) (by decide)
  · omega

theorem crcByte_lt (c : Nat) (b : Byte) (h : c < 2 ^ 32) : crcByte c b < 2 ^ 32 := by
  unfold crcByte
  have hb : b.val < 2 ^ 32 := by
    have := b.isLt
    omega
  have h0 := Nat.xor_lt_two_pow h hb
  exact crcBit_lt _ (crcBit_lt _ (crcBit_lt _ (crcBit_lt _ (crcBit_lt _ (crcBit_lt _
    (crcBit_lt _ (crcBit_lt _ h0)))))))

theorem crc_fold_lt (p : List Byte) : ∀ c, c < 2 ^ 32 → p.foldl crcByte c < 2 ^ 32 := by
  induction p with
  | nil => exact fun c h => h
  | cons b t ih => exact fun c h => ih _ (crcByte_lt c b h)

theorem crc32_lt (p : List Byte) : crc32 p < 2 ^ 32 :=
  Nat.xor_lt_two_pow (crc_fold_lt p _ (by decide)) (by decide)

/-! ## Record encodings -/

theorem byteOf_val (n : Nat) : (byteOf n).val = n % 256 := rfl

theorem le32_value (n : Nat) :
    n % 256 + 256 * (n / 256 % 256) + 65536 * (n / 65536 % 256) + 16777216 * (n / 16777216 % 256)
      = n % 4294967296 := by
  omega

theorem le16_value (n : Nat) : n % 256 + 256 * (n / 256 % 256) = n % 65536 := by
  omega

theorem byteAt_cons_zero (b : Byte) (l : List Byte) : byteAt (b :: l) 0 = b.val := rfl
theorem byteAt_cons_succ (b : Byte) (l : List Byte) (i : Nat) :
    byteAt (b :: l) (i + 1) = byteAt l i := rfl

theorem rd32_le32 (n : Nat) (rest : List Byte) : rd32 (le32 n ++ rest) 0 = n % 4294967296 := by
  have := le32_value n
  simpa [rd32, le32, byteAt, byteOf_val] using this

theorem byteAt_append_right (a l : List Byte) (i : Nat) :
    byteAt (a ++ l) (a.length + i) = byteAt l i := by
  simp [byteAt, List.getElem?_append_right]

theorem rd32_skip16 (n : Nat) (rest : List Byte) (i : Nat) :
    rd32 (le16 n ++ rest) (i + 2) = rd32 rest i := by
  have h := byteAt_append_right (le16 n) rest
  simp only [show (le16 n).length = 2 from rfl] at h
  simp only [rd32, show i + 2 = 2 + i by omega, show 2 + i + 1 = 2 + (i + 1) by omega,
    show 2 + i + 2 = 2 + (i + 2) by omega, show 2 + i + 3 = 2 + (i + 3) by omega, h]

theorem rd32_skip32 (n : Nat) (rest : List Byte) (i : Nat) :
    rd32 (le32 n ++ rest) (i + 4) = rd32 rest i := by
  have h := byteAt_append_right (le32 n) rest
  simp only [show (le32 n).length = 4 from rfl] at h
  simp only [rd32, show i + 4 = 4 + i by omega, show 4 + i + 1 = 4 + (i + 1) by omega,
    show 4 + i + 2 = 4 + (i + 2) by omega, show 4 + i + 3 = 4 + (i + 3) by omega, h]

theorem rd16_skip16 (n : Nat) (rest : List Byte) (i : Nat) :
    rd16 (le16 n ++ rest) (i + 2) = rd16 rest i := by
  have h := byteAt_append_right (le16 n) rest
  simp only [show (le16 n).length = 2 from rfl] at h
  simp only [rd16, show i + 2 = 2 + i by omega, show 2 + i + 1 = 2 + (i + 1) by omega, h]

theorem rd16_skip32 (n : Nat) (rest : List Byte) (i : Nat) :
    rd16 (le32 n ++ rest) (i + 4) = rd16 rest i := by
  have h := byteAt_append_right (le32 n) rest
  simp only [show (le32 n).length = 4 from rfl] at h
  simp only [rd16, show i + 4 = 4 + i by omega, show 4 + i + 1 = 4 + (i + 1) by omega, h]

theorem rd16_le16 (n : Nat) (rest : List Byte) : rd16 (le16 n ++ rest) 0 = n % 65536 := by
  have := le16_value n
  simpa [rd16, le16, byteAt, byteOf_val] using this

theorem rd16_le16_end (n : Nat) : rd16 (le16 n) 0 = n % 65536 := by
  have := rd16_le16 n []
  simpa using this

theorem rd32_le32_end (n : Nat) : rd32 (le32 n) 0 = n % 4294967296 := by
  have := rd32_le32 n []
  simpa using this

theorem local_toBytes_length (h : ZIPLocalFileHeader) : h.toBytes.length = sizeofLocal := by
  simp [ZIPLocalFileHeader.toBytes, le16, le32, sizeofLocal]

theorem central_toBytes_length (h : pkzip_central_directory_header_main) :
    h.toBytes.length = sizeofCentral := by
  simp [pkzip_central_directory_header_main.toBytes, le16, le32, sizeofCentral]

theorem end_toBytes_length (h : pkzip_central_directory_header_end) :
    h.toBytes.length = sizeofEnd := by
  simp [pkzip_central_directory_header_end.toBytes, le16, le32, sizeofEnd]

theorem toU16_natCast (n : Nat) : toU16 (n : Int) = n % 65536 := by
  unfold toU16
  omega

theorem toU32_natCast (n : Nat) : toU32 (n : Int) = n % 4294967296 := by
  unfold toU32
  omega

theorem toU16_mod (x : Int) : toU16 x % 65536 = toU16 x := by
  unfold toU16
  omega

theorem toU32_mod (x : Int) : toU32 x % 4294967296 = toU32 x := by
  unfold toU32
  omega

/-- The local header `new_entry` writes is read back unchanged by `close_current`. -/
theorem local_ofBytes_new (name : List Byte) :
    ZIPLocalFileHeader.ofBytes (newLocalHeader name).toBytes = newLocalHeader name := by
  simp only [ZIPLocalFileHeader.ofBytes, ZIPLocalFileHeader.toBytes, newLocalHeader,
    ZIPLocalFileHeader.zero, List.append_assoc, rd32_skip16, rd32_skip32, rd16_skip16,
    rd16_skip32, rd32_le32, rd16_le16, rd16_le16_end, toU16_mod]

/-- Fields of a central-directory record read back from its bytes. -/
theorem central_fields (e : ZIPFileEntry) :
    rd32 (centralRecord e).toBytes 0 = PKZIP_CENTRAL_DIRECTORY_HEADER_SIG ∧
    rd16 (centralRecord e).toBytes 28 = toU16 e.name.length ∧
    rd16 (centralRecord e).toBytes 30 = 0 ∧
    rd32 (centralRecord e).toBytes 24 = toU32 e.file_length ∧
    rd32 (centralRecord e).toBytes 42 = toU32 e.file_header_offset ∧
    rd32 (centralRecord e).toBytes 16 = toU32 (zipcrc_finalize e.write_crc) := by
  simp only [pkzip_central_directory_header_main.toBytes, centralRecord,
    pkzip_central_directory_header_main.zero, List.append_assoc, rd32_skip16, rd32_skip32,
    rd16_skip16, rd16_skip32, rd32_le32, rd16_le16, rd32_le32_end, toU16_mod, toU32_mod]
  trivial

/-- Fields of an end-of-central-directory record read back from its bytes. -/
theorem end_fields (cnt byt : Nat) (ofs : Int) (hb : byt < 4294967296) :
    rd32 (endRecord cnt byt ofs).toBytes 0 = PKZIP_CENTRAL_DIRECTORY_END_SIG ∧
    rd32 (endRecord cnt byt ofs).toBytes 12 = byt ∧
    rd32 (endRecord cnt byt ofs).toBytes 16 = toU32 ofs ∧
    rd16 (endRecord cnt byt ofs).toBytes 8 = toU16 cnt ∧
    rd16 (endRecord cnt byt ofs).toBytes 10 = toU16 cnt ∧
    rd16 (endRecord cnt byt ofs).toBytes 20 = 0 := by
  simp only [pkzip_central_directory_header_end.toBytes, endRecord,
    pkzip_central_directory_header_end.zero, List.append_assoc, rd32_skip16, rd32_skip32,
    rd16_skip16, rd16_skip32, rd32_le32, rd16_le16, rd16_le16_end, toU16_mod, toU32_mod,
    Nat.mod_eq_of_lt hb]
  trivial

/-! ## Writer steps -/

/-- A `write` of a non-empty buffer on the entry being extended, the storage accepting
every byte. -/
theorem entry_write_extending (e : ZIPFileEntry) (c : ZIPFile) (buffer : List Byte)
    (hfile : e.file = true) (hoff : 0 < e.file_offset) (hw : e.can_write = true)
    (hext : e.can_extend = true) (hc : Ideal c) (hpos : 0 ≤ e.position)
    (heq : e.position = e.file_length) (hne : buffer ≠ [])
    (hmax : e.file_offset + e.file_length + buffer.length ≤ (maxOff : Int)) :
    e.write c buffer buffer.length =
      ((buffer.length : Int),
        { e with
            position := e.position + buffer.length
            write_crc := zipcrc_update e.write_crc buffer
            file_length := e.position + buffer.length },
        { c with store := { c.store with
            bytes := writeAt c.store.bytes (e.position + e.file_offset).toNat buffer
            cursor := (e.position + e.file_offset).toNat + buffer.length
            log := StorageOp.write buffer ::
              StorageOp.seekSet (e.position + e.file_offset) :: c.store.log } }) := by
  have hm : maxOff = 2 ^ 63 - 1 := rfl
  have hcond : ¬ (e.file = false ∨ e.file_offset = 0 ∨ e.can_write = false) := by
    simp [hfile, hw]
    omega
  have hlen : 0 < buffer.length := List.length_pos.mpr hne
  have hseek := entry_seek_file_ideal (e := e) ⟨hc.1, hc.2.1⟩ hfile hoff hpos
    (by omega) (by omega)
  have hc2 : Ideal { c with store := { c.store with
      cursor := (e.position + e.file_offset).toNat,
      log := StorageOp.seekSet (e.position + e.file_offset) :: c.store.log } } := hc
  have hwr := zip_write_ideal hc2 hne (by
    show (e.position + e.file_offset).toNat + buffer.length ≤ maxOff
    omega)
  unfold ZIPFileEntry.write
  rw [if_neg hcond, if_neg (by omega : ¬ e.position > e.file_length),
    if_neg (by simp [hext] : ¬ (e.position = e.file_length ∧ e.can_extend = false))]
  simp only [hext, if_true, hlen, gt_iff_lt, hseek, ne_eq, not_true_eq_false, if_false,
    List.take_length, hwr, toSize_natCast (show buffer.length < 2 ^ 64 by omega),
    wrapOff_id (show -(2 ^ 63) ≤ (buffer.length : Int) by omega)
      (show (buffer.length : Int) < 2 ^ 63 by omega),
    wrapOff_id (show -(2 ^ 63) ≤ e.position + (buffer.length : Int) by omega)
      (show e.position + (buffer.length : Int) < 2 ^ 63 by omega), and_true]
  rw [if_pos (by omega)]

theorem active_bytes_length {z : ZIPFile} {done : List Stream} {name p : List Byte}
    (h : Active z done name p) :
    z.store.bytes.length = (blocks done).length + (sizeofLocal + name.length) + p.length := by
  rw [h.bytes]
  simp only [List.length_append, local_toBytes_length]
  omega

/-- One `write` call on the open stream of a writer. -/
theorem write_active (z : ZIPFile) (done : List Stream) (name p c : List Byte)
    (h : Active z done name p) (hmax : z.store.bytes.length + c.length ≤ maxOff) :
    (z.entry_write name c c.length).1 = (c.length : Int) ∧
    Active (z.entry_write name c c.length).2 done name (p ++ c) ∧
    (z.entry_write name c c.length).2.wrote_trailer = z.wrote_trailer ∧
    (z.entry_write name c c.length).2.file_fd = z.file_fd := by
  have hm : maxOff = 2 ^ 63 - 1 := rfl
  have h30 : sizeofLocal = 30 := rfl
  have hlen := active_bytes_length h
  have hf : z.entries.find name = some (activeEntry (blocks done).length name p) := by
    simpa using h.find name
  unfold ZIPFile.entry_write
  simp only [hf]
  by_cases hc : c = []
  · subst hc
    have hw : (activeEntry (blocks done).length name p).write z [] ([] : List Byte).length
        = (0, activeEntry (blocks done).length name p, z) := by
      have hne : ¬ (((blocks done).length : Int) + ((sizeofLocal : Int) + (name.length : Int)) = 0) := by
        omega
      simp [ZIPFileEntry.write, activeEntry, wrapOff, hne]
    rw [hw]
    refine ⟨rfl, ⟨h.ideal, h.writable, h.current, ?_, ?_, ?_, h.fresh, h.cname, h.nonempty⟩, rfl,
      rfl⟩
    · simpa using h.bytes
    · intro n
      simp only [find_update, hf, List.append_nil, Option.map_some']
      by_cases hn : n = name
      · simp [hn]
      · simp [hn, h.find n]
    · simpa [keys_update] using h.nodup
  · have hw := entry_write_extending (activeEntry (blocks done).length name p) z c rfl
      (by simp only [activeEntry]; omega) rfl rfl h.ideal (by simp [activeEntry]) rfl hc
      (by simp only [activeEntry]; omega)
    rw [hw]
    have hcur : ((activeEntry (blocks done).length name p).position
        + (activeEntry (blocks done).length name p).file_offset).toNat
        = z.store.bytes.length := by
      simp only [activeEntry]
      omega
    refine ⟨rfl, ⟨h.ideal, h.writable, h.current, ?_, ?_, ?_, h.fresh, h.cname, h.nonempty⟩, rfl,
      rfl⟩
    · show writeAt z.store.bytes _ c = _
      rw [hcur, writeAt_append_end, h.bytes]
      simp only [List.append_assoc]
    · intro n
      simp only [find_update, hf, Option.map_some']
      by_cases hn : n = name
      · simp only [hn, if_true, activeEntry, zipcrc_update_append, List.length_append,
          Nat.cast_add]
      · simp [hn, h.find n]
    · simpa [keys_update] using h.nodup

theorem zip_write_if {z : ZIPFile} (hfd : 0 ≤ z.file_fd) (hs : z.store.script = [])
    (hrw : z.store.rdonly = false) {data : List Byte} (hne : data ≠ []) :
    z.write data =
      if z.store.cursor + data.length ≤ maxOff then
        ((data.length : Int), { z with store := { z.store with
          bytes := writeAt z.store.bytes z.store.cursor data,
          cursor := z.store.cursor + data.length,
          log := StorageOp.write data :: z.store.log } })
      else (-1, { z with store := { z.store with log := StorageOp.write data :: z.store.log } }) := by
  split
  · rename_i h
    exact zip_write_ideal ⟨hfd, hs, hrw⟩ hne h
  · rename_i h
    simp [ZIPFile.write, Int.not_lt.mpr hfd, Storage.write, Storage.put, hrw,
      storage_outcome_ideal hs, storage_tick_ideal hs, hne, Nat.lt_of_not_le h]

theorem local_toBytes_ne_nil (h : ZIPLocalFileHeader) : h.toBytes ≠ [] := by
  intro hn
  have := local_toBytes_length h
  rw [hn] at this
  simp [sizeofLocal] at this

theorem central_toBytes_ne_nil (h : pkzip_central_directory_header_main) : h.toBytes ≠ [] := by
  intro hn
  have := central_toBytes_length h
  rw [hn] at this
  simp [sizeofCentral] at this

theorem end_toBytes_ne_nil (h : pkzip_central_directory_header_end) : h.toBytes ≠ [] := by
  intro hn
  have := end_toBytes_length h
  rw [hn] at this
  simp [sizeofEnd] at this

/-- The header patch-up of `close_current` on a file that holds the header `new_entry`
wrote at the header offset of the entry. -/
theorem patch_current_ok (z : ZIPFile) (ent : ZIPFileEntry) (X Y name : List Byte)
    (hI : Ideal z) (hb : z.store.bytes = X ++ (newLocalHeader name).toBytes ++ Y)
    (hoff : ent.file_header_offset = (X.length : Int))
    (hmax : z.store.bytes.length ≤ maxOff) :
    Ideal (z.patch_current ent) ∧
    (z.patch_current ent).store.bytes
      = X ++ (patchHeader (newLocalHeader name) ent).toBytes ++ Y ∧
    (z.patch_current ent).entries = z.entries ∧
    (z.patch_current ent).can_write = z.can_write ∧
    (z.patch_current ent).current_entry = z.current_entry ∧
    (z.patch_current ent).wrote_trailer = z.wrote_trailer ∧
    (z.patch_current ent).file_fd = z.file_fd := by
  have h30 : sizeofLocal = 30 := rfl
  have hl := local_toBytes_length (newLocalHeader name)
  have hblen : z.store.bytes.length = X.length + sizeofLocal + Y.length := by
    rw [hb]
    simp only [List.length_append, hl]
  have hrd : (z.store.bytes.drop X.length).take sizeofLocal = (newLocalHeader name).toBytes := by
    rw [hb, List.append_assoc, drop_append_exact _ _ _ rfl]
    exact take_append_exact _ _ _ hl
  have hwa : writeAt z.store.bytes X.length
      (patchHeader (newLocalHeader name) ent).toBytes
      = X ++ (patchHeader (newLocalHeader name) ent).toBytes ++ Y := by
    rw [hb]
    exact writeAt_middle _ _ _ _ (by rw [hl, local_toBytes_length])
  unfold ZIPFile.patch_current
  simp only [hoff, zip_seek_file_ok, zip_read_ok, zip_write_if, hI.1, hI.2.1, hI.2.2,
    Nat.cast_nonneg, Int.toNat_ofNat, hrd, hl, if_true,
    toSize_natCast (show sizeofLocal < 2 ^ 64 by decide), local_ofBytes_new,
    local_toBytes_ne_nil, ne_eq, not_false_eq_true, local_toBytes_length, hwa]
  rw [if_pos (by omega)]
  exact ⟨⟨hI.1, rfl, rfl⟩, rfl, rfl, rfl, rfl, rfl, rfl⟩

theorem blocks_append (a b : List Stream) : blocks (a ++ b) = blocks a ++ blocks b := by
  induction a with
  | nil => rfl
  | cons s t ih => simp [blocks, ih]

theorem specFind_append_some (a b : List Stream) (n : List Byte) :
    ∀ (off : Nat) (e : ZIPFileEntry), specFind off a n = some e →
      specFind off (a ++ b) n = some e := by
  induction a with
  | nil => intro off e h; simp [specFind] at h
  | cons s t ih =>
    intro off e h
    simp only [List.cons_append, specFind] at h ⊢
    split
    · rename_i hn
      simpa [hn] using h
    · rename_i hn
      rw [if_neg hn] at h
      exact ih _ _ h

theorem specFind_append_none (a b : List Stream) (n : List Byte) :
    ∀ (off : Nat), specFind off a n = none →
      specFind off (a ++ b) n = specFind (off + (blocks a).length) b n := by
  induction a with
  | nil => intro off _; simp [blocks]
  | cons s t ih =>
    intro off h
    simp only [List.cons_append, specFind] at h ⊢
    split
    · rename_i hn
      simp [hn] at h
    · rename_i hn
      rw [if_neg hn] at h
      have := ih _ h
      simp only [List.append_eq] at this ⊢
      rw [this]
      simp only [blocks, List.length_append]
      congr 1
      omega

/-- `close_current` finalizes the open stream of a writer. -/
theorem close_current_active (z : ZIPFile) (done : List Stream) (name p : List Byte)
    (h : Active z done name p) (hmax : z.store.bytes.length ≤ maxOff) :
    Idle z.close_current (done ++ [(name, p)]) ∧
    z.close_current.wrote_trailer = z.wrote_trailer ∧
    z.close_current.file_fd = z.file_fd := by
  have hf : z.entries.find name = some (activeEntry (blocks done).length name p) := by
    simpa using h.find name
  have hkey : cstr z.current_entry = name := by rw [h.current, h.cname]
  have hp := patch_current_ok
    { z with
        entries := z.entries.update (cstr z.current_entry)
          (fun e => { e with can_write := false, can_extend := false }) }
    (activeEntry (blocks done).length name p) (blocks done) (name ++ p) name h.ideal
    (by simpa [List.append_assoc] using h.bytes) rfl hmax
  obtain ⟨hI, hb, hen, hcw, hcur, htr, hfd⟩ := hp
  have hget : z.get_entry z.current_entry
      = some (activeEntry (blocks done).length name p) := by
    simp [ZIPFile.get_entry, Int.not_lt.mpr h.ideal.1, hkey, h.nonempty, hf]
  have hcc : z.close_current =
      { ZIPFile.patch_current
          { z with
              entries := z.entries.update (cstr z.current_entry)
                (fun e => { e with can_write := false, can_extend := false }) }
          (activeEntry (blocks done).length name p) with current_entry := [] } := by
    unfold ZIPFile.close_current
    rw [if_neg (by simp [h.writable]), if_pos (by rw [h.current]; exact h.nonempty)]
    simp only [hget]
    rw [if_pos (show (activeEntry (blocks done).length name p).can_write = true from rfl)]
  rw [hcc]
  refine ⟨⟨hI, ?_, rfl, ?_, ?_, ?_⟩, htr, hfd⟩
  · exact hcw.trans h.writable
  · show (ZIPFile.patch_current _ _).store.bytes = _
    rw [hb, blocks_append]
    simp only [blocks, block, finalHeader, patchHeader, activeEntry, List.append_nil,
      List.append_assoc]
  · intro n
    show (ZIPFile.patch_current _ _).entries.find n = _
    rw [hen]
    simp only [find_update, hkey, hf, Option.map_some']
    by_cases hn : n = name
    · subst hn
      rw [if_pos rfl, specFind_append_none _ _ _ _ h.fresh]
      simp [specFind, finalEntry]
    · rw [if_neg hn, h.find n, if_neg hn]
      cases hs : specFind 0 done n with
      | some e => rw [specFind_append_some _ _ _ _ _ hs]
      | none =>
        rw [specFind_append_none _ _ _ _ hs]
        simp [specFind, hn]
  · show ((ZIPFile.patch_current _ _).entries.map Prod.fst).Nodup
    rw [hen]
    simpa [keys_update] using h.nodup

theorem close_current_idle (z : ZIPFile) (done : List Stream) (h : Idle z done) :
    z.close_current = z := by
  unfold ZIPFile.close_current
  rw [if_neg (by simp [h.writable]), if_neg (by simp [h.current])]
  have hcur := h.current
  cases z
  simp only at hcur
  subst hcur
  rfl

/-- `new_entry` on a writer with no stream open. -/
theorem new_entry_idle (z : ZIPFile) (done : List Stream) (name : List Byte)
    (h : Idle z done) (hc : cstr name = name) (hne : name ≠ [])
    (hfresh : specFind 0 done name = none)
    (hmax : (blocks done).length + (sizeofLocal + name.length) ≤ maxOff) :
    (z.new_entry name).1 = some name ∧ Active (z.new_entry name).2 done name [] ∧
    (z.new_entry name).2.wrote_trailer = z.wrote_trailer ∧
    (z.new_entry name).2.file_fd = z.file_fd := by
  have hm : maxOff = 2 ^ 63 - 1 := rfl
  have h30 : sizeofLocal = 30 := rfl
  have hL : z.store.bytes.length = (blocks done).length := by rw [h.bytes]
  have hfn : z.entries.find name = none := by rw [h.find name, hfresh]
  have hwp : wrapOff (((toSize (z.store.bytes.length : Int) + (sizeofLocal + name.length))
      % 2 ^ 64 : Nat) : Int) = ((z.store.bytes.length + (sizeofLocal + name.length) : Nat) : Int) := by
    rw [toSize_natCast (by omega), Nat.mod_eq_of_lt (by omega), wrapOff_id (by omega) (by omega)]
  have hl := local_toBytes_length (newLocalHeader name)
  have hw1 : writeAt z.store.bytes z.store.bytes.length (newLocalHeader name).toBytes
      = z.store.bytes ++ (newLocalHeader name).toBytes := writeAt_append_end _ _
  have hw2 : writeAt (z.store.bytes ++ (newLocalHeader name).toBytes)
      (z.store.bytes.length + sizeofLocal) name
      = z.store.bytes ++ (newLocalHeader name).toBytes ++ name := by
    have := writeAt_append_end (z.store.bytes ++ (newLocalHeader name).toBytes) name
    rwa [List.length_append, hl] at this
  unfold ZIPFile.new_entry
  rw [if_neg (by simp [h.writable, Int.not_lt.mpr h.ideal.1]),
    if_neg (by simp [hc, hfn]), if_neg (by rw [hc]; exact hne)]
  simp only [close_current_idle z done h, hc, zip_end_of_file_ok, zip_seek_file_ok,
    zip_write_if, h.ideal.1, h.ideal.2.1, h.ideal.2.2, Nat.cast_nonneg, Int.toNat_ofNat, hwp,
    local_toBytes_ne_nil, hne, ne_eq, not_false_eq_true, not_true_eq_false, if_false,
    local_toBytes_length, hw1, hw2,
    show z.store.bytes.length + sizeofLocal ≤ maxOff by omega,
    show z.store.bytes.length + sizeofLocal + name.length ≤ maxOff by omega, if_true,
    toSize_natCast (show sizeofLocal < 2 ^ 64 by omega),
    toSize_natCast (show name.length < 2 ^ 64 by omega)]
  refine ⟨trivial, ⟨⟨h.ideal.1, rfl, rfl⟩, h.writable, rfl, ?_, ?_, ?_, hfresh, hc, hne⟩,
    trivial, trivial⟩
  · show z.store.bytes ++ (newLocalHeader name).toBytes ++ name = _
    rw [h.bytes, List.append_nil]
  · intro n
    show (Entries.update name _ (z.entries.index name)).find n = _
    rw [find_index_update, hfn]
    by_cases hn : n = name
    · simp only [hn, if_true, Option.getD_none, ZIPFileEntry.fresh, activeEntry, hL,
        zipcrc_update_nil, List.length_nil, Nat.cast_zero]
    · simp only [hn, if_false, h.find n]
  · show ((Entries.update name _ (z.entries.index name)).map Prod.fst).Nodup
    rw [keys_update]
    unfold Entries.index
    simp only [hfn, Option.isSome_none, Bool.false_eq_true, if_false]
    exact (List.Perm.nodup_iff (keys_insertNew _ _ _)).mpr
      (List.nodup_cons.mpr ⟨(find_none_iff _ _).mp hfn, h.nodup⟩)

theorem new_entry_via_close (z : ZIPFile) (name : List Byte)
    (h1 : z.close_current.file_fd = z.file_fd) (h2 : z.close_current.can_write = z.can_write)
    (h3 : (z.close_current.entries.find (cstr name)).isSome
      = (z.entries.find (cstr name)).isSome)
    (h4 : z.close_current.close_current = z.close_current)
    (hg1 : ¬ (z.file_fd < 0 ∨ z.can_write = false))
    (hg2 : ¬ (z.entries.find (cstr name)).isSome = true) (hg3 : ¬ cstr name = []) :
    z.new_entry name = z.close_current.new_entry name := by
  unfold ZIPFile.new_entry
  rw [h1, h2, h3, h4, if_neg hg1, if_neg hg2, if_neg hg3, if_neg hg1, if_neg hg2, if_neg hg3]

theorem specFind_none_iff (l : List Stream) (n : List Byte) :
    ∀ off, specFind off l n = none ↔ n ∉ l.map Prod.fst := by
  induction l with
  | nil => intro off; simp [specFind]
  | cons s t ih =>
    intro off
    by_cases hn : n = s.1
    · simp [specFind, hn]
    · simp [specFind, hn, ih]

theorem blocks_length_append (a b : List Stream) :
    (blocks (a ++ b)).length = (blocks a).length + (blocks b).length := by
  rw [blocks_append, List.length_append]

theorem block_length (s : Stream) : (block s).length = sizeofLocal + s.1.length + s.2.length := by
  simp [block, local_toBytes_length, Nat.add_assoc]

theorem blocks_single_length (s : Stream) :
    (blocks [s]).length = sizeofLocal + s.1.length + s.2.length := by
  simp [blocks, block_length]

/-- `close_current` between two streams. -/
theorem close_current_ready (z : ZIPFile) (done : List Stream) (h : Ready z done)
    (hmax : (blocks done).length ≤ maxOff) :
    Idle z.close_current done ∧ z.close_current.wrote_trailer = z.wrote_trailer ∧
    z.close_current.file_fd = z.file_fd := by
  rcases h with h | ⟨pre, n, p, hd, h⟩
  · rw [close_current_idle z done h]
    exact ⟨h, rfl, rfl⟩
  · subst hd
    refine close_current_active z pre n p h ?_
    rw [active_bytes_length h]
    rw [blocks_length_append, blocks_single_length] at hmax
    simp only at hmax
    omega

/-- `new_entry` between two streams. -/
theorem new_entry_ready (z : ZIPFile) (done : List Stream) (name : List Byte)
    (h : Ready z done) (hv : ValidName name) (hfresh : name ∉ done.map Prod.fst)
    (hmax : (blocks done).length + (sizeofLocal + name.length) ≤ maxOff) :
    (z.new_entry name).1 = some name ∧ Active (z.new_entry name).2 done name [] ∧
    (z.new_entry name).2.wrote_trailer = z.wrote_trailer ∧
    (z.new_entry name).2.file_fd = z.file_fd := by
  obtain ⟨hi, htr, hfd⟩ := close_current_ready z done h (by omega)
  have hsf : specFind 0 done name = none := (specFind_none_iff _ _ _).mpr hfresh
  have hvia : z.new_entry name = z.close_current.new_entry name := by
    rcases h with h | ⟨pre, n, p, hd, h⟩
    · rw [close_current_idle z done h]
    · subst hd
      have hne : name ≠ n := by
        intro hnn
        apply hfresh
        simp [hnn]
      have hpre : specFind 0 pre name = none := by
        apply (specFind_none_iff _ _ _).mpr
        intro hmem
        apply hfresh
        simp only [List.map_append, List.mem_append]
        exact Or.inl hmem
      have hz : z.entries.find name = none := by
        rw [h.find name, if_neg hne, hpre]
      refine new_entry_via_close z name hfd (hi.writable.trans h.writable.symm) ?_
        (close_current_idle _ _ hi) ?_ ?_ ?_
      · rw [hv.1, hi.find name, hsf, hz]
      · simp [h.writable, Int.not_lt.mpr h.ideal.1]
      · simp [hv.1, hz]
      · rw [hv.1]
        exact hv.2
  rw [hvia]
  obtain ⟨r1, r2, r3, r4⟩ := new_entry_idle z.close_current done name hi hv.1 hv.2 hsf hmax
  exact ⟨r1, r2, r3.trans htr, r4.trans hfd⟩

/-- The writes of the chunks of a payload on the open stream. -/
theorem write_chunks_active (chunks : List (List Byte)) :
    ∀ (z : ZIPFile) (done : List Stream) (name p : List Byte), Active z done name p →
      z.store.bytes.length + chunks.flatten.length ≤ maxOff →
      Active (z.write_chunks name chunks) done name (p ++ chunks.flatten) ∧
      (z.write_chunks name chunks).wrote_trailer = z.wrote_trailer ∧
      (z.write_chunks name chunks).file_fd = z.file_fd := by
  induction chunks with
  | nil =>
    intro z done name p h _
    simpa [ZIPFile.write_chunks] using h
  | cons c t ih =>
    intro z done name p h hmax
    simp only [List.flatten_cons, List.length_append] at hmax
    obtain ⟨_, h1, htr, hfd⟩ := write_active z done name p c h (by omega)
    have hlen : (z.entry_write name c c.length).2.store.bytes.length
        = z.store.bytes.length + c.length := by
      rw [active_bytes_length h1, active_bytes_length h, List.length_append]
      omega
    obtain ⟨h2, htr2, hfd2⟩ := ih _ done name (p ++ c) h1 (by rw [hlen]; omega)
    simp only [ZIPFile.write_chunks, List.flatten_cons]
    rw [← List.append_assoc]
    exact ⟨h2, htr2.trans htr, hfd2.trans hfd⟩

/-- `new_entry` and the writes of one stream. -/
theorem store_stream_ready (z : ZIPFile) (done : List Stream) (name : List Byte)
    (chunks : List (List Byte)) (h : Ready z done) (hv : ValidName name)
    (hfresh : name ∉ done.map Prod.fst)
    (hmax : (blocks (done ++ [(name, chunks.flatten)])).length ≤ maxOff) :
    Active (z.store_stream name chunks) done name chunks.flatten ∧
    (z.store_stream name chunks).wrote_trailer = z.wrote_trailer ∧
    (z.store_stream name chunks).file_fd = z.file_fd := by
  rw [blocks_length_append, blocks_single_length] at hmax
  simp only at hmax
  obtain ⟨r1, r2, r3, r4⟩ := new_entry_ready z done name h hv hfresh (by omega)
  have hlen := active_bytes_length r2
  simp only [List.length_nil] at hlen
  obtain ⟨w1, w2, w3⟩ := write_chunks_active chunks _ done name [] r2 (by omega)
  unfold ZIPFile.store_stream
  simp only [r1]
  rw [List.nil_append] at w1
  exact ⟨w1, w2.trans r3, w3.trans r4⟩

/-- The streams of a session stored one after the other. -/
theorem store_all_ready (ss : List (List Byte × List (List Byte))) :
    ∀ (z : ZIPFile) (done : List Stream), Ready z done → (∀ s ∈ ss, ValidName s.1) →
      ((done ++ streamsOf ss).map Prod.fst).Nodup →
      (blocks (done ++ streamsOf ss)).length ≤ maxOff →
      Ready (z.store_all ss) (done ++ streamsOf ss) ∧
      (z.store_all ss).wrote_trailer = z.wrote_trailer ∧
      (z.store_all ss).file_fd = z.file_fd := by
  induction ss with
  | nil =>
    intro z done h _ _ _
    simpa [ZIPFile.store_all, streamsOf] using h
  | cons s t ih =>
    intro z done h hv hnd hmax
    have hsplit : done ++ streamsOf (s :: t) = (done ++ [(s.1, s.2.flatten)]) ++ streamsOf t := by
      simp [streamsOf]
    rw [hsplit] at hnd hmax ⊢
    have hfresh : s.1 ∉ done.map Prod.fst := by
      intro hmem
      simp only [List.map_append, List.map_cons, List.map_nil, List.append_assoc,
        List.singleton_append] at hnd
      have := (List.nodup_append.mp hnd).2.2
      exact this hmem (List.mem_cons_self _ _)
    obtain ⟨a1, a2, a3⟩ := store_stream_ready z done s.1 s.2 h (hv s (List.mem_cons_self _ _))
      hfresh (by rw [blocks_length_append] at hmax; omega)
    obtain ⟨b1, b2, b3⟩ := ih (z.store_stream s.1 s.2) (done ++ [(s.1, s.2.flatten)])
      (Or.inr ⟨done, s.1, s.2.flatten, rfl, a1⟩)
      (fun x hx => hv x (List.mem_cons_of_mem _ hx)) hnd hmax
    exact ⟨b1, b2.trans a2, b3.trans a3⟩

/-- The loop of `writeZIPFooter` on a storage that accepts every byte. -/
theorem write_central_directory_ideal (m : Entries) :
    ∀ (cnt byt : Nat) (z : ZIPFile), Ideal z → (∀ ke ∈ m, ke.2.name ≠ []) →
      cnt < 2 ^ 32 → byt < 2 ^ 32 →
      z.store.cursor = z.store.bytes.length →
      z.store.bytes.length + (dirBytes (directoryOf m)).length ≤ maxOff →
      (ZIPFile.write_central_directory m cnt byt z).1 = (cnt + m.length) % 2 ^ 32 ∧
      (ZIPFile.write_central_directory m cnt byt z).2.1
        = (byt + (dirBytes (directoryOf m)).length) % 2 ^ 32 ∧
      Ideal (ZIPFile.write_central_directory m cnt byt z).2.2 ∧
      (ZIPFile.write_central_directory m cnt byt z).2.2.store.bytes
        = z.store.bytes ++ dirBytes (directoryOf m) ∧
      (ZIPFile.write_central_directory m cnt byt z).2.2.store.cursor
        = z.store.bytes.length + (dirBytes (directoryOf m)).length ∧
      (ZIPFile.write_central_directory m cnt byt z).2.2.file_fd = z.file_fd := by
  have h46 : sizeofCentral = 46 := rfl
  have hm : maxOff = 2 ^ 63 - 1 := rfl
  induction m with
  | nil =>
    intro cnt byt z hI _ hc hb hcur _
    simp only [ZIPFile.write_central_directory, directoryOf, dirBytes, List.map_nil,
      List.length_nil, Nat.add_zero, List.append_nil, Nat.mod_eq_of_lt hc, Nat.mod_eq_of_lt hb]
    exact ⟨trivial, trivial, hI, trivial, hcur, trivial⟩
  | cons ke t ih =>
    intro cnt byt z hI hne hc hb hcur hmax
    have hnm := hne ke (List.mem_cons_self _ _)
    have hdl : (dirBytes (directoryOf (ke :: t))).length
        = sizeofCentral + ke.2.name.length + (dirBytes (directoryOf t)).length := by
      simp [directoryOf, dirBytes, central_toBytes_length, Nat.add_assoc]
    have hdb : dirBytes (directoryOf (ke :: t))
        = (centralRecord ke.2).toBytes ++ ke.2.name ++ dirBytes (directoryOf t) := by
      simp [directoryOf, dirBytes]
    rw [hdl] at hmax
    have hw1 := writeAt_append_end z.store.bytes (centralRecord ke.2).toBytes
    have hw2 : writeAt (z.store.bytes ++ (centralRecord ke.2).toBytes)
        (z.store.bytes.length + sizeofCentral) ke.2.name
        = z.store.bytes ++ (centralRecord ke.2).toBytes ++ ke.2.name := by
      have := writeAt_append_end (z.store.bytes ++ (centralRecord ke.2).toBytes) ke.2.name
      rwa [List.length_append, central_toBytes_length] at this
    rw [ZIPFile.write_central_directory]
    simp only [zip_write_if, hI.1, hI.2.1, hI.2.2, central_toBytes_ne_nil, hnm, ne_eq,
      not_false_eq_true, central_toBytes_length, hcur, hw1, hw2, if_true, not_true_eq_false,
      if_false, show z.store.bytes.length + sizeofCentral ≤ maxOff by omega,
      show z.store.bytes.length + sizeofCentral + ke.2.name.length ≤ maxOff by omega,
      toSize_natCast (show sizeofCentral < 2 ^ 64 by omega),
      toSize_natCast (show ke.2.name.length < 2 ^ 64 by omega)]
    suffices hs : ∀ z2 : ZIPFile, Ideal z2 →
        z2.store.bytes = z.store.bytes ++ (centralRecord ke.2).toBytes ++ ke.2.name →
        z2.store.cursor = z.store.bytes.length + sizeofCentral + ke.2.name.length →
        z2.file_fd = z.file_fd →
        (ZIPFile.write_central_directory t ((cnt + 1) % 2 ^ 32)
          (((byt + sizeofCentral) % 2 ^ 32 + ke.2.name.length) % 2 ^ 32) z2).1
          = (cnt + (ke :: t).length) % 2 ^ 32 ∧
        (ZIPFile.write_central_directory t ((cnt + 1) % 2 ^ 32)
          (((byt + sizeofCentral) % 2 ^ 32 + ke.2.name.length) % 2 ^ 32) z2).2.1
          = (byt + (dirBytes (directoryOf (ke :: t))).length) % 2 ^ 32 ∧
        Ideal (ZIPFile.write_central_directory t ((cnt + 1) % 2 ^ 32)
          (((byt + sizeofCentral) % 2 ^ 32 + ke.2.name.length) % 2 ^ 32) z2).2.2 ∧
        (ZIPFile.write_central_directory t ((cnt + 1) % 2 ^ 32)
          (((byt + sizeofCentral) % 2 ^ 32 + ke.2.name.length) % 2 ^ 32) z2).2.2.store.bytes
          = z.store.bytes ++ dirBytes (directoryOf (ke :: t)) ∧
        (ZIPFile.write_central_directory t ((cnt + 1) % 2 ^ 32)
          (((byt + sizeofCentral) % 2 ^ 32 + ke.2.name.length) % 2 ^ 32) z2).2.2.store.cursor
          = z.store.bytes.length + (dirBytes (directoryOf (ke :: t))).length ∧
        (ZIPFile.write_central_directory t ((cnt + 1) % 2 ^ 32)
          (((byt + sizeofCentral) % 2 ^ 32 + ke.2.name.length) % 2 ^ 32) z2).2.2.file_fd
          = z.file_fd from hs _ ⟨hI.1, rfl, rfl⟩ rfl rfl rfl
    intro z2 hI2 hb2 hc2 hfd2
    have hlen2 : z2.store.bytes.length
        = z.store.bytes.length + sizeofCentral + ke.2.name.length := by
      rw [hb2]
      simp only [List.length_append, central_toBytes_length]
    obtain ⟨k1, k2, k3, k4, k5, k6⟩ := ih ((cnt + 1) % 2 ^ 32)
      (((byt + sizeofCentral) % 2 ^ 32 + ke.2.name.length) % 2 ^ 32) z2 hI2
      (fun x hx => hne x (List.mem_cons_of_mem _ hx)) (Nat.mod_lt _ (by decide))
      (Nat.mod_lt _ (by decide)) (by rw [hc2, hlen2]) (by rw [hlen2]; omega)
    refine ⟨?_, ?_, k3, ?_, ?_, k6.trans hfd2⟩
    · rw [k1, List.length_cons]
      omega
    · rw [k2, hdl]
      omega
    · rw [k4, hb2, hdb]
      simp only [List.append_assoc]
    · rw [k5, hlen2, hdl]
      omega

theorem specFind_some (l : List Stream) (n : List Byte) :
    ∀ (off : Nat) (e : ZIPFileEntry), specFind off l n = some e →
      ∃ pre p post, l = pre ++ (n, p) :: post ∧ n ∉ pre.map Prod.fst ∧
        e = finalEntry (off + (blocks pre).length) n p := by
  induction l with
  | nil => intro off e h; simp [specFind] at h
  | cons s t ih =>
    intro off e h
    simp only [specFind] at h
    by_cases hn : n = s.1
    · rw [if_pos hn] at h
      refine ⟨[], s.2, t, ?_, by simp, ?_⟩
      · simp [hn]
      · simp only [Option.some.injEq] at h
        rw [← h, hn]
        simp [blocks]
    · rw [if_neg hn] at h
      obtain ⟨pre, p, post, hl, hnp, he⟩ := ih _ _ h
      refine ⟨s :: pre, p, post, by simp [hl], ?_, ?_⟩
      · simp only [List.map_cons, List.mem_cons, not_or]
        exact ⟨hn, hnp⟩
      · rw [he]
        simp only [blocks, List.length_append]
        congr 1
        omega

/-- Every node of the map of an idle writer is the entry of a stream of the session. -/
theorem idle_node (z : ZIPFile) (done : List Stream) (h : Idle z done)
    (ke : List Byte × ZIPFileEntry) (hke : ke ∈ z.entries) :
    ∃ pre p post, done = pre ++ (ke.1, p) :: post ∧ ke.1 ∉ pre.map Prod.fst ∧
      ke.2 = finalEntry (blocks pre).length ke.1 p := by
  have hf := find_of_mem z.entries h.nodup ke.1 ke.2 hke
  rw [h.find ke.1] at hf
  obtain ⟨pre, p, post, h1, h2, h3⟩ := specFind_some _ _ _ _ hf
  exact ⟨pre, p, post, h1, h2, by simpa using h3⟩

/-- `writeZIPFooter` on a writer whose trailer is not yet written. -/
theorem writeZIPFooter_ready (z : ZIPFile) (done : List Stream) (h : Ready z done)
    (htr : z.wrote_trailer = false) (hv : ∀ s ∈ done, ValidName s.1)
    (hmax : (blocks done).length + (dirBytes (directoryOf z.close_current.entries)).length
      + sizeofEnd ≤ maxOff) :
    z.writeZIPFooter.store.bytes = blocks done ++
      dirBytes (directoryOf z.close_current.entries) ++
      (endRecord (z.close_current.entries.length % 2 ^ 32)
        ((dirBytes (directoryOf z.close_current.entries)).length % 2 ^ 32)
        ((blocks done).length : Int)).toBytes ∧
    z.writeZIPFooter.file_fd = z.file_fd ∧ z.writeZIPFooter.wrote_trailer = true := by
  have hm : maxOff = 2 ^ 63 - 1 := rfl
  have h22 : sizeofEnd = 22 := rfl
  obtain ⟨hi, _, hfd⟩ := close_current_ready z done h (by omega)
  have hg : ¬ (z.file_fd < 0 ∨ z.wrote_trailer = true ∨ z.can_write = false) := by
    have hfd0 : 0 ≤ z.file_fd := by rw [← hfd]; exact hi.ideal.1
    have hw : z.can_write = true := by
      rcases h with h | ⟨_, _, _, _, h⟩
      · exact h.writable
      · exact h.writable
    simp [htr, hw, Int.not_lt.mpr hfd0]
  have hnames : ∀ ke ∈ z.close_current.entries, ke.2.name ≠ [] := by
    intro ke hke
    obtain ⟨pre, p, post, h1, _, h3⟩ := idle_node _ _ hi ke hke
    rw [h3]
    exact (hv (ke.1, p) (by rw [h1]; simp)).2
  have hL : z.close_current.store.bytes.length = (blocks done).length := by rw [hi.bytes]
  have hcd := write_central_directory_ideal z.close_current.entries 0 0
    { z.close_current with store := { z.close_current.store with
        cursor := z.close_current.store.bytes.length,
        log := StorageOp.seekEnd :: z.close_current.store.log } }
    hi.ideal hnames (by decide) (by decide) rfl (by
      show z.close_current.store.bytes.length + _ ≤ maxOff
      omega)
  obtain ⟨c1, c2, c3, c4, c5, c6⟩ := hcd
  unfold ZIPFile.writeZIPFooter
  rw [if_neg hg]
  simp only [zip_end_of_file_ok hi.ideal.1 hi.ideal.2.1, c1, c2]
  have hw := zip_write_ideal c3 (end_toBytes_ne_nil (endRecord
    ((0 + z.close_current.entries.length) % 2 ^ 32)
    ((0 + (dirBytes (directoryOf z.close_current.entries)).length) % 2 ^ 32)
    (z.close_current.store.bytes.length : Int))) (by
      rw [c5, end_toBytes_length]
      show z.close_current.store.bytes.length + _ + _ ≤ maxOff
      omega)
  rw [hw]
  refine ⟨?_, ?_, trivial⟩
  · show writeAt _ _ _ = _
    rw [c5, c4]
    have : z.close_current.store.bytes.length
        + (dirBytes (directoryOf z.close_current.entries)).length
        = (z.close_current.store.bytes
          ++ dirBytes (directoryOf z.close_current.entries)).length := by
      rw [List.length_append]
    show writeAt (z.close_current.store.bytes ++ _)
      (z.close_current.store.bytes.length + _) _ = _
    rw [this, writeAt_append_end, hi.bytes]
    simp only [Nat.zero_add]
  · show (ZIPFile.write_central_directory _ _ _ _).2.2.file_fd = _
    rw [c6]
    exact hfd

theorem blocks_length (l : List Stream) : (blocks l).length = bodySize l := by
  induction l with
  | nil => rfl
  | cons s t ih =>
    simp only [blocks, List.length_append, block_length, ih, bodySize, List.map_cons,
      List.sum_cons]

theorem directory_length (m : Entries) (hk : ∀ ke ∈ m, ke.2.name = ke.1) :
    (dirBytes (directoryOf m)).length = dirSize (m.map Prod.fst) := by
  induction m with
  | nil => rfl
  | cons ke t ih =>
    have h1 := hk ke (List.mem_cons_self _ _)
    have h2 := ih (fun x hx => hk x (List.mem_cons_of_mem _ hx))
    simp only [directoryOf, dirSize, List.map_cons, dirBytes, List.length_append,
      central_toBytes_length, List.sum_cons, h1] at h2 ⊢
    rw [h2]

theorem mem_of_find (m : Entries) (k : List Byte) (e : ZIPFileEntry)
    (h : m.find k = some e) : (k, e) ∈ m := by
  induction m with
  | nil => simp [Entries.find] at h
  | cons a t ih =>
    obtain ⟨k1, v1⟩ := a
    by_cases hk : k = k1
    · simp only [Entries.find, hk, if_true, Option.some.injEq] at h
      simp [hk, h]
    · simp only [Entries.find, hk, if_false] at h
      exact List.mem_cons_of_mem _ (ih h)

/-- The keys of the map of an idle writer are the names of the session, up to order. -/
theorem idle_keys (z : ZIPFile) (done : List Stream) (h : Idle z done)
    (hnd : (done.map Prod.fst).Nodup) :
    (z.entries.map Prod.fst).Perm (done.map Prod.fst) := by
  rw [List.perm_ext_iff_of_nodup h.nodup hnd]
  intro k
  constructor
  · intro hk
    by_contra hc
    have := (specFind_none_iff done k 0).mpr hc
    rw [← h.find k] at this
    exact (find_none_iff _ _).mp this hk
  · intro hk
    by_contra hc
    have := (find_none_iff _ _).mpr hc
    rw [h.find k] at this
    exact (specFind_none_iff done k 0).mp this hk

theorem idle_directory_length (z : ZIPFile) (done : List Stream) (h : Idle z done)
    (hnd : (done.map Prod.fst).Nodup) :
    (dirBytes (directoryOf z.entries)).length = dirSize (done.map Prod.fst) ∧
    z.entries.length = done.length := by
  have hp := idle_keys z done h hnd
  constructor
  · rw [directory_length]
    · exact (hp.map _).sum_eq
    · intro ke hke
      obtain ⟨pre, p, post, _, _, h3⟩ := idle_node z done h ke hke
      rw [h3]
      rfl
  · have := hp.length_eq
    simpa using this

theorem emptyRW_idle : Idle emptyRW [] :=
  ⟨by decide, by decide, by decide, by decide,
    fun n => by
      have : emptyRW.entries = [] := by decide
      rw [this]
      rfl,
    by
      have : emptyRW.entries = [] := by decide
      rw [this]
      exact List.nodup_nil⟩

theorem emptyRW_trailer : emptyRW.wrote_trailer = false := by
  decide

theorem zip_close_bytes (z : ZIPFile) : z.close.store.bytes = z.store.bytes := by
  unfold ZIPFile.close
  split <;> rfl

/-- The file a writer session leaves on disk: the finalized blocks of its streams, the
central directory of the map in iteration order, the end record. -/
theorem archive_layout (session : List (List Byte × List (List Byte)))
    (hv : ∀ s ∈ session, ValidName s.1) (hnd : ((streamsOf session).map Prod.fst).Nodup)
    (hsize : archiveSize (streamsOf session) ≤ maxOff) :
    ∃ m : Entries, (∀ n, m.find n = specFind 0 (streamsOf session) n) ∧
      (m.map Prod.fst).Nodup ∧
      (∀ ke ∈ m, ∃ pre p post, streamsOf session = pre ++ (ke.1, p) :: post ∧
        ke.1 ∉ pre.map Prod.fst ∧ ke.2 = finalEntry (blocks pre).length ke.1 p) ∧
      (dirBytes (directoryOf m)).length = dirSize ((streamsOf session).map Prod.fst) ∧
      m.length = (streamsOf session).length ∧
      archiveOf session = blocks (streamsOf session) ++ dirBytes (directoryOf m) ++
        (endRecord (m.length % 2 ^ 32)
          (dirSize ((streamsOf session).map Prod.fst) % 2 ^ 32)
          ((blocks (streamsOf session)).length : Int)).toBytes := by
  have hsz : (blocks (streamsOf session)).length
      + dirSize ((streamsOf session).map Prod.fst) + sizeofEnd ≤ maxOff := by
    rw [blocks_length]
    exact hsize
  obtain ⟨hr, htr, _⟩ := store_all_ready session emptyRW [] (Or.inl emptyRW_idle) hv
    (by simpa using hnd) (by simp only [List.nil_append]; omega)
  rw [List.nil_append] at hr
  obtain ⟨hi, _, _⟩ := close_current_ready _ _ hr (by omega)
  obtain ⟨hd1, hd2⟩ := idle_directory_length _ _ hi hnd
  have hvs : ∀ s ∈ streamsOf session, ValidName s.1 := by
    intro s hs
    simp only [streamsOf, List.mem_map] at hs
    obtain ⟨a, ha, rfl⟩ := hs
    exact hv a ha
  obtain ⟨f1, _, _⟩ := writeZIPFooter_ready _ _ hr (htr.trans emptyRW_trailer) hvs
    (by rw [hd1]; exact hsz)
  refine ⟨(emptyRW.store_all session).close_current.entries, hi.find, hi.nodup,
    fun ke hke => idle_node _ _ hi ke hke, hd1, hd2, ?_⟩
  show ((emptyRW.store_all session).writeZIPFooter.close).store.bytes = _
  rw [zip_close_bytes, f1, hd1]

/-! ## Reading an archive back -/

theorem find_loadRecords (m : Entries) :
    ∀ acc : Entries, (m.map Prod.fst).Nodup →
      (∀ ke ∈ m, ke.2.name = ke.1 ∧ ValidName ke.1) →
      (∀ ke ∈ m, acc.find ke.1 = none) →
      ∀ n, (loadRecords acc (directoryOf m)).find n =
        match m.find n with
        | some e => some (loadedEntry e n)
        | none => acc.find n := by
  induction m with
  | nil =>
    intro acc _ _ _ n
    simp [directoryOf, loadRecords, Entries.find]
  | cons ke t ih =>
    intro acc hnd hk hacc n
    obtain ⟨k, e⟩ := ke
    simp only [List.map_cons, List.nodup_cons] at hnd
    have hke := hk (k, e) (List.mem_cons_self _ _)
    simp only at hke
    have hak := hacc (k, e) (List.mem_cons_self _ _)
    simp only at hak
    have hrec : loadRecord acc ((centralRecord e).toBytes, e.name)
        = (acc.index k).update k
          (loadEntry (pkzip_central_directory_header_main.ofBytes (centralRecord e).toBytes) k) := by
      simp only [loadRecord, hke.1, hke.2.1, hke.2.2, if_false]
    have hstep : ∀ x, (loadRecord acc ((centralRecord e).toBytes, e.name)).find x
        = if x = k then some (loadedEntry e k) else acc.find x := by
      intro x
      rw [hrec, find_index_update, hak]
      rfl
    have hacc2 : ∀ ke ∈ t, (loadRecord acc ((centralRecord e).toBytes, e.name)).find ke.1
        = none := by
      intro ke2 hke2
      rw [hstep]
      have hne : ke2.1 ≠ k := by
        intro hh
        exact hnd.1 (hh ▸ List.mem_map_of_mem Prod.fst hke2)
      rw [if_neg hne]
      exact hacc ke2 (List.mem_cons_of_mem _ hke2)
    have := ih (loadRecord acc ((centralRecord e).toBytes, e.name)) hnd.2
      (fun x hx => hk x (List.mem_cons_of_mem _ hx)) hacc2 n
    simp only [directoryOf, List.map_cons, loadRecords] at this ⊢
    rw [this, hstep]
    by_cases hn : n = k
    · subst hn
      have ht : Entries.find t n = none := (find_none_iff _ _).mpr hnd.1
      simp [Entries.find, ht]
    · simp only [Entries.find, hn, if_false]

theorem loadedEntry_final (off : Nat) (n p : List Byte) (hoff : off < 2 ^ 32)
    (hp : p.length < 2 ^ 32) (hn : n.length < 65536) :
    loadedEntry (finalEntry off n p) n = readerEntry off n p := by
  obtain ⟨_, f28, f30, f24, f42, _⟩ := central_fields (finalEntry off n p)
  have e24 : (pkzip_central_directory_header_main.ofBytes
      (centralRecord (finalEntry off n p)).toBytes).uncompressed_size = p.length := by
    show rd32 _ 24 = _
    rw [f24]
    simp only [finalEntry, activeEntry, toU32_natCast]
    omega
  have e42 : (pkzip_central_directory_header_main.ofBytes
      (centralRecord (finalEntry off n p)).toBytes).relative_offset_of_local_header = off := by
    show rd32 _ 42 = _
    rw [f42]
    simp only [finalEntry, activeEntry, toU32_natCast]
    omega
  have e28 : (pkzip_central_directory_header_main.ofBytes
      (centralRecord (finalEntry off n p)).toBytes).filename_length = n.length := by
    show rd16 _ 28 = _
    rw [f28]
    simp only [finalEntry, activeEntry, toU16_natCast]
    omega
  have e30 : (pkzip_central_directory_header_main.ofBytes
      (centralRecord (finalEntry off n p)).toBytes).extra_field_length = 0 := f30
  have h30 : sizeofLocal = 30 := rfl
  have t1 : toU32 ((p.length : Nat) : Int) = p.length := by
    rw [toU32_natCast]
    omega
  have t2 : toU32 ((off : Nat) : Int) = off := by
    rw [toU32_natCast]
    omega
  have t3 : toU16 ((n.length : Nat) : Int) = n.length := by
    rw [toU16_natCast]
    omega
  have t4 : toU16 ((0 : Nat) : Int) = 0 := by decide
  have t5 : wrapOff (((toSize ((off : Nat) : Int) + sizeofLocal + n.length + 0) % 2 ^ 64 : Nat) : Int)
      = ((off + (sizeofLocal + n.length) : Nat) : Int) := by
    rw [toSize_natCast (by omega), Nat.mod_eq_of_lt (by omega), wrapOff_id (by omega) (by omega)]
    omega
  simp only [loadedEntry, loadEntry, e24, e42, e28, e30, t1, t2, t3, t4]
  rw [t5]
  rfl

/-- Reading the whole payload of an entry whose cursor is at the start. -/
theorem entry_read_whole (e : ZIPFileEntry) (c : ZIPFile) (hfile : e.file = true)
    (hoff : 0 < e.file_offset) (hc : IdealRead c) (hpos : e.position = 0)
    (hlen : 0 ≤ e.file_length)
    (hin : e.file_offset + e.file_length ≤ (c.store.bytes.length : Int))
    (hmax : c.store.bytes.length ≤ maxOff) :
    (e.read c e.file_length.toNat).1 = e.file_length ∧
    (e.read c e.file_length.toNat).2.1
      = (c.store.bytes.drop e.file_offset.toNat).take e.file_length.toNat ∧
    (e.read c e.file_length.toNat).2.2.1 = { e with position := e.file_length } ∧
    IdealRead (e.read c e.file_length.toNat).2.2.2 ∧
    (e.read c e.file_length.toNat).2.2.2.store.bytes = c.store.bytes ∧
    (e.read c e.file_length.toNat).2.2.2.file_fd = c.file_fd := by
  have hm : maxOff = 2 ^ 63 - 1 := rfl
  have hcond : ¬ (e.file = false ∨ e.file_offset = 0) := by
    simp [hfile]
    omega
  unfold ZIPFileEntry.read
  rw [if_neg hcond]
  by_cases h0 : e.file_length = 0
  · rw [if_pos (by omega)]
    refine ⟨h0.symm, by simp [h0], ?_, hc, rfl, rfl⟩
    cases e
    simp_all
  · have hts : toSize (e.file_length - e.position) = e.file_length.toNat := by
      rw [hpos, Int.sub_zero]
      exact toSize_id hlen (by omega)
    have hseek := entry_seek_file_ideal (e := e) hc hfile hoff (by omega) (by omega) (by omega)
    have hc2 : IdealRead { c with store := { c.store with
        cursor := (e.position + e.file_offset).toNat,
        log := StorageOp.seekSet (e.position + e.file_offset) :: c.store.log } } := hc
    have hl : ((List.drop (e.position + e.file_offset).toNat c.store.bytes).take
        e.file_length.toNat).length = e.file_length.toNat := by
      rw [List.length_take, List.length_drop]
      omega
    rw [if_neg (by omega)]
    simp only [hts, gt_iff_lt, lt_irrefl, if_false, hseek,
      show 0 < e.file_length.toNat by omega, if_true, ne_eq, not_true_eq_false,
      zip_read_ideal hc2, hl, toSize_natCast (show e.file_length.toNat < 2 ^ 64 by omega),
      wrapOff_id (show -(2 ^ 63) ≤ ((e.file_length.toNat : Nat) : Int) by omega)
        (show ((e.file_length.toNat : Nat) : Int) < 2 ^ 63 by omega),
      wrapOff_id (show -(2 ^ 63) ≤ e.position + ((e.file_length.toNat : Nat) : Int) by omega)
        (show e.position + ((e.file_length.toNat : Nat) : Int) < 2 ^ 63 by omega)]
    refine ⟨by omega, ?_, ?_, hc, trivial, trivial⟩
    · rw [hpos, Int.zero_add]
    · congr 1
      omega

theorem local_magic (s : Stream) (rest : List Byte) :
    ((finalHeader s).toBytes ++ rest).take 4 = localMagic := by
  have h : (finalHeader s).toBytes = localMagic ++ ((finalHeader s).toBytes.drop 4) := by
    simp only [ZIPLocalFileHeader.toBytes, finalHeader, patchHeader, newLocalHeader,
      ZIPLocalFileHeader.zero, List.append_assoc]
    rfl
  rw [h, List.append_assoc]
  exact take_append_exact _ _ _ rfl

theorem bodySize_cons (s : Stream) (t : List Stream) :
    bodySize (s :: t) = sizeofLocal + s.1.length + s.2.length + bodySize t := by
  simp [bodySize]

theorem dirSize_cons (n : List Byte) (t : List (List Byte)) :
    dirSize (n :: t) = sizeofCentral + n.length + dirSize t := by
  simp [dirSize]

theorem specFind_at (pre post : List Stream) (n p : List Byte) (off : Nat)
    (h : n ∉ pre.map Prod.fst) :
    specFind off (pre ++ (n, p) :: post) n = some (finalEntry (off + (blocks pre).length) n p) := by
  rw [specFind_append_none _ _ _ _ ((specFind_none_iff _ _ _).mpr h)]
  simp [specFind]

/-- Reopening the archive of a writer session: `open` succeeds and the map holds, for
each name of the session, the entry read from its central record. -/
theorem roundtrip_core (session : List (List Byte × List (List Byte)))
    (hne : session ≠ []) (hv : ∀ s ∈ session, ValidName s.1 ∧ s.1.length < 512)
    (hnd : ((streamsOf session).map Prod.fst).Nodup)
    (hsize : archiveSize (streamsOf session) < 2 ^ 32)
    (hdir : dirSize ((streamsOf session).map Prod.fst) ≤ 0x100000) :
    (readBack (archiveOf session)).1 = 0 ∧ (readBack (archiveOf session)).2.file_fd = 3 ∧
    IdealRead (readBack (archiveOf session)).2 ∧
    (readBack (archiveOf session)).2.store.bytes = archiveOf session ∧
    (∃ dir tail, archiveOf session = blocks (streamsOf session) ++ dir ++ tail) ∧
    (archiveOf session).length = archiveSize (streamsOf session) ∧
    (∀ n, (readBack (archiveOf session)).2.entries.find n =
      match specFind 0 (streamsOf session) n with
      | some e => some (loadedEntry e n)
      | none => none) := by
  have hm : maxOff = 2 ^ 63 - 1 := rfl
  have h22 : sizeofEnd = 22 := rfl
  have h30 : sizeofLocal = 30 := rfl
  have h46 : sizeofCentral = 46 := rfl
  have hsz := hsize
  unfold archiveSize at hsz
  obtain ⟨m, hfind, hnodup, hnodes, hdl, hml, harch⟩ := archive_layout session
    (fun s hs => (hv s hs).1) hnd (by omega)
  have hB := blocks_length (streamsOf session)
  obtain ⟨s0, t0, hs0⟩ := List.exists_cons_of_ne_nil hne
  have hst : streamsOf session = (s0.1, s0.2.flatten) :: streamsOf t0 := by
    rw [hs0]
    rfl
  have hbody : 31 ≤ bodySize (streamsOf session) := by
    rw [hst, bodySize_cons]
    have := (hv s0 (by rw [hs0]; exact List.mem_cons_self _ _)).1.2
    have : 0 < s0.1.length := List.length_pos.mpr this
    simp only
    omega
  have hdsz : 47 ≤ dirSize ((streamsOf session).map Prod.fst) := by
    rw [hst, List.map_cons, dirSize_cons]
    have := (hv s0 (by rw [hs0]; exact List.mem_cons_self _ _)).1.2
    have : 0 < s0.1.length := List.length_pos.mpr this
    simp only
    omega
  have hvalid : ∀ ke ∈ m, ke.2.name = ke.1 ∧ ValidName ke.1 ∧ ke.1.length < 512 := by
    intro ke hke
    obtain ⟨pre, p, post, h1, _, h3⟩ := hnodes ke hke
    have hmem : (ke.1, p) ∈ streamsOf session := by rw [h1]; simp
    simp only [streamsOf, List.mem_map] at hmem
    obtain ⟨a, ha, hae⟩ := hmem
    have hk : a.1 = ke.1 := congrArg Prod.fst hae
    rw [h3]
    exact ⟨rfl, hk ▸ (hv a ha).1, hk ▸ (hv a ha).2⟩
  have hAlen : (archiveOf session).length
      = bodySize (streamsOf session) + dirSize ((streamsOf session).map Prod.fst) + sizeofEnd := by
    rw [harch]
    simp only [List.length_append, end_toBytes_length, hB, hdl]
  have hdrop : (archiveOf session).drop ((archiveOf session).length - sizeofEnd)
      = (endRecord (m.length % 2 ^ 32)
          (dirSize ((streamsOf session).map Prod.fst) % 2 ^ 32)
          ((blocks (streamsOf session)).length : Int)).toBytes := by
    rw [hAlen, Nat.add_sub_cancel]
    conv => lhs; rw [harch]
    exact drop_append_exact _ _ _ (by simp only [List.length_append, hB, hdl])
  obtain ⟨e0, e12a, e16a, _, _, _⟩ := end_fields (m.length % 2 ^ 32)
    (dirSize ((streamsOf session).map Prod.fst) % 2 ^ 32)
    ((blocks (streamsOf session)).length : Int) (Nat.mod_lt _ (by decide))
  have e12 := e12a.trans
    (Nat.mod_eq_of_lt (show dirSize ((streamsOf session).map Prod.fst) < 2 ^ 32 by omega))
  have e16 := e16a.trans ((toU32_natCast _).trans
    (Nat.mod_eq_of_lt (show (blocks (streamsOf session)).length < 4294967296 by omega)))
  have hopen := open_read_only ZIPFile.init (Storage.ofBytes (archiveOf session)) O_RDONLY
    (blocks (streamsOf session)) (directoryOf m)
    (endRecord (m.length % 2 ^ 32) (dirSize ((streamsOf session).map Prod.fst) % 2 ^ 32)
      ((blocks (streamsOf session)).length : Int)).toBytes
    (by decide) rfl harch
    (by show 64 ≤ (archiveOf session).length; omega)
    (by show (archiveOf session).length ≤ maxOff; omega)
    (by
      show (archiveOf session).take 4 = localMagic
      rw [harch, hst]
      simp only [blocks, block, List.append_assoc]
      exact local_magic _ _)
    (by
      show rd32 ((archiveOf session).drop ((archiveOf session).length - sizeofEnd)) 0 = _
      rw [hdrop, e0])
    (by
      show rd32 ((archiveOf session).drop ((archiveOf session).length - sizeofEnd)) 12 ≤ _
      rw [hdrop, e12]
      exact hdir)
    (by
      show rd32 ((archiveOf session).drop ((archiveOf session).length - sizeofEnd)) 16 = _
      rw [hdrop, e16])
    (by omega)
    (by show _ < (archiveOf session).length; omega)
    (by
      intro r hr
      simp only [directoryOf, List.mem_map] at hr
      obtain ⟨ke, hke, rfl⟩ := hr
      obtain ⟨hn1, _, hn3⟩ := hvalid ke hke
      obtain ⟨c0, c28, _, _, _, _⟩ := central_fields ke.2
      refine ⟨central_toBytes_length _, c0, ?_, by rw [hn1]; exact hn3⟩
      rw [c28, toU16_natCast, hn1]
      simp only
      omega)
    (by
      show _ ≤ rd32 ((archiveOf session).drop ((archiveOf session).length - sizeofEnd)) 12
      rw [hdrop, e12, hdl])
    (Or.inl (by
      show rd32 ((archiveOf session).drop ((archiveOf session).length - sizeofEnd)) 12 < _
      rw [hdrop, e12, hdl]
      omega))
  obtain ⟨o1, o2, o3, o4, o5, _⟩ := hopen
  refine ⟨o1, o2, o3, o4, ⟨_, _, harch⟩, hAlen, ?_⟩
  intro n
  show (ZIPFile.init.open (some (Storage.ofBytes (archiveOf session))) O_RDONLY).2.entries.find n
    = _
  rw [o5, find_loadRecords m [] hnodup (fun ke hke => ⟨(hvalid ke hke).1, (hvalid ke hke).2.1⟩)
    (fun _ _ => rfl) n, hfind n]
  cases specFind 0 (streamsOf session) n <;> rfl

theorem streamsOf_single (pairs : List Stream) : streamsOf (singleWrites pairs) = pairs := by
  induction pairs with
  | nil => rfl
  | cons s t ih =>
    simp only [streamsOf, singleWrites, List.map_cons, List.map_map] at ih ⊢
    rw [ih]
    simp

/-- Reopening the archive of a writer session: the entry of each stream and the bytes
read through it. -/
theorem roundtrip_stream (session : List (List Byte × List (List Byte)))
    (hne : session ≠ []) (hv : ∀ s ∈ session, ValidName s.1 ∧ s.1.length < 512)
    (hnd : ((streamsOf session).map Prod.fst).Nodup)
    (hsize : archiveSize (streamsOf session) < 2 ^ 32)
    (hdir : dirSize ((streamsOf session).map Prod.fst) ≤ 0x100000)
    (pre post : List Stream) (n p : List Byte)
    (hs : streamsOf session = pre ++ (n, p) :: post) :
    (readBack (archiveOf session)).2.get_entry n
      = some (readerEntry (blocks pre).length n p) ∧
    ((readBack (archiveOf session)).2.entry_read n p.length).1 = (p.length : Int) ∧
    ((readBack (archiveOf session)).2.entry_read n p.length).2.1 = p := by
  have hm : maxOff = 2 ^ 63 - 1 := rfl
  have h30 : sizeofLocal = 30 := rfl
  obtain ⟨_, o2, o3, o4, ⟨dir, tail, harch⟩, hAlen, ofind⟩ :=
    roundtrip_core session hne hv hnd hsize hdir
  have hsz := hsize
  unfold archiveSize at hsz
  have hnp : n ∉ pre.map Prod.fst := by
    rw [hs] at hnd
    simp only [List.map_append, List.map_cons] at hnd
    intro hmem
    exact (List.nodup_append.mp hnd).2.2 hmem (List.mem_cons_self _ _)
  have hvn : ValidName n ∧ n.length < 512 := by
    have hmem : (n, p) ∈ streamsOf session := by rw [hs]; simp
    simp only [streamsOf, List.mem_map] at hmem
    obtain ⟨a, ha, hae⟩ := hmem
    have hk : a.1 = n := congrArg Prod.fst hae
    exact hk ▸ hv a ha
  have hbl : bodySize (streamsOf session)
      = (blocks pre).length + (sizeofLocal + n.length + p.length) + (blocks post).length := by
    rw [← blocks_length, hs, blocks_length_append]
    simp only [blocks, List.length_append, block_length]
    omega
  have hfind : (readBack (archiveOf session)).2.entries.find n
      = some (readerEntry (blocks pre).length n p) := by
    rw [ofind n, hs, specFind_at pre post n p 0 hnp]
    simp only [Nat.zero_add]
    rw [loadedEntry_final _ n p (by omega) (by omega) (by omega)]
  have hbytes : (readBack (archiveOf session)).2.store.bytes
      = (blocks pre ++ (finalHeader (n, p)).toBytes ++ n) ++ p
        ++ (blocks post ++ dir ++ tail) := by
    rw [o4, harch, hs, blocks_append]
    simp only [blocks, block, List.append_assoc]
  have hprefix : (blocks pre ++ (finalHeader (n, p)).toBytes ++ n).length
      = (blocks pre).length + (sizeofLocal + n.length) := by
    simp only [List.length_append, local_toBytes_length]
    omega
  have hrd := entry_read_whole (readerEntry (blocks pre).length n p)
    (readBack (archiveOf session)).2 rfl (by simp only [readerEntry]; omega) o3 rfl
    (by simp [readerEntry])
    (by
      rw [hbytes]
      simp only [readerEntry, List.length_append, local_toBytes_length]
      omega)
    (by
      rw [o4, hAlen]
      omega)
  simp only [readerEntry, Int.toNat_ofNat] at hrd
  obtain ⟨r1, r2, _⟩ := hrd
  refine ⟨?_, ?_, ?_⟩
  · unfold ZIPFile.get_entry
    rw [if_neg (by rw [o2]; decide), hvn.1.1, if_neg hvn.1.2]
    exact hfind
  · unfold ZIPFile.entry_read
    simp only [hfind]
    exact r1
  · unfold ZIPFile.entry_read
    simp only [hfind]
    show ((readerEntry (blocks pre).length n p).read _ p.length).2.1 = p
    simp only [readerEntry]
    rw [r2, hbytes, ← hprefix, List.append_assoc _ p, drop_append_exact _ _ _ rfl]
    exact take_append_exact _ _ _ rfl

/-! ## Round trip -/

set_option maxRecDepth 100000 in
/-- C1 as stated fails: for the empty set of pairs the archive is the end record alone
(22 bytes), and reopening it read-only fails with `-1` (it is shorter than 64 bytes);
for a single pair whose name has 512 bytes reopening returns 0 with an empty map, the
name being too long for the scratch buffer of the directory loop. -/
theorem roundtrip_fails :
    (archiveOf (singleWrites [])).length = 22 ∧
    (readBack (archiveOf (singleWrites []))).1 = -1 ∧
    (readBack (archiveOf (singleWrites [(List.replicate 512 0x41, [1])]))).1 = 0 ∧
    (readBack (archiveOf (singleWrites [(List.replicate 512 0x41, [1])]))).2.entries = [] := by
  refine ⟨by decide, by decide, ?_⟩
  decide!

/-- C1, amended: for every non-empty set of (name, payload) pairs with distinct names
that are non-empty C strings shorter than 512 bytes, whose archive is smaller than 4 GiB
with a central directory of at most 0x100000 bytes: opening an empty file read-write,
`new_entry` and one `write` of the payload for each pair, `writeZIPFooter`, `close` and
reopening the file read-only (storage never failing) succeeds; the names of the map are
exactly the written names, and for each pair `get_entry` gives an entry whose
`file_length` is the payload length and through which a read of `file_length` bytes
returns that count and exactly the payload. -/
theorem roundtrip (pairs : List Stream) (hne : pairs ≠ [])
    (hv : ∀ s ∈ pairs, ValidName s.1 ∧ s.1.length < 512)
    (hnd : (pairs.map Prod.fst).Nodup) (hsize : archiveSize pairs < 2 ^ 32)
    (hdir : dirSize (pairs.map Prod.fst) ≤ 0x100000) :
    (readBack (archiveOf (singleWrites pairs))).1 = 0 ∧
    (∀ n, ((readBack (archiveOf (singleWrites pairs))).2.entries.find n).isSome = true
      ↔ n ∈ pairs.map Prod.fst) ∧
    ∀ s ∈ pairs, ∃ e,
      (readBack (archiveOf (singleWrites pairs))).2.get_entry s.1 = some e ∧
      e.file_length = (s.2.length : Int) ∧
      ((readBack (archiveOf (singleWrites pairs))).2.entry_read s.1 s.2.length).1
        = (s.2.length : Int) ∧
      ((readBack (archiveOf (singleWrites pairs))).2.entry_read s.1 s.2.length).2.1 = s.2 := by
  have hst := streamsOf_single pairs
  have hne2 : singleWrites pairs ≠ [] := by
    intro h
    apply hne
    simpa [singleWrites] using h
  have hv2 : ∀ s ∈ singleWrites pairs, ValidName s.1 ∧ s.1.length < 512 := by
    intro s hs
    simp only [singleWrites, List.mem_map] at hs
    obtain ⟨a, ha, rfl⟩ := hs
    exact hv a ha
  obtain ⟨o1, _, _, _, _, _, ofind⟩ := roundtrip_core (singleWrites pairs) hne2 hv2
    (by rw [hst]; exact hnd) (by rw [hst]; exact hsize) (by rw [hst]; exact hdir)
  refine ⟨o1, ?_, ?_⟩
  · intro n
    rw [ofind n, hst]
    cases hsf : specFind 0 pairs n with
    | none =>
      have := (specFind_none_iff pairs n 0).mp hsf
      simp [this]
    | some e =>
      have : ¬ n ∉ pairs.map Prod.fst := by
        intro hc
        rw [(specFind_none_iff pairs n 0).mpr hc] at hsf
        exact Option.noConfusion hsf
      simp only [Option.isSome_some, true_iff]
      exact not_not.mp this
  · intro s hs
    obtain ⟨pre, post, hsplit⟩ := List.append_of_mem hs
    obtain ⟨g, r1, r2⟩ := roundtrip_stream (singleWrites pairs) hne2 hv2
      (by rw [hst]; exact hnd) (by rw [hst]; exact hsize) (by rw [hst]; exact hdir)
      pre post s.1 s.2 (by rw [hst]; exact hsplit)
    exact ⟨_, g, rfl, r1, r2⟩

set_option maxRecDepth 100000 in
/-- Witness of `roundtrip`: the streams `A` (one byte 1) and `B` (one byte 2). -/
theorem roundtrip_witness :
    (readBack (archiveOf (singleWrites [([0x41], [1]), ([0x42], [2])]))).1 = 0 :=
  (roundtrip [([0x41], [1]), ([0x42], [2])] (by decide) (by decide) (by decide) (by decide)
    (by decide)).1

set_option maxRecDepth 100000 in
/-- C2: an empty file opened read-write, `new_entry("STATE.BIN")`, one write of 100
bytes `0x58`, `writeZIPFooter`, `close`, then reopened read-only (storage never failing):
`open` returns 0, `get_entry("STATE.BIN")` gives an entry with `file_length = 100`, a
read with count 100 returns 100 and the 100 bytes `0x58`, and the next read returns 0. -/
theorem state_bin_scenario :
    (readBack (archiveOf [(stateBin, [List.replicate 100 0x58])])).1 = 0 ∧
    ((readBack (archiveOf [(stateBin, [List.replicate 100 0x58])])).2.get_entry stateBin).map
      (fun e => e.file_length) = some 100 ∧
    ((readBack (archiveOf [(stateBin, [List.replicate 100 0x58])])).2.entry_read stateBin
      100).1 = 100 ∧
    ((readBack (archiveOf [(stateBin, [List.replicate 100 0x58])])).2.entry_read stateBin
      100).2.1 = List.replicate 100 0x58 ∧
    (((readBack (archiveOf [(stateBin, [List.replicate 100 0x58])])).2.entry_read stateBin
      100).2.2.entry_read stateBin 100).1 = 0 := by
  decide

/-! ## Checksum of a stream -/

theorem rd32_append_left (l rest : List Byte) (i : Nat) (h : i + 4 ≤ l.length) :
    rd32 (l ++ rest) i = rd32 l i := by
  simp only [rd32, byteAt, List.get?_eq_getElem?]
  rw [List.getElem?_append_left (by omega), List.getElem?_append_left (by omega),
    List.getElem?_append_left (by omega), List.getElem?_append_left (by omega)]

theorem local_crc_field (h : ZIPLocalFileHeader) (rest : List Byte) :
    rd32 (h.toBytes ++ rest) 14 = h.crc_32 % 4294967296 := by
  simp only [ZIPLocalFileHeader.toBytes, List.append_assoc, rd32_skip16, rd32_skip32,
    rd32_le32]

theorem dirBytes_append (a b : List RawRecord) : dirBytes (a ++ b) = dirBytes a ++ dirBytes b := by
  induction a with
  | nil => rfl
  | cons r t ih => simp [dirBytes, ih]

theorem streamsOf_append (a b : List (List Byte × List (List Byte))) :
    streamsOf (a ++ b) = streamsOf a ++ streamsOf b := by
  simp [streamsOf]

/-- C3: in the archive a writer session leaves on disk, for every stream of the session
and every way its payload `P` was split into successive `write` calls: the checksum
field of its local header (patched by `close_current`) is the standard CRC-32 of `P`,
and the central directory emitted by `writeZIPFooter` holds a record that points to that
local header and whose checksum field is the standard CRC-32 of `P`. -/
theorem checksum_correct (before after : List (List Byte × List (List Byte)))
    (name : List Byte) (chunks : List (List Byte))
    (hv : ∀ s ∈ before ++ (name, chunks) :: after, ValidName s.1)
    (hnd : ((streamsOf (before ++ (name, chunks) :: after)).map Prod.fst).Nodup)
    (hsize : archiveSize (streamsOf (before ++ (name, chunks) :: after)) < 2 ^ 32) :
    rd32 ((archiveOf (before ++ (name, chunks) :: after)).drop (bodySize (streamsOf before))) 0
      = 0x04034b50 ∧
    rd32 ((archiveOf (before ++ (name, chunks) :: after)).drop (bodySize (streamsOf before))) 14
      = crc32 chunks.flatten ∧
    ∃ k, bodySize (streamsOf (before ++ (name, chunks) :: after)) ≤ k ∧
      rd32 ((archiveOf (before ++ (name, chunks) :: after)).drop k) 0
        = PKZIP_CENTRAL_DIRECTORY_HEADER_SIG ∧
      rd32 ((archiveOf (before ++ (name, chunks) :: after)).drop k) 42
        = bodySize (streamsOf before) ∧
      rd32 ((archiveOf (before ++ (name, chunks) :: after)).drop k) 16
        = crc32 chunks.flatten := by
  have hm : maxOff = 2 ^ 63 - 1 := rfl
  have hsz := hsize
  unfold archiveSize at hsz
  obtain ⟨m, hfind, hnodup, hnodes, hdl, hml, harch⟩ :=
    archive_layout (before ++ (name, chunks) :: after) hv hnd (by unfold archiveSize; omega)
  have hst : streamsOf (before ++ (name, chunks) :: after)
      = streamsOf before ++ (name, chunks.flatten) :: streamsOf after := by
    rw [streamsOf_append]
    rfl
  have hnp : name ∉ (streamsOf before).map Prod.fst := by
    rw [hst] at hnd
    simp only [List.map_append, List.map_cons] at hnd
    intro hmem
    exact (List.nodup_append.mp hnd).2.2 hmem (List.mem_cons_self _ _)
  have hbl : bodySize (streamsOf (before ++ (name, chunks) :: after))
      = bodySize (streamsOf before) + (sizeofLocal + name.length + chunks.flatten.length)
        + bodySize (streamsOf after) := by
    rw [hst, ← blocks_length, blocks_length_append, blocks_length]
    simp only [blocks, List.length_append, block_length, blocks_length]
    omega
  have hcrc : toU32 ((zipcrc_finalize (zipcrc_update zipcrc_init chunks.flatten) : Nat) : Int)
      = crc32 chunks.flatten := by
    rw [zipcrc_is_crc32, toU32_natCast]
    exact Nat.mod_eq_of_lt (crc32_lt _)
  have hlocal : (archiveOf (before ++ (name, chunks) :: after)).drop
      (bodySize (streamsOf before))
      = (finalHeader (name, chunks.flatten)).toBytes ++ (name ++ chunks.flatten
        ++ blocks (streamsOf after) ++ dirBytes (directoryOf m) ++
        (endRecord (m.length % 2 ^ 32)
          (dirSize ((streamsOf (before ++ (name, chunks) :: after)).map Prod.fst) % 2 ^ 32)
          ((blocks (streamsOf (before ++ (name, chunks) :: after))).length : Int)).toBytes) := by
    rw [harch, hst, blocks_append, ← blocks_length]
    simp only [blocks, block, List.append_assoc]
    exact drop_append_exact _ _ _ rfl
  refine ⟨?_, ?_, ?_⟩
  · rw [hlocal]
    simp only [ZIPLocalFileHeader.toBytes, finalHeader, patchHeader, newLocalHeader,
      ZIPLocalFileHeader.zero, List.append_assoc, rd32_le32]
  · rw [hlocal, local_crc_field]
    have hfield : (finalHeader (name, chunks.flatten)).crc_32
        = toU32 ((zipcrc_finalize (zipcrc_update zipcrc_init chunks.flatten) : Nat) : Int) := rfl
    rw [hfield, toU32_mod]
    exact hcrc
  · have hf : m.find name = some (finalEntry (bodySize (streamsOf before)) name chunks.flatten) := by
      rw [hfind name, hst, specFind_at _ _ _ _ 0 hnp, Nat.zero_add, blocks_length]
    obtain ⟨ma, mb, hsplit⟩ := List.append_of_mem (mem_of_find m name _ hf)
    have hdir : dirBytes (directoryOf m) = dirBytes (directoryOf ma) ++
        ((centralRecord (finalEntry (bodySize (streamsOf before)) name chunks.flatten)).toBytes
          ++ (name ++ dirBytes (directoryOf mb))) := by
      rw [hsplit]
      simp only [directoryOf, List.map_append, List.map_cons, dirBytes_append, dirBytes,
        List.append_assoc]
      rfl
    have hdrop : (archiveOf (before ++ (name, chunks) :: after)).drop
        ((blocks (streamsOf (before ++ (name, chunks) :: after))).length
          + (dirBytes (directoryOf ma)).length)
        = (centralRecord (finalEntry (bodySize (streamsOf before)) name chunks.flatten)).toBytes
          ++ (name ++ dirBytes (directoryOf mb) ++
            (endRecord (m.length % 2 ^ 32)
              (dirSize ((streamsOf (before ++ (name, chunks) :: after)).map Prod.fst) % 2 ^ 32)
              ((blocks (streamsOf (before ++ (name, chunks) :: after))).length : Int)).toBytes) := by
      conv => lhs; rw [harch, hdir]
      simp only [List.append_assoc]
      rw [← List.append_assoc]
      exact drop_append_exact _ _ _ (by rw [List.length_append])
    obtain ⟨c0, _, _, _, c42, c16⟩ := central_fields
      (finalEntry (bodySize (streamsOf before)) name chunks.flatten)
    refine ⟨(blocks (streamsOf (before ++ (name, chunks) :: after))).length
      + (dirBytes (directoryOf ma)).length, by rw [blocks_length]; omega, ?_, ?_, ?_⟩
    · rw [hdrop, rd32_append_left _ _ _ (by rw [central_toBytes_length]; decide), c0]
    · rw [hdrop, rd32_append_left _ _ _ (by rw [central_toBytes_length]; decide), c42]
      simp only [finalEntry, activeEntry, toU32_natCast]
      omega
    · rw [hdrop, rd32_append_left _ _ _ (by rw [central_toBytes_length]; decide), c16]
      exact hcrc

set_option maxRecDepth 100000 in
/-- Witness of `checksum_correct`: the stream `B` written in the chunks `[2]`, `[]`,
`[3, 4]` after the stream `A`. -/
theorem checksum_correct_witness :
    rd32 ((archiveOf ([([0x41], [[1]])] ++ ([0x42], [[2], [], [3, 4]]) :: [])).drop
      (bodySize (streamsOf [([0x41], [[1]])]))) 14 = crc32 [2, 3, 4] :=
  (checksum_correct [([0x41], [[1]])] [] [0x42] [[2], [], [3, 4]] (by decide) (by decide)
    (by decide)).2.1

/-! ## Seek clamping -/

theorem zip_seek_file_success (c : ZIPFile) (t : Int) (h0 : 0 ≤ t)
    (h : (c.seek_file t).1 = t) :
    0 ≤ c.file_fd ∧ (c.seek_file t).2.store.cursor = t.toNat ∧
      (c.seek_file t).2.store.bytes = c.store.bytes := by
  unfold ZIPFile.seek_file at h ⊢
  by_cases hfd : c.file_fd < 0
  · rw [if_pos hfd] at h
    simp only at h
    omega
  · rw [if_neg hfd] at h ⊢
    refine ⟨by omega, ?_, ?_⟩
    · simp only [Storage.lseek] at h ⊢
      cases ho : c.store.outcome <;> simp only [ho, Int.not_lt.mpr h0, if_false] at h ⊢
      omega
    · exact storage_lseek_bytes _ _

/-- C11: on a usable entry that is not being extended, with `0 <= file_length`, for
every target `pos` (negative, in range or beyond the end): when the storage seek to the
absolute offset `file_offset + max(0, min(pos, file_length))` succeeds and returns that
offset, `seek_file(pos)` returns `max(0, min(pos, file_length))`, sets `position` to it
and changes nothing else of the entry, the descriptor is at `file_offset + position` and
the file bytes are as before; on an unusable entry (no container, or `file_offset = 0`)
it returns `-1` and leaves the entry and the container as they were. -/
theorem seek_file_clamps (e : ZIPFileEntry) (c : ZIPFile) (pos : Int) :
    (e.file = true → e.file_offset ≠ 0 → e.can_extend = false → 0 ≤ e.file_length → e.file_length < 2 ^ 63 →
      0 ≤ e.file_offset + max 0 (min pos e.file_length) →
      e.file_offset + max 0 (min pos e.file_length) < 2 ^ 63 →
      (c.seek_file (e.file_offset + max 0 (min pos e.file_length))).1
        = e.file_offset + max 0 (min pos e.file_length) →
      (e.seek_file c pos).1 = max 0 (min pos e.file_length) ∧
      (e.seek_file c pos).2.1 = { e with position := max 0 (min pos e.file_length) } ∧
      ((e.seek_file c pos).2.2.store.cursor : Int)
        = e.file_offset + (e.seek_file c pos).2.1.position ∧
      (e.seek_file c pos).2.2.store.bytes = c.store.bytes) ∧
    ((e.file = false ∨ e.file_offset = 0) → e.seek_file c pos = (-1, e, c)) := by
  constructor
  · intro hfile hoff hext hL hLmax h0 h1 hseek
    have hclamp : (if (if pos < 0 then 0 else pos) > e.file_length then e.file_length
        else (if pos < 0 then 0 else pos)) = max 0 (min pos e.file_length) := by
      split <;> split <;> omega
    obtain ⟨hfd, hcur, hby⟩ := zip_seek_file_success c _ h0 hseek
    have hcomm : max 0 (min pos e.file_length) + e.file_offset
        = e.file_offset + max 0 (min pos e.file_length) := Int.add_comm _ _
    have hw : wrapOff (e.file_offset + max 0 (min pos e.file_length))
        = e.file_offset + max 0 (min pos e.file_length) := wrapOff_id (by omega) (by omega)
    have hw2 : wrapOff (e.file_offset + max 0 (min pos e.file_length) - e.file_offset)
        = max 0 (min pos e.file_length) := by
      rw [wrapOff_id (by omega) (by omega)]
      omega
    unfold ZIPFileEntry.seek_file
    rw [if_neg (by simp [hfile, hoff]), if_neg (by simp [hext])]
    simp only [hclamp, hcomm, hw, hseek, hw2]
    rw [if_neg (by omega)]
    refine ⟨rfl, rfl, ?_, hby⟩
    show ((c.seek_file _).2.store.cursor : Int) = e.file_offset + max 0 (min pos e.file_length)
    rw [hcur]
    omega
  · intro h
    unfold ZIPFileEntry.seek_file
    rw [if_pos h]


/-- Witness of `seek_file_clamps`: on the fixed-size entry of four bytes a seek to 100
lands on 4 and a seek to -5 on 0; a default-constructed entry is unusable. -/
theorem seek_file_clamps_witness :
    (sampleFixedAtEnd.seek_file sampleActive 100).1 = 4 ∧
    (sampleFixedAtEnd.seek_file sampleActive (-5)).1 = 0 ∧
    ZIPFileEntry.fresh.seek_file sampleActive 7 = (-1, ZIPFileEntry.fresh, sampleActive) :=
  ⟨((seek_file_clamps sampleFixedAtEnd sampleActive 100).1 rfl (by decide) rfl (by decide)
      (by decide) (by decide) (by decide) (by decide)).1.trans (by decide),
   ((seek_file_clamps sampleFixedAtEnd sampleActive (-5)).1 rfl (by decide) rfl (by decide)
      (by decide) (by decide) (by decide) (by decide)).1.trans (by decide),
   (seek_file_clamps ZIPFileEntry.fresh sampleActive 7).2 (Or.inl rfl)⟩

/-! ## Cursor after a failed transfer -/

set_option maxRecDepth 100000 in
/-- C16 fails on the code: on a usable entry of four bytes with its cursor at 0, when the
storage seek succeeds and the storage read (or write) fails with `-1`, `read` (or
`write`) returns `-1` and leaves `position = -1`, below 0: the failure count is stored in
a `size_t`, passes the test `> 0` and is added to the cursor. -/
theorem failed_transfer_moves_cursor :
    (0 ≤ sampleRewound.position ∧ sampleRewound.position ≤ sampleRewound.file_length) ∧
    (sampleRewound.read sampleFailing 4).1 = -1 ∧
    (sampleRewound.read sampleFailing 4).2.2.1.position = -1 ∧
    (sampleRewound.write sampleFailing [9, 9] 2).1 = -1 ∧
    (sampleRewound.write sampleFailing [9, 9] 2).2.1.position = -1 := by
  decide

/-! ## Calls under any storage outcome -/

theorem cstr_idem (l : List Byte) : cstr (cstr l) = cstr l := by
  induction l with
  | nil => rfl
  | cons b t ih =>
    by_cases hb : b.val = 0
    · simp [cstr, hb]
    · simp [cstr, hb, ih]

theorem storeOnly_refl (z : ZIPFile) : StoreOnly z z := ⟨rfl, rfl, rfl, rfl, rfl, rfl⟩

theorem storeOnly_trans {a b c : ZIPFile} (h1 : StoreOnly a b) (h2 : StoreOnly b c) :
    StoreOnly a c :=
  ⟨h2.1.trans h1.1, h2.2.1.trans h1.2.1, h2.2.2.1.trans h1.2.2.1,
    h2.2.2.2.1.trans h1.2.2.2.1, h2.2.2.2.2.1.trans h1.2.2.2.2.1,
    h2.2.2.2.2.2.trans h1.2.2.2.2.2⟩

theorem zip_seek_file_storeOnly (z : ZIPFile) (pos : Int) : StoreOnly z (z.seek_file pos).2 := by
  unfold ZIPFile.seek_file
  split <;> exact storeOnly_refl z

theorem zip_read_storeOnly (z : ZIPFile) (n : Nat) : StoreOnly z (z.read n).2.2 := by
  unfold ZIPFile.read
  split <;> exact storeOnly_refl z

theorem zip_write_storeOnly (z : ZIPFile) (d : List Byte) : StoreOnly z (z.write d).2 := by
  unfold ZIPFile.write
  split <;> exact storeOnly_refl z

theorem zip_end_of_file_storeOnly (z : ZIPFile) : StoreOnly z z.end_of_file.2 := by
  unfold ZIPFile.end_of_file
  split <;> exact storeOnly_refl z

theorem patch_current_storeOnly (z : ZIPFile) (ent : ZIPFileEntry) :
    StoreOnly z (z.patch_current ent) := by
  unfold ZIPFile.patch_current
  have a := zip_seek_file_storeOnly z ent.file_header_offset
  have b := storeOnly_trans a
    (zip_read_storeOnly (z.seek_file ent.file_header_offset).2 sizeofLocal)
  have c := storeOnly_trans b (zip_seek_file_storeOnly
    ((z.seek_file ent.file_header_offset).2.read sizeofLocal).2.2 ent.file_header_offset)
  simp only []
  split
  · split
    · split
      · exact storeOnly_trans c (zip_write_storeOnly _ _)
      · exact c
    · exact b
  · exact a

/-- `close_current` when the active entry is found and writable, source lines 188-206. -/
theorem close_current_found (z : ZIPFile) (ent : ZIPFileEntry) (hw : z.can_write = true)
    (hne : z.current_entry ≠ []) (hg : z.get_entry z.current_entry = some ent)
    (hcw : ent.can_write = true) :
    z.close_current =
      { ZIPFile.patch_current
          { z with
              entries := z.entries.update (cstr z.current_entry)
                (fun e => { e with can_write := false, can_extend := false }) } ent
        with current_entry := [] } := by
  unfold ZIPFile.close_current
  rw [if_neg (by simp [hw]), if_pos hne]
  simp only [hg]
  rw [if_pos hcw]

/-- `close_current` when there is no active entry to finalize, source lines 187-206. -/
theorem close_current_skip (z : ZIPFile) (hw : z.can_write = true)
    (h : z.current_entry = [] ∨ z.get_entry z.current_entry = none ∨
      ∃ ent, z.get_entry z.current_entry = some ent ∧ ent.can_write = false) :
    z.close_current = { z with current_entry := [] } := by
  unfold ZIPFile.close_current
  rw [if_neg (by simp [hw])]
  by_cases hne : z.current_entry = []
  · rw [if_neg (by simp [hne])]
  · rw [if_pos hne]
    rcases h with h | h | ⟨ent, h, hc⟩
    · exact absurd h hne
    · simp only [h]
    · simp only [h, hc]
      rfl

/-- The two ways `close_current` ends on a writable container. -/
theorem close_current_cases (z : ZIPFile) (hw : z.can_write = true) :
    (∃ ent, z.current_entry ≠ [] ∧ z.get_entry z.current_entry = some ent ∧
      ent.can_write = true ∧
      z.close_current =
        { ZIPFile.patch_current
            { z with
                entries := z.entries.update (cstr z.current_entry)
                  (fun e => { e with can_write := false, can_extend := false }) } ent
          with current_entry := [] }) ∨
    ((z.current_entry = [] ∨ z.get_entry z.current_entry = none ∨
        ∃ ent, z.get_entry z.current_entry = some ent ∧ ent.can_write = false) ∧
      z.close_current = { z with current_entry := [] }) := by
  by_cases hne : z.current_entry = []
  · exact Or.inr ⟨Or.inl hne, close_current_skip z hw (Or.inl hne)⟩
  · cases hg : z.get_entry z.current_entry with
    | none => exact Or.inr ⟨Or.inr (Or.inl rfl), close_current_skip z hw (Or.inr (Or.inl hg))⟩
    | some ent =>
      by_cases hcw : ent.can_write = true
      · exact Or.inl ⟨ent, hne, rfl, hcw, close_current_found z ent hw hne hg hcw⟩
      · have hcw2 : ent.can_write = false := by simpa using hcw
        exact Or.inr ⟨Or.inr (Or.inr ⟨ent, rfl, hcw2⟩),
          close_current_skip z hw (Or.inr (Or.inr ⟨ent, hg, hcw2⟩))⟩

/-- What `close_current` never touches. -/
theorem close_current_fields (z : ZIPFile) :
    z.close_current.file_fd = z.file_fd ∧ z.close_current.can_write = z.can_write ∧
    z.close_current.wrote_trailer = z.wrote_trailer ∧
    z.close_current.write_pos = z.write_pos := by
  by_cases hw : z.can_write = true
  · rcases close_current_cases z hw with ⟨ent, _, _, _, h⟩ | ⟨_, h⟩
    · rw [h]
      have hp := patch_current_storeOnly
        { z with
            entries := z.entries.update (cstr z.current_entry)
              (fun e => { e with can_write := false, can_extend := false }) } ent
      exact ⟨hp.1, hp.2.1, hp.2.2.1, hp.2.2.2.2.1⟩
    · rw [h]
      exact ⟨rfl, rfl, rfl, rfl⟩
  · have : z.close_current = z := by
      unfold ZIPFile.close_current
      rw [if_pos (by simpa using hw)]
    rw [this]
    exact ⟨rfl, rfl, rfl, rfl⟩

/-- `close_current` on a container whose active entry is in the map and writable: the
marker is cleared and the entry is no longer writable nor extendable. -/
theorem close_current_aborts (x : ZIPFile) (nm : List Byte) (ent : ZIPFileEntry)
    (hw : x.can_write = true) (hfd : 0 ≤ x.file_fd) (hcur : x.current_entry = nm)
    (hc : cstr nm = nm) (hne : nm ≠ []) (hf : x.entries.find nm = some ent)
    (hcw : ent.can_write = true) :
    x.close_current.current_entry = [] ∧
    x.close_current.entries.find nm
      = some { ent with can_write := false, can_extend := false } := by
  have hg : x.get_entry x.current_entry = some ent := by
    simp [ZIPFile.get_entry, Int.not_lt.mpr hfd, hcur, hc, hne, hf]
  rw [close_current_found x ent hw (by rw [hcur]; exact hne) hg hcw]
  refine ⟨rfl, ?_⟩
  show (ZIPFile.patch_current _ _).entries.find nm = _
  rw [(patch_current_storeOnly _ _).2.2.2.2.2]
  simp only [hcur, hc, find_update, hf, if_true, Option.map_some']

/-- The steps of `new_entry` after its guards, source lines 151-177. -/
theorem new_entry_steps (z : ZIPFile) (name : List Byte)
    (hfd : 0 ≤ z.file_fd) (hw : z.can_write = true)
    (hfresh : z.entries.find (cstr name) = none) (hne : cstr name ≠ []) :
    z.new_entry name =
      if ((z.begin_entry (cstr name)).seek_file (z.entry_start (cstr name))).1
          ≠ z.entry_start (cstr name) then
        (none, ((z.begin_entry (cstr name)).seek_file
          (z.entry_start (cstr name))).2.close_current)
      else if toSize ((((z.begin_entry (cstr name)).seek_file
          (z.entry_start (cstr name))).2.write (newLocalHeader (cstr name)).toBytes).1)
          ≠ sizeofLocal then
        (none, ((((z.begin_entry (cstr name)).seek_file
          (z.entry_start (cstr name))).2.write
            (newLocalHeader (cstr name)).toBytes).2).close_current)
      else if toSize (((((z.begin_entry (cstr name)).seek_file
          (z.entry_start (cstr name))).2.write
            (newLocalHeader (cstr name)).toBytes).2.write (cstr name)).1)
          ≠ (cstr name).length then
        (none, (((((z.begin_entry (cstr name)).seek_file
          (z.entry_start (cstr name))).2.write
            (newLocalHeader (cstr name)).toBytes).2.write (cstr name)).2).close_current)
      else if ((((((z.begin_entry (cstr name)).seek_file
          (z.entry_start (cstr name))).2.write
            (newLocalHeader (cstr name)).toBytes).2.write (cstr name)).2).seek_file
              (z.entry_payload (cstr name))).1 ≠ z.entry_payload (cstr name) then
        (none, ((((((z.begin_entry (cstr name)).seek_file
          (z.entry_start (cstr name))).2.write
            (newLocalHeader (cstr name)).toBytes).2.write (cstr name)).2).seek_file
              (z.entry_payload (cstr name))).2.close_current)
      else
        (some (cstr name), ((((((z.begin_entry (cstr name)).seek_file
          (z.entry_start (cstr name))).2.write
            (newLocalHeader (cstr name)).toBytes).2.write (cstr name)).2).seek_file
              (z.entry_payload (cstr name))).2) := by
  unfold ZIPFile.new_entry
  rw [if_neg (by simp [hw, Int.not_lt.mpr hfd]), if_neg (by simp [hfresh]), if_neg hne]
  rfl

/-- The container `new_entry` has set up for the entry `nm`, whatever the storage does. -/
theorem begin_entry_fields (z : ZIPFile) (nm : List Byte) :
    (z.begin_entry nm).file_fd = z.file_fd ∧ (z.begin_entry nm).can_write = z.can_write ∧
    (z.begin_entry nm).wrote_trailer = z.wrote_trailer ∧
    (z.begin_entry nm).current_entry = nm ∧
    (z.begin_entry nm).entries.find nm = some
      { (z.close_current.entries.find nm).getD ZIPFileEntry.fresh with
          name := nm
          can_write := true
          can_extend := true
          file_header_offset := z.entry_start nm
          write_crc := zipcrc_init
          file_offset := z.entry_payload nm
          file := true } ∧
    (∀ n, n ≠ nm → (z.begin_entry nm).entries.find n = z.close_current.entries.find n) := by
  have hcc := close_current_fields z
  have e0 := zip_end_of_file_storeOnly
    ({ z.close_current with current_entry := nm } : ZIPFile)
  unfold ZIPFile.begin_entry
  refine ⟨?_, ?_, ?_, ?_, ?_, ?_⟩
  · exact e0.1.trans hcc.1
  · exact e0.2.1.trans hcc.2.1
  · exact e0.2.2.1.trans hcc.2.2.1
  · exact e0.2.2.2.1
  · show (Entries.update _ _ (Entries.index _ _)).find _ = _
    rw [find_index_update, if_pos rfl, e0.2.2.2.2.2]
  · intro n hn
    show (Entries.update _ _ (Entries.index _ _)).find _ = _
    rw [find_index_update, if_neg hn, e0.2.2.2.2.2]

theorem new_entry_abort_core (z : ZIPFile) (name : List Byte)
    (hfd : 0 ≤ z.file_fd) (hw : z.can_write = true)
    (hfresh : z.entries.find (cstr name) = none) (hne : cstr name ≠ []) :
    (z.new_entry name).1 = none →
      (z.new_entry name).2.current_entry = [] ∧
      ∃ e, (z.new_entry name).2.entries.find (cstr name) = some e ∧
        e.can_write = false ∧ e.can_extend = false := by
  obtain ⟨b1, b2, _, b4, b5, _⟩ := begin_entry_fields z (cstr name)
  have key : ∀ x : ZIPFile, StoreOnly (z.begin_entry (cstr name)) x →
      x.close_current.current_entry = [] ∧
      ∃ e, x.close_current.entries.find (cstr name) = some e ∧
        e.can_write = false ∧ e.can_extend = false := by
    intro x hx
    obtain ⟨x1, x2, _, x4, _, x6⟩ := hx
    obtain ⟨a, b⟩ := close_current_aborts x (cstr name) _ (x2.trans (b2.trans hw))
      (by rw [x1, b1]; exact hfd) (x4.trans b4) (cstr_idem name) hne
      (by rw [x6]; exact b5) rfl
    exact ⟨a, _, b, rfl, rfl⟩
  rw [new_entry_steps z name hfd hw hfresh hne]
  split
  · intro _
    exact key _ (zip_seek_file_storeOnly _ _)
  · split
    · intro _
      exact key _ (storeOnly_trans (zip_seek_file_storeOnly _ _) (zip_write_storeOnly _ _))
    · split
      · intro _
        exact key _ (storeOnly_trans (storeOnly_trans (zip_seek_file_storeOnly _ _)
          (zip_write_storeOnly _ _)) (zip_write_storeOnly _ _))
      · split
        · intro _
          exact key _ (storeOnly_trans (storeOnly_trans (storeOnly_trans
            (zip_seek_file_storeOnly _ _) (zip_write_storeOnly _ _)) (zip_write_storeOnly _ _))
            (zip_seek_file_storeOnly _ _))
        · intro h
          exact absurd h (Option.some_ne_none _)

set_option maxRecDepth 100000 in
/-- C14 as stated fails: on a container just opened read-write on an empty file,
`new_entry("STATE.BIN")` whose write of the filename fails returns `NULL`, and after the
failing write the storage is asked to seek to the header offset 0, to read the 30 bytes
of the local header, to seek to 0 again and to write the header back: the patch of
`close_current` is attempted. -/
theorem new_entry_abort_patches_header :
    (sampleNameWriteFails.new_entry stateBin).1 = none ∧
    (sampleNameWriteFails.new_entry stateBin).2.store.log.take 5 =
      [StorageOp.write (newLocalHeader stateBin).toBytes, StorageOp.seekSet 0,
        StorageOp.read 30, StorageOp.seekSet 0, StorageOp.write stateBin] := by
  decide

/-! ## Frames of the calls -/

theorem ite_pred {α : Type} (P : α → Prop) {c : Prop} [Decidable c] {a b : α} (ha : P a)
    (hb : P b) : P (if c then a else b) := by
  split
  · exact ha
  · exact hb

theorem ite_pred_cases {α : Type} (P : α → Prop) {c : Prop} [Decidable c] {a b : α}
    (ha : c → P a) (hb : ¬ c → P b) : P (if c then a else b) := by
  split
  · exact ha ‹_›
  · exact hb ‹_›

theorem sameNode_refl (e : ZIPFileEntry) : SameNode e e := ⟨rfl, rfl, rfl, rfl, rfl, rfl⟩

theorem sameNode_trans {a b c : ZIPFileEntry} (h1 : SameNode a b) (h2 : SameNode b c) :
    SameNode a c :=
  ⟨h2.1.trans h1.1, h2.2.1.trans h1.2.1, h2.2.2.1.trans h1.2.2.1,
    h2.2.2.2.1.trans h1.2.2.2.1, h2.2.2.2.2.1.trans h1.2.2.2.2.1,
    h2.2.2.2.2.2.trans h1.2.2.2.2.2⟩

theorem quiet_refl (s : Storage) : Quiet s s := ⟨rfl, rfl⟩

theorem quiet_trans {a b c : Storage} (h1 : Quiet a b) (h2 : Quiet b c) : Quiet a c :=
  ⟨h2.1.trans h1.1, h2.2.trans h1.2⟩

theorem storage_lseek_quiet (s : Storage) (pos : Int) : Quiet s (s.lseek pos).2 := by
  unfold Storage.lseek
  cases s.outcome <;> simp only [] <;> try split
  all_goals exact ⟨rfl, rfl⟩

theorem storage_lseekEnd_quiet (s : Storage) : Quiet s s.lseekEnd.2 := by
  unfold Storage.lseekEnd
  cases s.outcome <;> exact ⟨rfl, rfl⟩

theorem storage_read_quiet (s : Storage) (n : Nat) : Quiet s (s.read n).2.2 := by
  unfold Storage.read
  cases s.outcome <;> exact ⟨rfl, rfl⟩

theorem zip_seek_file_quiet (z : ZIPFile) (pos : Int) :
    Quiet z.store (z.seek_file pos).2.store := by
  unfold ZIPFile.seek_file
  split
  · exact quiet_refl _
  · exact storage_lseek_quiet _ _

theorem zip_read_quiet (z : ZIPFile) (n : Nat) : Quiet z.store (z.read n).2.2.store := by
  unfold ZIPFile.read
  split
  · exact quiet_refl _
  · exact storage_read_quiet _ _

theorem zip_end_of_file_quiet (z : ZIPFile) : Quiet z.store z.end_of_file.2.store := by
  unfold ZIPFile.end_of_file
  split
  · exact quiet_refl _
  · exact storage_lseekEnd_quiet _

/-- `ZIPFileEntry::seek_file` under any storage outcome: the flags, the name and the
offsets of the entry stay, the container changes in the storage only, and no `::write`
is issued. -/
theorem entry_seek_frame (e : ZIPFileEntry) (c : ZIPFile) (pos : Int) :
    SameNode e (e.seek_file c pos).2.1 ∧ StoreOnly c (e.seek_file c pos).2.2 ∧
    Quiet c.store (e.seek_file c pos).2.2.store := by
  unfold ZIPFileEntry.seek_file
  refine ite_pred (fun r : Int × ZIPFileEntry × ZIPFile =>
    SameNode e r.2.1 ∧ StoreOnly c r.2.2 ∧ Quiet c.store r.2.2.store)
    ⟨sameNode_refl e, storeOnly_refl c, quiet_refl _⟩ ?_
  refine ite_pred (fun r : Int × ZIPFileEntry × ZIPFile =>
    SameNode e r.2.1 ∧ StoreOnly c r.2.2 ∧ Quiet c.store r.2.2.store)
    ⟨sameNode_refl e, storeOnly_refl c, quiet_refl _⟩ ?_
  dsimp only
  refine ite_pred (fun r : Int × ZIPFileEntry × ZIPFile =>
    SameNode e r.2.1 ∧ StoreOnly c r.2.2 ∧ Quiet c.store r.2.2.store)
    ⟨sameNode_refl e, zip_seek_file_storeOnly _ _, zip_seek_file_quiet _ _⟩
    ⟨⟨rfl, rfl, rfl, rfl, rfl, rfl⟩, zip_seek_file_storeOnly _ _, zip_seek_file_quiet _ _⟩

/-- `ZIPFileEntry::read` under any storage outcome, as `entry_seek_frame`. -/
theorem entry_read_frame (e : ZIPFileEntry) (c : ZIPFile) (count : Nat) :
    SameNode e (e.read c count).2.2.1 ∧ StoreOnly c (e.read c count).2.2.2 ∧
    Quiet c.store (e.read c count).2.2.2.store := by
  obtain ⟨s1, s2, s3⟩ := entry_seek_frame e c e.position
  unfold ZIPFileEntry.read
  refine ite_pred (fun r : Int × List Byte × ZIPFileEntry × ZIPFile =>
    SameNode e r.2.2.1 ∧ StoreOnly c r.2.2.2 ∧ Quiet c.store r.2.2.2.store)
    ⟨sameNode_refl e, storeOnly_refl c, quiet_refl _⟩ ?_
  refine ite_pred (fun r : Int × List Byte × ZIPFileEntry × ZIPFile =>
    SameNode e r.2.2.1 ∧ StoreOnly c r.2.2.2 ∧ Quiet c.store r.2.2.2.store)
    ⟨sameNode_refl e, storeOnly_refl c, quiet_refl _⟩ ?_
  dsimp only
  refine ite_pred (fun r : Int × List Byte × ZIPFileEntry × ZIPFile =>
    SameNode e r.2.2.1 ∧ StoreOnly c r.2.2.2 ∧ Quiet c.store r.2.2.2.store)
    ?_ ⟨sameNode_refl e, storeOnly_refl c, quiet_refl _⟩
  refine ite_pred (fun r : Int × List Byte × ZIPFileEntry × ZIPFile =>
    SameNode e r.2.2.1 ∧ StoreOnly c r.2.2.2 ∧ Quiet c.store r.2.2.2.store)
    ⟨s1, s2, s3⟩ ?_
  refine ⟨?_, storeOnly_trans s2 (zip_read_storeOnly _ _), quiet_trans s3 (zip_read_quiet _ _)⟩
  exact ite_pred (SameNode e) (sameNode_trans s1 ⟨rfl, rfl, rfl, rfl, rfl, rfl⟩) s1

/-- `ZIPFileEntry::write` under any storage outcome: the flags, the name and the offsets
of the entry stay and the container changes in the storage only. -/
theorem entry_write_frame (e : ZIPFileEntry) (c : ZIPFile) (buffer : List Byte) (count : Nat) :
    SameNode e (e.write c buffer count).2.1 ∧ StoreOnly c (e.write c buffer count).2.2 := by
  obtain ⟨s1, s2, _⟩ := entry_seek_frame e c e.position
  unfold ZIPFileEntry.write
  refine ite_pred (fun r : Int × ZIPFileEntry × ZIPFile =>
    SameNode e r.2.1 ∧ StoreOnly c r.2.2) ⟨sameNode_refl e, storeOnly_refl c⟩ ?_
  refine ite_pred (fun r : Int × ZIPFileEntry × ZIPFile =>
    SameNode e r.2.1 ∧ StoreOnly c r.2.2) ⟨sameNode_refl e, storeOnly_refl c⟩ ?_
  refine ite_pred (fun r : Int × ZIPFileEntry × ZIPFile =>
    SameNode e r.2.1 ∧ StoreOnly c r.2.2) ⟨sameNode_refl e, storeOnly_refl c⟩ ?_
  dsimp only
  refine ite_pred (fun r : Int × ZIPFileEntry × ZIPFile =>
    SameNode e r.2.1 ∧ StoreOnly c r.2.2) ?_ ⟨sameNode_refl e, storeOnly_refl c⟩
  refine ite_pred (fun r : Int × ZIPFileEntry × ZIPFile =>
    SameNode e r.2.1 ∧ StoreOnly c r.2.2) ⟨s1, s2⟩ ?_
  refine ⟨?_, storeOnly_trans s2 (zip_write_storeOnly _ _)⟩
  exact ite_pred (SameNode e) (sameNode_trans s1 ⟨rfl, rfl, rfl, rfl, rfl, rfl⟩) s1

/-! ## Properties kept by the scan of `open` -/

/-- A property of the container that the storage calls of the scan and the loading of
an entry keep is kept by the directory loop, whatever the storage does. -/
theorem scan_directory_preserves (P : ZIPFile → Prop)
    (hstore : ∀ a b, P a → StoreOnly a b → Quiet a.store b.store → P b)
    (hload : ∀ a chdr name, P a → name ≠ [] → cstr name = name →
      P { a with entries := (a.entries.index name).update name (loadEntry chdr name) }) :
    ∀ (fuel : Nat) (remain : Int) (z : ZIPFile), P z →
      P (ZIPFile.scan_central_directory fuel remain z) := by
  intro fuel
  induction fuel with
  | zero => intro remain z hz; exact hz
  | succ n ih =>
    intro remain z hz
    have h1 : P (z.read sizeofCentral).2.2 :=
      hstore _ _ hz (zip_read_storeOnly _ _) (zip_read_quiet _ _)
    have h2 : ∀ k, P ((z.read sizeofCentral).2.2.read k).2.2 :=
      fun k => hstore _ _ h1 (zip_read_storeOnly _ _) (zip_read_quiet _ _)
    unfold ZIPFile.scan_central_directory
    refine ite_pred P ?_ hz
    dsimp only
    refine ite_pred P h1 ?_
    refine ite_pred P h1 ?_
    refine ite_pred P h1 ?_
    refine ite_pred P ?_ (ih _ _ h1)
    refine ite_pred P (h2 _) ?_
    by_cases hn : cstr ((z.read sizeofCentral).2.2.read
      (pkzip_central_directory_header_main.ofBytes (z.read sizeofCentral).2.1).filename_length).2.1
        = []
    · rw [if_pos hn]
      exact ih _ _ (h2 _)
    · rw [if_neg hn]
      exact ih _ _ (hload _ _ _ (h2 _) hn (cstr_idem _))

/-- As `scan_directory_preserves`, for the whole scan of `open`: a property `P` kept
during the scan gives the property `Q` of the result when `close` turns `P` into `Q`. -/
theorem scan_preserves (P Q : ZIPFile → Prop)
    (hstore : ∀ a b, P a → StoreOnly a b → Quiet a.store b.store → P b)
    (hload : ∀ a chdr name, P a → name ≠ [] → cstr name = name →
      P { a with entries := (a.entries.index name).update name (loadEntry chdr name) })
    (hclose : ∀ a, P a → Q a.close) (hend : ∀ a, P a → Q a) (z : ZIPFile) (hz : P z) :
    Q z.scan.2 := by
  have st : ∀ a b, P a → StoreOnly a b ∧ Quiet a.store b.store → P b :=
    fun a b ha h => hstore a b ha h.1 h.2
  have e0 : P z.end_of_file.2 := st _ _ hz ⟨zip_end_of_file_storeOnly _, zip_end_of_file_quiet _⟩
  have sk : ∀ a p, P a → P (a.seek_file p).2 :=
    fun a p ha => st _ _ ha ⟨zip_seek_file_storeOnly _ _, zip_seek_file_quiet _ _⟩
  have rd : ∀ a n, P a → P (a.read n).2.2 :=
    fun a n ha => st _ _ ha ⟨zip_read_storeOnly _ _, zip_read_quiet _ _⟩
  unfold ZIPFile.scan
  dsimp only
  refine ite_pred (fun r : Int × ZIPFile => Q r.2) (hclose _ e0) ?_
  refine ite_pred (fun r : Int × ZIPFile => Q r.2) (hclose _ (sk _ _ e0)) ?_
  refine ite_pred (fun r : Int × ZIPFile => Q r.2) (hclose _ (rd _ _ (sk _ _ e0))) ?_
  refine ite_pred (fun r : Int × ZIPFile => Q r.2) (hclose _ (rd _ _ (sk _ _ e0))) ?_
  refine ite_pred (fun r : Int × ZIPFile => Q r.2)
    (hclose _ (sk _ _ (rd _ _ (sk _ _ e0)))) ?_
  refine ite_pred (fun r : Int × ZIPFile => Q r.2)
    (hclose _ (rd _ _ (sk _ _ (rd _ _ (sk _ _ e0))))) ?_
  refine ite_pred (fun r : Int × ZIPFile => Q r.2)
    (hclose _ (rd _ _ (sk _ _ (rd _ _ (sk _ _ e0))))) ?_
  refine ite_pred (fun r : Int × ZIPFile => Q r.2)
    (hclose _ (rd _ _ (sk _ _ (rd _ _ (sk _ _ e0))))) ?_
  refine ite_pred (fun r : Int × ZIPFile => Q r.2)
    (hclose _ (rd _ _ (sk _ _ (rd _ _ (sk _ _ e0))))) ?_
  refine ite_pred (fun r : Int × ZIPFile => Q r.2)
    (hclose _ (rd _ _ (sk _ _ (rd _ _ (sk _ _ e0))))) ?_
  refine ite_pred (fun r : Int × ZIPFile => Q r.2)
    (hclose _ (sk _ _ (rd _ _ (sk _ _ (rd _ _ (sk _ _ e0)))))) ?_
  exact hend _ (scan_directory_preserves P hstore hload _ _ _
    (sk _ _ (rd _ _ (sk _ _ (rd _ _ (sk _ _ e0))))))

/-! ## Single-writer invariant -/

theorem find_nil (k : List Byte) : Entries.find [] k = none := rfl

theorem writerInv_storeOnly {z z1 : ZIPFile} (h : WriterInv z) (hs : StoreOnly z z1) :
    WriterInv z1 := by
  obtain ⟨s1, _, _, s4, _, s6⟩ := hs
  unfold WriterInv
  rw [s1, s4, s6]
  exact h

theorem writerInv_close {z : ZIPFile} (h : WriterInv z) : WriterInv z.close := by
  unfold ZIPFile.close
  split
  · exact ⟨List.nodup_nil, h.2.1, fun _ => rfl, fun k e hf => by simp [Entries.find] at hf⟩
  · exact ⟨List.nodup_nil, h.2.1, fun _ => rfl, fun k e hf => by simp [Entries.find] at hf⟩

theorem get_entry_find {z : ZIPFile} {ent : ZIPFileEntry} {name : List Byte}
    (h : z.get_entry name = some ent) :
    0 ≤ z.file_fd ∧ cstr name ≠ [] ∧ z.entries.find (cstr name) = some ent := by
  unfold ZIPFile.get_entry at h
  by_cases h1 : z.file_fd < 0
  · rw [if_pos h1] at h
    exact absurd h (by simp)
  · rw [if_neg h1] at h
    by_cases h2 : cstr name = []
    · rw [if_pos h2] at h
      exact absurd h (by simp)
    · rw [if_neg h2] at h
      exact ⟨by omega, h2, h⟩

/-- After `close_current` on a writable container no entry is in extend mode and the
marker is clear. -/
theorem writerInv_close_current {z : ZIPFile} (h : WriterInv z) :
    WriterInv z.close_current ∧
    (z.can_write = true → z.close_current.current_entry = [] ∧
      ∀ k e, z.close_current.entries.find k = some e → e.can_extend = false) := by
  obtain ⟨hnd, hcur, hfd, hent⟩ := h
  by_cases hw : z.can_write = true
  · rcases close_current_cases z hw with ⟨ent, hne, hg, hcw, heq⟩ | ⟨hskip, heq⟩
    · obtain ⟨g1, g2, g3⟩ := get_entry_find hg
      rw [hcur] at g3
      have hp := patch_current_storeOnly
        { z with
            entries := z.entries.update (cstr z.current_entry)
              (fun e => { e with can_write := false, can_extend := false }) } ent
      have hen : z.close_current.entries = z.entries.update z.current_entry
          (fun e => { e with can_write := false, can_extend := false }) := by
        rw [heq]
        show (ZIPFile.patch_current _ _).entries = _
        rw [hp.2.2.2.2.2, hcur]
      have hfd2 : z.close_current.file_fd = z.file_fd := (close_current_fields z).1
      have hc2 : z.close_current.current_entry = [] := by rw [heq]
      have hall : ∀ k e, z.close_current.entries.find k = some e →
          k ≠ [] ∧ cstr k = k ∧ e.name = k ∧ e.can_extend = false := by
        intro k e hf
        rw [hen, find_update] at hf
        by_cases hk : k = z.current_entry
        · rw [if_pos hk, g3] at hf
          simp only [Option.map_some', Option.some.injEq] at hf
          obtain ⟨a, b, c, _⟩ := hent _ _ g3
          rw [← hf, hk]
          exact ⟨a, b, c, rfl⟩
        · rw [if_neg hk] at hf
          obtain ⟨a, b, c, d⟩ := hent _ _ hf
          refine ⟨a, b, c, ?_⟩
          by_contra hx
          exact hk (d (by simpa using hx)).1
      refine ⟨⟨?_, ?_, ?_, ?_⟩, fun _ => ⟨hc2, fun k e hf => (hall k e hf).2.2.2⟩⟩
      · rw [hen, keys_update]
        exact hnd
      · rw [hc2]
        rfl
      · intro hneg
        rw [hfd2] at hneg
        omega
      · intro k e hf
        obtain ⟨a, b, c, d⟩ := hall k e hf
        exact ⟨a, b, c, fun hx => by rw [d] at hx; exact absurd hx (by simp)⟩
    · have hall : ∀ k e, z.entries.find k = some e → e.can_extend = false := by
        intro k e hf
        by_contra hx
        obtain ⟨a, b, _, d⟩ := hent _ _ hf
        obtain ⟨d1, d2⟩ := d (by simpa using hx)
        rcases hskip with hs | hs | ⟨ent, hs, hs2⟩
        · exact a (d1.trans hs)
        · unfold ZIPFile.get_entry at hs
          by_cases hneg : z.file_fd < 0
          · rw [hfd hneg] at hf
            simp [Entries.find] at hf
          · rw [if_neg hneg, hcur, if_neg (by rw [← d1]; exact a), ← d1, hf] at hs
            exact absurd hs (by simp)
        · obtain ⟨_, _, g3⟩ := get_entry_find hs
          rw [hcur, ← d1, hf] at g3
          simp only [Option.some.injEq] at g3
          rw [g3, hs2] at d2
          exact absurd d2 (by simp)
      rw [heq]
      refine ⟨⟨hnd, rfl, hfd, ?_⟩, fun _ => ⟨rfl, hall⟩⟩
      intro k e hf
      obtain ⟨a, b, c, _⟩ := hent _ _ hf
      exact ⟨a, b, c, fun hx => by rw [hall k e hf] at hx; exact absurd hx (by simp)⟩
  · have : z.close_current = z := by
      unfold ZIPFile.close_current
      rw [if_pos (by simpa using hw)]
    rw [this]
    exact ⟨⟨hnd, hcur, hfd, hent⟩, fun h => absurd h hw⟩

theorem keys_index_update_nodup (m : Entries) (k : List Byte)
    (f : ZIPFileEntry → ZIPFileEntry) (h : (m.map Prod.fst).Nodup) :
    (((m.index k).update k f).map Prod.fst).Nodup := by
  rw [keys_update]
  unfold Entries.index
  cases hk : m.find k with
  | some v =>
    simp only [Option.isSome_some, if_true]
    exact h
  | none =>
    simp only [Option.isSome_none, Bool.false_eq_true, if_false]
    exact (List.Perm.nodup_iff (keys_insertNew _ _ _)).mpr
      (List.nodup_cons.mpr ⟨(find_none_iff _ _).mp hk, h⟩)

theorem writerInv_begin_entry {z : ZIPFile} (h : WriterInv z) (hw : z.can_write = true)
    (hfd : 0 ≤ z.file_fd) (nm : List Byte) (hc : cstr nm = nm) (hne : nm ≠ []) :
    WriterInv (z.begin_entry nm) := by
  obtain ⟨⟨hnd, _, _, hent⟩, hall⟩ := writerInv_close_current h
  obtain ⟨_, hall⟩ := hall hw
  obtain ⟨b1, _, _, b4, b5, b6⟩ := begin_entry_fields z nm
  have e0 := zip_end_of_file_storeOnly
    ({ z.close_current with current_entry := nm } : ZIPFile)
  refine ⟨?_, ?_, ?_, ?_⟩
  · show ((Entries.update _ _ (Entries.index _ _)).map Prod.fst).Nodup
    apply keys_index_update_nodup
    rw [e0.2.2.2.2.2]
    exact hnd
  · rw [b4]
    exact hc
  · intro hneg
    rw [b1] at hneg
    omega
  · intro k e hf
    by_cases hk : k = nm
    · subst hk
      rw [b5] at hf
      simp only [Option.some.injEq] at hf
      rw [← hf, b4]
      exact ⟨hne, hc, rfl, fun _ => ⟨rfl, rfl⟩⟩
    · rw [b6 k hk] at hf
      obtain ⟨a, b, c, _⟩ := hent _ _ hf
      exact ⟨a, b, c, fun hx => by rw [hall k e hf] at hx; exact absurd hx (by simp)⟩

theorem writerInv_new_entry {z : ZIPFile} (h : WriterInv z) (name : List Byte) :
    WriterInv (z.new_entry name).2 := by
  by_cases hg : z.file_fd < 0 ∨ z.can_write = false ∨
      (z.entries.find (cstr name)).isSome = true ∨ cstr name = []
  · have : z.new_entry name = (none, z) := by
      unfold ZIPFile.new_entry
      by_cases h1 : z.file_fd < 0 ∨ z.can_write = false
      · rw [if_pos h1]
      · rw [if_neg h1]
        by_cases h2 : (z.entries.find (cstr name)).isSome = true
        · rw [if_pos h2]
        · rw [if_neg h2]
          have h3 : cstr name = [] := by
            rcases hg with hg | hg | hg | hg
            · exact absurd (Or.inl hg) h1
            · exact absurd (Or.inr hg) h1
            · exact absurd hg h2
            · exact hg
          rw [if_pos h3]
    rw [this]
    exact h
  · simp only [not_or] at hg
    obtain ⟨g1, g2, g3, g4⟩ := hg
    have hfd : 0 ≤ z.file_fd := by omega
    have hw : z.can_write = true := by simpa using g2
    have hfresh : z.entries.find (cstr name) = none := by simpa using g3
    have hb := writerInv_begin_entry h hw hfd (cstr name) (cstr_idem name) g4
    have cc : ∀ x, StoreOnly (z.begin_entry (cstr name)) x → WriterInv x.close_current :=
      fun x hx => (writerInv_close_current (writerInv_storeOnly hb hx)).1
    rw [new_entry_steps z name hfd hw hfresh g4]
    refine ite_pred (fun r : Option (List Byte) × ZIPFile => WriterInv r.2)
      (cc _ (zip_seek_file_storeOnly _ _)) ?_
    refine ite_pred (fun r : Option (List Byte) × ZIPFile => WriterInv r.2)
      (cc _ (storeOnly_trans (zip_seek_file_storeOnly _ _) (zip_write_storeOnly _ _))) ?_
    refine ite_pred (fun r : Option (List Byte) × ZIPFile => WriterInv r.2)
      (cc _ (storeOnly_trans (storeOnly_trans (zip_seek_file_storeOnly _ _)
        (zip_write_storeOnly _ _)) (zip_write_storeOnly _ _))) ?_
    refine ite_pred (fun r : Option (List Byte) × ZIPFile => WriterInv r.2)
      (cc _ (storeOnly_trans (storeOnly_trans (storeOnly_trans
        (zip_seek_file_storeOnly _ _) (zip_write_storeOnly _ _)) (zip_write_storeOnly _ _))
        (zip_seek_file_storeOnly _ _))) ?_
    exact writerInv_storeOnly hb (storeOnly_trans (storeOnly_trans (storeOnly_trans
        (zip_seek_file_storeOnly _ _) (zip_write_storeOnly _ _)) (zip_write_storeOnly _ _))
        (zip_seek_file_storeOnly _ _))

theorem write_central_directory_storeOnly (m : Entries) :
    ∀ (cnt byt : Nat) (z : ZIPFile),
      StoreOnly z (ZIPFile.write_central_directory m cnt byt z).2.2 := by
  induction m with
  | nil => intro cnt byt z; exact storeOnly_refl z
  | cons ke t ih =>
    intro cnt byt z
    obtain ⟨k, ent⟩ := ke
    unfold ZIPFile.write_central_directory
    dsimp only
    refine ite_pred (fun r : Nat × Nat × ZIPFile => StoreOnly z r.2.2)
      (zip_write_storeOnly _ _) ?_
    refine ite_pred (fun r : Nat × Nat × ZIPFile => StoreOnly z r.2.2)
      (storeOnly_trans (zip_write_storeOnly _ _) (zip_write_storeOnly _ _)) ?_
    exact storeOnly_trans (storeOnly_trans (zip_write_storeOnly _ _)
      (zip_write_storeOnly _ _)) (ih _ _ _)

/-- What `writeZIPFooter` does to the container apart from the storage. -/
theorem writeZIPFooter_fields (z : ZIPFile)
    (hg : ¬ (z.file_fd < 0 ∨ z.wrote_trailer = true ∨ z.can_write = false)) :
    z.writeZIPFooter.file_fd = z.file_fd ∧ z.writeZIPFooter.can_write = z.can_write ∧
    z.writeZIPFooter.wrote_trailer = true ∧ z.writeZIPFooter.current_entry = [] ∧
    z.writeZIPFooter.entries = z.close_current.entries := by
  have hcc := close_current_fields z
  have e0 := zip_end_of_file_storeOnly z.close_current
  have cd := write_central_directory_storeOnly z.close_current.end_of_file.2.entries 0 0
    z.close_current.end_of_file.2
  have w := zip_write_storeOnly
    (ZIPFile.write_central_directory z.close_current.end_of_file.2.entries 0 0
      z.close_current.end_of_file.2).2.2
    (endRecord
      (ZIPFile.write_central_directory z.close_current.end_of_file.2.entries 0 0
        z.close_current.end_of_file.2).1
      (ZIPFile.write_central_directory z.close_current.end_of_file.2.entries 0 0
        z.close_current.end_of_file.2).2.1 z.close_current.end_of_file.1).toBytes
  have all := storeOnly_trans (storeOnly_trans e0 cd) w
  unfold ZIPFile.writeZIPFooter
  rw [if_neg hg]
  exact ⟨all.1.trans hcc.1, all.2.1.trans hcc.2.1, rfl, rfl, all.2.2.2.2.2⟩

theorem writerInv_writeZIPFooter {z : ZIPFile} (h : WriterInv z) :
    WriterInv z.writeZIPFooter := by
  by_cases hg : z.file_fd < 0 ∨ z.wrote_trailer = true ∨ z.can_write = false
  · have : z.writeZIPFooter = z := by
      unfold ZIPFile.writeZIPFooter
      rw [if_pos hg]
    rw [this]
    exact h
  · obtain ⟨f1, _, _, f4, f5⟩ := writeZIPFooter_fields z hg
    simp only [not_or] at hg
    have hw : z.can_write = true := by simpa using hg.2.2
    obtain ⟨⟨hnd, _, _, hent⟩, hall⟩ := writerInv_close_current h
    obtain ⟨_, hall⟩ := hall hw
    refine ⟨by rw [f5]; exact hnd, by rw [f4]; rfl, fun hneg => by rw [f1] at hneg; omega, ?_⟩
    intro k e hf
    rw [f5] at hf
    obtain ⟨a, b, c, _⟩ := hent _ _ hf
    exact ⟨a, b, c, fun hx => by rw [hall k e hf] at hx; exact absurd hx (by simp)⟩

/-- An update of a node through its pointer that keeps its flags and name. -/
theorem writerInv_update_node {z zs : ZIPFile} {e e1 : ZIPFileEntry} {name : List Byte}
    (h : WriterInv z) (hf : z.entries.find name = some e) (hs : SameNode e e1)
    (hz : StoreOnly z zs) :
    WriterInv { zs with entries := z.entries.update name (fun _ => e1) } := by
  obtain ⟨hnd, hcur, hfd, hent⟩ := h
  obtain ⟨z1, _, _, z4, _, _⟩ := hz
  refine ⟨?_, ?_, ?_, ?_⟩
  · show ((Entries.update _ _ _).map Prod.fst).Nodup
    rw [keys_update]
    exact hnd
  · show cstr zs.current_entry = zs.current_entry
    rw [z4]
    exact hcur
  · intro hneg
    have hneg2 : z.file_fd < 0 := by rw [← z1]; exact hneg
    rw [hfd hneg2] at hf
    simp [Entries.find] at hf
  · intro k x hx
    show _ ∧ _ ∧ _ ∧ (_ → k = zs.current_entry ∧ _)
    rw [z4]
    have hx2 : (Entries.update name (fun _ => e1) z.entries).find k = some x := hx
    rw [find_update] at hx2
    by_cases hk : k = name
    · rw [if_pos hk, hf] at hx2
      simp only [Option.map_some', Option.some.injEq] at hx2
      obtain ⟨a, b, c, d⟩ := hent _ _ hf
      rw [← hx2, hk, hs.2.2.1, hs.2.1, hs.1]
      exact ⟨a, b, c, d⟩
    · rw [if_neg hk] at hx2
      exact hent _ _ hx2

theorem writerInv_call {z : ZIPFile} (h : WriterInv z) (c : Call) : WriterInv (z.call c) := by
  cases c with
  | new_entry name => exact writerInv_new_entry h name
  | close_current => exact (writerInv_close_current h).1
  | writeZIPFooter => exact writerInv_writeZIPFooter h
  | close => exact writerInv_close h
  | get_entry name => exact h
  | entry_seek name pos =>
    show WriterInv (z.entry_seek name pos).2
    unfold ZIPFile.entry_seek
    cases hf : z.entries.find name with
    | none => exact h
    | some e =>
      obtain ⟨s1, s2, _⟩ := entry_seek_frame e z pos
      exact writerInv_update_node h hf s1 s2
  | entry_read name count =>
    show WriterInv (z.entry_read name count).2.2
    unfold ZIPFile.entry_read
    cases hf : z.entries.find name with
    | none => exact h
    | some e =>
      obtain ⟨s1, s2, _⟩ := entry_read_frame e z count
      exact writerInv_update_node h hf s1 s2
  | entry_write name buffer count =>
    show WriterInv (z.entry_write name buffer count).2
    unfold ZIPFile.entry_write
    cases hf : z.entries.find name with
    | none => exact h
    | some e =>
      obtain ⟨s1, s2⟩ := entry_write_frame e z buffer count
      exact writerInv_update_node h hf s1 s2

theorem writerInv_run (calls : List Call) :
    ∀ z : ZIPFile, WriterInv z → WriterInv (z.run calls) := by
  induction calls with
  | nil => intro z h; exact h
  | cons c t ih => intro z h; exact ih _ (writerInv_call h c)

theorem writerInv_of_nil {z : ZIPFile} (he : z.entries = [])
    (hc : cstr z.current_entry = z.current_entry) : WriterInv z := by
  refine ⟨by rw [he]; exact List.nodup_nil, hc, fun _ => he, ?_⟩
  intro k e hf
  rw [he] at hf
  simp [Entries.find] at hf

theorem zip_close_current_entry (z : ZIPFile) : z.close.current_entry = z.current_entry := by
  unfold ZIPFile.close
  split <;> rfl

theorem writerInv_load {a : ZIPFile} (h : WriterInv a) (hfd : 0 ≤ a.file_fd)
    (chdr : pkzip_central_directory_header_main) (name : List Byte) (hne : name ≠ [])
    (hc : cstr name = name) :
    WriterInv { a with entries := (a.entries.index name).update name (loadEntry chdr name) } := by
  obtain ⟨hnd, hcur, _, hent⟩ := h
  refine ⟨keys_index_update_nodup _ _ _ hnd, hcur, ?_, ?_⟩
  · intro hneg
    have : a.file_fd < 0 := hneg
    omega
  · intro k e hf
    have hf2 : ((a.entries.index name).update name (loadEntry chdr name)).find k = some e := hf
    rw [find_index_update] at hf2
    by_cases hk : k = name
    · rw [if_pos hk] at hf2
      simp only [Option.some.injEq] at hf2
      rw [← hf2, hk]
      exact ⟨hne, hc, rfl, fun hx => absurd hx (by simp [loadEntry])⟩
    · rw [if_neg hk] at hf2
      exact hent _ _ hf2

theorem writerInv_open {z : ZIPFile} (hc : cstr z.current_entry = z.current_entry)
    (path : Option Storage) (mode : Nat) : WriterInv (z.open path mode).2 := by
  have hcur : cstr z.close.current_entry = z.close.current_entry := by
    rw [zip_close_current_entry]
    exact hc
  have hcl : WriterInv z.close := writerInv_of_nil (zip_close_entries z) hcur
  unfold ZIPFile.open
  cases path with
  | none => exact hcl
  | some disk =>
    dsimp only
    refine ite_pred (fun r : Int × ZIPFile => WriterInv r.2) hcl ?_
    refine ite_pred_cases (fun r : Int × ZIPFile => WriterInv r.2)
      (fun _ => writerInv_of_nil (zip_close_entries z) hcur) (fun ho => ?_)
    refine ite_pred (fun r : Int × ZIPFile => WriterInv r.2)
      (writerInv_close (writerInv_of_nil (zip_close_entries z) hcur)) ?_
    refine ite_pred (fun r : Int × ZIPFile => WriterInv r.2) ?_
      (writerInv_of_nil rfl rfl)
    exact scan_preserves (fun x => WriterInv x ∧ 0 ≤ x.file_fd) WriterInv
      (fun a b ha hs _ => ⟨writerInv_storeOnly ha.1 hs, by rw [hs.1]; exact ha.2⟩)
      (fun a chdr name ha hne hc => ⟨writerInv_load ha.1 ha.2 chdr name hne hc, ha.2⟩)
      (fun a ha => writerInv_close ha.1) (fun a ha => ha.1) _
      ⟨writerInv_of_nil rfl rfl, by
        show 0 ≤ (disk.openFile mode).1
        omega⟩

theorem length_le_one_of_const {α : Type} (a : α) :
    ∀ l : List α, l.Nodup → (∀ x ∈ l, x = a) → l.length ≤ 1
  | [], _, _ => by simp
  | [_], _, _ => by simp
  | x :: y :: t, hnd, hall => by
    exfalso
    have hx := hall x (by simp)
    have hy := hall y (by simp)
    rw [List.nodup_cons] at hnd
    exact hnd.1 (by rw [hx, ← hy]; simp)

/-- The single-writer property of a container that satisfies `WriterInv`. -/
theorem writerInv_single {z : ZIPFile} (h : WriterInv z) :
    (z.entries.filter (fun ke => ke.2.can_extend)).length ≤ 1 ∧
    ∀ ke ∈ z.entries, ke.2.can_extend = true → ke.2.name = z.current_entry := by
  obtain ⟨hnd, _, _, hent⟩ := h
  have key : ∀ ke ∈ z.entries, ke.2.can_extend = true →
      ke.1 = z.current_entry ∧ ke.2.name = ke.1 := by
    intro ke hke hx
    obtain ⟨_, _, c, d⟩ := hent ke.1 ke.2 (find_of_mem _ hnd _ _ hke)
    exact ⟨(d hx).1, c⟩
  constructor
  · have hsub : ((z.entries.filter (fun ke => ke.2.can_extend)).map Prod.fst).Sublist
        (z.entries.map Prod.fst) := List.Sublist.map _ (List.filter_sublist _)
    have := length_le_one_of_const z.current_entry _ (hnd.sublist hsub) (by
      intro x hx
      obtain ⟨ke, hke, rfl⟩ := List.mem_map.mp hx
      obtain ⟨h1, h2⟩ := List.mem_filter.mp hke
      exact (key ke h1 h2).1)
    simpa using this
  · intro ke hke hx
    obtain ⟨a, b⟩ := key ke hke hx
    rw [b, a]

/-- C15: in every state reached from `open` (on a container whose active-entry marker is
a C string, as `new_entry` and the constructor leave it; any path, any mode) by any
sequence of `new_entry`, `close_current`, `writeZIPFooter`, `close`, `get_entry` and
entry `seek_file`/`read`/`write` calls, whatever the outcomes of the storage calls, at
most one entry of the map has `can_extend = true`, and an entry with `can_extend = true`
has the active-entry marker as its name. -/
theorem single_writer (z0 : ZIPFile) (path : Option Storage) (mode : Nat) (calls : List Call)
    (h0 : cstr z0.current_entry = z0.current_entry) :
    (((z0.open path mode).2.run calls).entries.filter (fun ke => ke.2.can_extend)).length ≤ 1 ∧
    ∀ ke ∈ ((z0.open path mode).2.run calls).entries, ke.2.can_extend = true →
      ke.2.name = ((z0.open path mode).2.run calls).current_entry :=
  writerInv_single (writerInv_run calls _ (writerInv_open h0 path mode))

set_option maxRecDepth 100000 in
/-- Witness of `single_writer`: a fresh container opened read-write on an empty file, two
entries created one after the other with a write in between; the second is the one entry
in extend mode. -/
theorem single_writer_witness :
    ((((ZIPFile.init.open (some (Storage.ofBytes [])) O_RDWR).2.run
        [Call.new_entry stateBin, Call.entry_write stateBin [1, 2, 3, 4] 4,
          Call.new_entry [0x41]]).entries.filter (fun ke => ke.2.can_extend)).map Prod.fst
      = [[0x41]]) ∧
    ((((ZIPFile.init.open (some (Storage.ofBytes [])) O_RDWR).2.run
        [Call.new_entry stateBin, Call.entry_write stateBin [1, 2, 3, 4] 4,
          Call.new_entry [0x41]]).entries.filter (fun ke => ke.2.can_extend)).length ≤ 1 ∧
      ∀ ke ∈ ((ZIPFile.init.open (some (Storage.ofBytes [])) O_RDWR).2.run
        [Call.new_entry stateBin, Call.entry_write stateBin [1, 2, 3, 4] 4,
          Call.new_entry [0x41]]).entries, ke.2.can_extend = true →
        ke.2.name = ((ZIPFile.init.open (some (Storage.ofBytes [])) O_RDWR).2.run
          [Call.new_entry stateBin, Call.entry_write stateBin [1, 2, 3, 4] 4,
            Call.new_entry [0x41]]).current_entry) :=
  ⟨by decide, single_writer ZIPFile.init (some (Storage.ofBytes [])) O_RDWR
    [Call.new_entry stateBin, Call.entry_write stateBin [1, 2, 3, 4] 4, Call.new_entry [0x41]]
    rfl⟩

/-! ## Read-only sessions -/

theorem readOnly_store {b : List Byte} {w : List StorageOp} {x y : ZIPFile}
    (h : ReadOnlySession b w x) (hs : StoreOnly x y) (hq : Quiet x.store y.store) :
    ReadOnlySession b w y := by
  obtain ⟨h1, h2, h3, h4⟩ := h
  refine ⟨hs.2.1.trans h1, ?_, hq.1.trans h3, hq.2.trans h4⟩
  rw [hs.2.2.2.2.2]
  exact h2

theorem readOnly_close {b : List Byte} {w : List StorageOp} {x : ZIPFile}
    (h : ReadOnlySession b w x) : ReadOnlySession b w x.close := by
  obtain ⟨h1, h2, h3, h4⟩ := h
  unfold ZIPFile.close
  split
  · exact ⟨h1, fun k e hf => by simp [Entries.find] at hf, h3, h4⟩
  · exact ⟨h1, fun k e hf => by simp [Entries.find] at hf, h3, h4⟩

theorem readOnly_load {b : List Byte} {w : List StorageOp} {x : ZIPFile}
    (h : ReadOnlySession b w x) (chdr : pkzip_central_directory_header_main)
    (name : List Byte) :
    ReadOnlySession b w
      { x with entries := (x.entries.index name).update name (loadEntry chdr name) } := by
  obtain ⟨h1, h2, h3, h4⟩ := h
  refine ⟨h1, ?_, h3, h4⟩
  intro k e hf
  have hf2 : ((x.entries.index name).update name (loadEntry chdr name)).find k = some e := hf
  rw [find_index_update] at hf2
  by_cases hk : k = name
  · rw [if_pos hk] at hf2
    simp only [Option.some.injEq] at hf2
    rw [← hf2]
    rfl
  · rw [if_neg hk] at hf2
    exact h2 _ _ hf2

theorem storage_openFile_quiet (s : Storage) (mode : Nat) : Quiet s (s.openFile mode).2 := by
  unfold Storage.openFile
  cases s.outcome <;> exact ⟨rfl, rfl⟩

/-- A successful `open` in read-only mode starts a read-only session on the file. -/
theorem readOnly_open (z0 : ZIPFile) (disk : Storage) (mode : Nat)
    (hmode : mode % 4 = O_RDONLY) (hopen : (z0.open (some disk) mode).1 = 0) :
    ReadOnlySession disk.bytes disk.writes (z0.open (some disk) mode).2 := by
  have hq : Quiet disk ((disk.openFile mode).2.lseek 0).2 :=
    quiet_trans (storage_openFile_quiet disk mode) (storage_lseek_quiet _ _)
  revert hopen
  unfold ZIPFile.open
  dsimp only
  refine ite_pred (fun r : Int × ZIPFile =>
    r.1 = 0 → ReadOnlySession disk.bytes disk.writes r.2) (fun h => absurd (show (-1 : Int) = 0 from h) (by decide)) ?_
  refine ite_pred (fun r : Int × ZIPFile =>
    r.1 = 0 → ReadOnlySession disk.bytes disk.writes r.2) (fun h => absurd (show (-1 : Int) = 0 from h) (by decide)) ?_
  refine ite_pred (fun r : Int × ZIPFile =>
    r.1 = 0 → ReadOnlySession disk.bytes disk.writes r.2) (fun h => absurd (show (-1 : Int) = 0 from h) (by decide)) ?_
  rw [if_pos hmode]
  intro _
  refine scan_preserves (ReadOnlySession disk.bytes disk.writes)
    (ReadOnlySession disk.bytes disk.writes)
    (fun a b ha hs hq => readOnly_store ha hs hq)
    (fun a chdr name ha _ _ => readOnly_load ha chdr name)
    (fun a ha => readOnly_close ha) (fun a ha => ha) _ ?_
  refine ⟨?_, fun k e hf => by simp [Entries.find] at hf, hq.1, hq.2⟩
  show decide (mode % 4 = O_RDWR) = false
  rw [hmode]
  rfl

/-- What a read-only session answers to the writing calls. -/
theorem readOnly_answers {b : List Byte} {w : List StorageOp} {z : ZIPFile}
    (h : ReadOnlySession b w z) :
    (∀ name, z.new_entry name = (none, z)) ∧ z.close_current = z ∧ z.writeZIPFooter = z ∧
    (∀ k e buffer count, z.entries.find k = some e → e.write z buffer count = (-1, e, z)) := by
  obtain ⟨h1, h2, _, _⟩ := h
  refine ⟨?_, ?_, ?_, ?_⟩
  · intro name
    unfold ZIPFile.new_entry
    rw [if_pos (Or.inr h1)]
  · unfold ZIPFile.close_current
    rw [if_pos h1]
  · unfold ZIPFile.writeZIPFooter
    rw [if_pos (Or.inr (Or.inr h1))]
  · intro k e buffer count hf
    unfold ZIPFileEntry.write
    rw [if_pos (Or.inr (Or.inr (h2 k e hf)))]

theorem readOnly_update_node {b : List Byte} {w : List StorageOp} {z zs : ZIPFile}
    {e e1 : ZIPFileEntry} {name : List Byte} (h : ReadOnlySession b w z)
    (hf : z.entries.find name = some e) (hs : SameNode e e1) (hz : StoreOnly z zs)
    (hq : Quiet z.store zs.store) :
    ReadOnlySession b w { zs with entries := z.entries.update name (fun _ => e1) } := by
  obtain ⟨h1, h2, h3, h4⟩ := h
  refine ⟨hz.2.1.trans h1, ?_, hq.1.trans h3, hq.2.trans h4⟩
  intro k x hx
  have hx2 : (Entries.update name (fun _ => e1) z.entries).find k = some x := hx
  rw [find_update] at hx2
  by_cases hk : k = name
  · rw [if_pos hk, hf] at hx2
    simp only [Option.map_some', Option.some.injEq] at hx2
    rw [← hx2, hs.1]
    exact h2 _ _ hf
  · rw [if_neg hk] at hx2
    exact h2 _ _ hx2

theorem readOnly_call {b : List Byte} {w : List StorageOp} {z : ZIPFile}
    (h : ReadOnlySession b w z) (c : Call) : ReadOnlySession b w (z.call c) := by
  obtain ⟨a1, a2, a3, a4⟩ := readOnly_answers h
  cases c with
  | new_entry name =>
    show ReadOnlySession b w (z.new_entry name).2
    rw [a1 name]
    exact h
  | close_current =>
    show ReadOnlySession b w z.close_current
    rw [a2]
    exact h
  | writeZIPFooter =>
    show ReadOnlySession b w z.writeZIPFooter
    rw [a3]
    exact h
  | close => exact readOnly_close h
  | get_entry name => exact h
  | entry_seek name pos =>
    show ReadOnlySession b w (z.entry_seek name pos).2
    unfold ZIPFile.entry_seek
    cases hf : z.entries.find name with
    | none => exact h
    | some e =>
      obtain ⟨s1, s2, s3⟩ := entry_seek_frame e z pos
      exact readOnly_update_node h hf s1 s2 s3
  | entry_read name count =>
    show ReadOnlySession b w (z.entry_read name count).2.2
    unfold ZIPFile.entry_read
    cases hf : z.entries.find name with
    | none => exact h
    | some e =>
      obtain ⟨s1, s2, s3⟩ := entry_read_frame e z count
      exact readOnly_update_node h hf s1 s2 s3
  | entry_write name buffer count =>
    show ReadOnlySession b w (z.entry_write name buffer count).2
    unfold ZIPFile.entry_write
    cases hf : z.entries.find name with
    | none => exact h
    | some e =>
      dsimp only
      rw [a4 name e buffer count hf]
      exact readOnly_update_node h hf (sameNode_refl e) (storeOnly_refl z) (quiet_refl _)

theorem readOnly_run {b : List Byte} {w : List StorageOp} (calls : List Call) :
    ∀ z : ZIPFile, ReadOnlySession b w z → ReadOnlySession b w (z.run calls) := by
  induction calls with
  | nil => intro z h; exact h
  | cons c t ih => intro z h; exact ih _ (readOnly_call h c)

/-- C19: on a container successfully opened read-only, after every sequence of
`new_entry`, `close_current`, `writeZIPFooter`, `get_entry`, `close` and entry
`seek_file`/`read`/`write` calls, whatever the storage does: no `::write` has been issued
on the descriptor since `open` and the file bytes are those before `open`; `new_entry`
returns `NULL` and changes nothing, `close_current` and `writeZIPFooter` change nothing,
and `write` on every entry of the map returns `-1` and changes nothing. -/
theorem read_only_session (z0 : ZIPFile) (disk : Storage) (mode : Nat) (calls : List Call)
    (hmode : mode % 4 = O_RDONLY) (hopen : (z0.open (some disk) mode).1 = 0) :
    ((z0.open (some disk) mode).2.run calls).store.bytes = disk.bytes ∧
    ((z0.open (some disk) mode).2.run calls).store.writes = disk.writes ∧
    (∀ name, ((z0.open (some disk) mode).2.run calls).new_entry name
      = (none, (z0.open (some disk) mode).2.run calls)) ∧
    ((z0.open (some disk) mode).2.run calls).close_current
      = (z0.open (some disk) mode).2.run calls ∧
    ((z0.open (some disk) mode).2.run calls).writeZIPFooter
      = (z0.open (some disk) mode).2.run calls ∧
    (∀ k e buffer count, ((z0.open (some disk) mode).2.run calls).entries.find k = some e →
      e.write ((z0.open (some disk) mode).2.run calls) buffer count
        = (-1, e, (z0.open (some disk) mode).2.run calls)) := by
  have h := readOnly_run calls _ (readOnly_open z0 disk mode hmode hopen)
  exact ⟨h.2.2.1, h.2.2.2, readOnly_answers h⟩

set_option maxRecDepth 100000 in
/-- Witness of `read_only_session`: the sample archive reopened read-only; `STATE.BIN` is
loaded, read and written to, a new entry and the footer are asked for. -/
theorem read_only_session_witness :
    (((readBack sampleArchive).2.run
      [Call.entry_read stateBin 4, Call.entry_write stateBin [9] 1, Call.new_entry [0x41],
        Call.writeZIPFooter]).entries.map Prod.fst = [stateBin]) ∧
    ((readBack sampleArchive).2.run
      [Call.entry_read stateBin 4, Call.entry_write stateBin [9] 1, Call.new_entry [0x41],
        Call.writeZIPFooter]).store.bytes = sampleArchive ∧
    ((readBack sampleArchive).2.run
      [Call.entry_read stateBin 4, Call.entry_write stateBin [9] 1, Call.new_entry [0x41],
        Call.writeZIPFooter]).store.writes = [] :=
  ⟨by decide,
    (read_only_session ZIPFile.init (Storage.ofBytes sampleArchive) O_RDONLY
      [Call.entry_read stateBin 4, Call.entry_write stateBin [9] 1, Call.new_entry [0x41],
        Call.writeZIPFooter] rfl (by decide)).1,
    (read_only_session ZIPFile.init (Storage.ofBytes sampleArchive) O_RDONLY
      [Call.entry_read stateBin 4, Call.entry_write stateBin [9] 1, Call.new_entry [0x41],
        Call.writeZIPFooter] rfl (by decide)).2.1⟩

/-! ## Finalization of the active entry -/

theorem byteOf_low (a : Byte) (r : Nat) : byteOf (a.val + 256 * r) = a := by
  apply Fin.ext
  show (a.val + 256 * r) % 256 = a.val
  have := a.isLt
  omega

theorem rd16_cons (a : Byte) (t : List Byte) (i : Nat) : rd16 (a :: t) (i + 1) = rd16 t i := by
  simp [rd16, byteAt]

theorem rd32_cons (a : Byte) (t : List Byte) (i : Nat) : rd32 (a :: t) (i + 1) = rd32 t i := by
  simp [rd32, byteAt]

theorem le16_rd16_cons (a b : Byte) (t : List Byte) : le16 (rd16 (a :: b :: t) 0) = [a, b] := by
  have ha := a.isLt
  have hb := b.isLt
  simp only [le16, rd16, byteAt, List.get?_cons_zero, List.get?_cons_succ, Option.getD_some,
    List.cons.injEq, and_true]
  constructor
  · exact byteOf_low a _
  · apply Fin.ext
    show (a.val + 256 * b.val) / 256 % 256 = b.val
    omega

theorem le32_rd32_cons (a b c d : Byte) (t : List Byte) :
    le32 (rd32 (a :: b :: c :: d :: t) 0) = [a, b, c, d] := by
  have ha := a.isLt
  have hb := b.isLt
  have hc := c.isLt
  have hd := d.isLt
  simp only [le32, rd32, byteAt, List.get?_cons_zero, List.get?_cons_succ, Option.getD_some,
    List.cons.injEq, and_true]
  refine ⟨?_, ?_, ?_, ?_⟩ <;> apply Fin.ext
  · show (a.val + 256 * b.val + 65536 * c.val + 16777216 * d.val) % 256 = a.val
    omega
  · show (a.val + 256 * b.val + 65536 * c.val + 16777216 * d.val) / 256 % 256 = b.val
    omega
  · show (a.val + 256 * b.val + 65536 * c.val + 16777216 * d.val) / 65536 % 256 = c.val
    omega
  · show (a.val + 256 * b.val + 65536 * c.val + 16777216 * d.val) / 16777216 % 256 = d.val
    omega

/-- The header `close_current` writes back: the 30 bytes it read, with the checksum and
the two size fields (bytes 14 to 25) replaced. -/
theorem patched_header_bytes (x : List Byte) (hx : x.length = 30) (ent : ZIPFileEntry) :
    (patchHeader (ZIPLocalFileHeader.ofBytes x) ent).toBytes
      = x.take 14 ++ (le32 (toU32 (zipcrc_finalize ent.write_crc)) ++
          (le32 (toU32 ent.file_length) ++ le32 (toU32 ent.file_length))) ++ x.drop 26 := by
  match x, hx with
  | [b0, b1, b2, b3, b4, b5, b6, b7, b8, b9, b10, b11, b12, b13, b14, b15, b16, b17, b18,
      b19, b20, b21, b22, b23, b24, b25, b26, b27, b28, b29], _ =>
    simp only [patchHeader, ZIPLocalFileHeader.ofBytes, ZIPLocalFileHeader.toBytes,
      show (4 : Nat) = 0 + 1 + 1 + 1 + 1 from rfl, show (6 : Nat) = 0 + 1 + 1 + 1 + 1 + 1 + 1 from rfl,
      show (8 : Nat) = 0 + 1 + 1 + 1 + 1 + 1 + 1 + 1 + 1 from rfl,
      show (10 : Nat) = 0 + 1 + 1 + 1 + 1 + 1 + 1 + 1 + 1 + 1 + 1 from rfl,
      show (12 : Nat) = 0 + 1 + 1 + 1 + 1 + 1 + 1 + 1 + 1 + 1 + 1 + 1 + 1 from rfl,
      show (26 : Nat) = 0 + 1 + 1 + 1 + 1 + 1 + 1 + 1 + 1 + 1 + 1 + 1 + 1 + 1 + 1 + 1 + 1 + 1 + 1
        + 1 + 1 + 1 + 1 + 1 + 1 + 1 + 1 from rfl,
      show (28 : Nat) = 0 + 1 + 1 + 1 + 1 + 1 + 1 + 1 + 1 + 1 + 1 + 1 + 1 + 1 + 1 + 1 + 1 + 1 + 1
        + 1 + 1 + 1 + 1 + 1 + 1 + 1 + 1 + 1 + 1 from rfl,
      rd16_cons, rd32_cons, le16_rd16_cons, le32_rd32_cons]
    rfl


/-- The header patch-up of `close_current` on a file that holds 30 bytes `x` at the
header offset of the entry, the storage accepting every call. -/
theorem patch_current_ideal (z : ZIPFile) (ent : ZIPFileEntry) (X x Y : List Byte)
    (hI : Ideal z) (hb : z.store.bytes = X ++ x ++ Y) (hx : x.length = sizeofLocal)
    (hoff : ent.file_header_offset = (X.length : Int))
    (hmax : z.store.bytes.length ≤ maxOff) :
    Ideal (z.patch_current ent) ∧
    (z.patch_current ent).store.bytes
      = X ++ (patchHeader (ZIPLocalFileHeader.ofBytes x) ent).toBytes ++ Y := by
  have h30 : sizeofLocal = 30 := rfl
  have hblen : z.store.bytes.length = X.length + sizeofLocal + Y.length := by
    rw [hb]
    simp only [List.length_append, hx]
  have hrd : (z.store.bytes.drop X.length).take sizeofLocal = x := by
    rw [hb, List.append_assoc, drop_append_exact _ _ _ rfl]
    exact take_append_exact _ _ _ hx
  have hwa : writeAt z.store.bytes X.length
      (patchHeader (ZIPLocalFileHeader.ofBytes x) ent).toBytes
      = X ++ (patchHeader (ZIPLocalFileHeader.ofBytes x) ent).toBytes ++ Y := by
    rw [hb]
    exact writeAt_middle _ _ _ _ (by rw [hx, local_toBytes_length])
  unfold ZIPFile.patch_current
  simp only [hoff, zip_seek_file_ok, zip_read_ok, zip_write_if, hI.1, hI.2.1, hI.2.2,
    Nat.cast_nonneg, Int.toNat_ofNat, hrd, hx, if_true,
    toSize_natCast (show sizeofLocal < 2 ^ 64 by decide),
    local_toBytes_ne_nil, ne_eq, not_false_eq_true, local_toBytes_length, hwa]
  rw [if_pos (by omega)]
  exact ⟨⟨hI.1, rfl, rfl⟩, rfl⟩

theorem take_add_drop_split (b : List Byte) (h : Nat) :
    b = b.take h ++ (b.drop h).take sizeofLocal ++ b.drop (h + sizeofLocal) := by
  rw [List.append_assoc, ← List.drop_drop, List.take_append_drop, List.take_append_drop]

theorem patched_in_place (b : List Byte) (h : Nat) (F : List Byte)
    (hin : h + sizeofLocal ≤ b.length) :
    b.take h ++ (((b.drop h).take sizeofLocal).take 14 ++ F
      ++ ((b.drop h).take sizeofLocal).drop 26) ++ b.drop (h + sizeofLocal)
      = b.take (h + 14) ++ F ++ b.drop (h + 26) := by
  have h30 : sizeofLocal = 30 := rfl
  have e1 : ((b.drop h).take sizeofLocal).take 14 = (b.drop h).take 14 := by
    rw [List.take_take]
    congr 1
  have e2 : b.take h ++ (b.drop h).take 14 = b.take (h + 14) := by
    rw [List.take_add]
  have e3 : ((b.drop h).take sizeofLocal).drop 26 ++ b.drop (h + sizeofLocal) = b.drop (h + 26) := by
    have hl : ((b.drop h).take sizeofLocal).length = sizeofLocal := by
      rw [List.length_take, List.length_drop]
      omega
    have : (b.drop h).drop 26 = (((b.drop h).take sizeofLocal) ++ (b.drop h).drop sizeofLocal).drop 26 := by
      rw [List.take_append_drop]
    rw [List.drop_drop] at this
    rw [this, List.drop_append_of_le_length (by rw [hl, h30]; decide), List.drop_drop]
  rw [e1, ← e2, ← e3]
  simp only [List.append_assoc]

/-- C17: `close_current` on a writable container whose marker names the writable entry
`e` of the map, with the 30 bytes of the local header of `e` inside the file, `L =
file_length < 2^32` and the storage accepting every call: `e` becomes `can_write =
can_extend = false` and is otherwise as before, the other entries are as before, the
marker is cleared, and the file is as before except for the bytes 14 to 25 of the local
header of `e`, which become the finalized checksum and twice the length `L`
(little-endian): every other header field, the filename, the payloads and the bytes of
the other entries are unchanged.  On a read-only container, or with no active entry,
`close_current` changes nothing. -/
theorem close_current_finalizes (z : ZIPFile) (e : ZIPFileEntry) (h L : Nat) :
    (Ideal z → z.can_write = true → z.current_entry ≠ [] →
      cstr z.current_entry = z.current_entry → z.entries.find z.current_entry = some e →
      e.can_write = true → e.file_header_offset = (h : Int) →
      h + sizeofLocal ≤ z.store.bytes.length → z.store.bytes.length ≤ maxOff →
      e.file_length = (L : Int) → L < 2 ^ 32 → e.write_crc < 2 ^ 32 →
      z.close_current.entries.find z.current_entry
        = some { e with can_write := false, can_extend := false } ∧
      (∀ n, n ≠ z.current_entry → z.close_current.entries.find n = z.entries.find n) ∧
      z.close_current.current_entry = [] ∧
      z.close_current.store.bytes = z.store.bytes.take (h + 14) ++
        (le32 (zipcrc_finalize e.write_crc) ++ (le32 L ++ le32 L)) ++
        z.store.bytes.drop (h + 26)) ∧
    ((z.can_write = false ∨ z.current_entry = []) → z.close_current = z) := by
  constructor
  · intro hI hw hne hc hf hcw hoff hin hmax hL hL32 hcrc
    have hg : z.get_entry z.current_entry = some e := by
      simp [ZIPFile.get_entry, Int.not_lt.mpr hI.1, hc, hne, hf]
    have hlenX : (z.store.bytes.take h).length = h := by
      rw [List.length_take]
      omega
    have hlenx : ((z.store.bytes.drop h).take sizeofLocal).length = sizeofLocal := by
      rw [List.length_take, List.length_drop]
      omega
    obtain ⟨_, hb⟩ := patch_current_ideal
      { z with
          entries := z.entries.update (cstr z.current_entry)
            (fun e => { e with can_write := false, can_extend := false }) }
      e (z.store.bytes.take h) ((z.store.bytes.drop h).take sizeofLocal)
      (z.store.bytes.drop (h + sizeofLocal)) hI (take_add_drop_split z.store.bytes h) hlenx
      (by rw [hoff, hlenX]) hmax
    have hen := (patch_current_storeOnly
      { z with
          entries := z.entries.update (cstr z.current_entry)
            (fun e => { e with can_write := false, can_extend := false }) } e).2.2.2.2.2
    have hcrc2 : toU32 (zipcrc_finalize e.write_crc) = zipcrc_finalize e.write_crc := by
      show toU32 ((e.write_crc : Nat) : Int) = e.write_crc
      rw [toU32_natCast]
      exact Nat.mod_eq_of_lt hcrc
    have hL2 : toU32 e.file_length = L := by
      rw [hL, toU32_natCast]
      exact Nat.mod_eq_of_lt hL32
    rw [close_current_found z e hw hne hg hcw]
    refine ⟨?_, ?_, rfl, ?_⟩
    · show (ZIPFile.patch_current _ _).entries.find _ = _
      rw [hen]
      simp only [hc, find_update, hf, if_true, Option.map_some']
    · intro n hn
      show (ZIPFile.patch_current _ _).entries.find _ = _
      rw [hen]
      simp only [hc, find_update, hn, if_false]
    · show (ZIPFile.patch_current _ _).store.bytes = _
      rw [hb, patched_header_bytes _ hlenx, hcrc2, hL2]
      exact patched_in_place _ _ _ hin
  · intro h0
    unfold ZIPFile.close_current
    rcases h0 with h0 | h0
    · rw [if_pos h0]
    · by_cases hw : z.can_write = false
      · rw [if_pos hw]
      · rw [if_neg hw, if_neg (by simp [h0])]
        cases z
        simp only at h0
        subst h0
        rfl

set_option maxRecDepth 100000 in
/-- Witness of `close_current_finalizes`: the sample container with `STATE.BIN` active
and four bytes written; the header at offset 0 gets the length 4 twice. -/
theorem close_current_finalizes_witness :
    sampleActive.close_current.current_entry = [] ∧
    sampleActive.close_current.store.bytes = sampleActive.store.bytes.take 14 ++
      (le32 (zipcrc_finalize sampleExtending.write_crc) ++ (le32 4 ++ le32 4)) ++
      sampleActive.store.bytes.drop 26 ∧
    ZIPFile.init.close_current = ZIPFile.init :=
  ⟨((close_current_finalizes sampleActive sampleExtending 0 4).1 (by decide) (by decide)
      (by decide) (by decide) (by decide) (by decide) (by decide) (by decide) (by decide)
      (by decide) (by decide) (by decide)).2.2.1,
   ((close_current_finalizes sampleActive sampleExtending 0 4).1 (by decide) (by decide)
      (by decide) (by decide) (by decide) (by decide) (by decide) (by decide) (by decide)
      (by decide) (by decide) (by decide)).2.2.2,
   (close_current_finalizes ZIPFile.init ZIPFileEntry.fresh 0 0).2 (Or.inl rfl)⟩

/-! ## `close_current` on a storage that accepts every call -/

theorem tame_refl (s : Storage) : Tame s s := ⟨rfl, fun h => h⟩

theorem tame_trans {a b c : Storage} (h1 : Tame a b) (h2 : Tame b c) : Tame a c :=
  ⟨h2.1.trans h1.1, fun h => h2.2 (h1.2 h)⟩

theorem storage_tick_tame (s : Storage) (op : StorageOp) : Tame s (s.tick op) :=
  ⟨rfl, fun h => by simp [Storage.tick, h]⟩

theorem storage_lseek_tame (s : Storage) (pos : Int) : Tame s (s.lseek pos).2 := by
  have ht := storage_tick_tame s (StorageOp.seekSet pos)
  unfold Storage.lseek
  cases s.outcome <;> simp only [] <;> try split
  all_goals exact ht

theorem storage_lseekEnd_tame (s : Storage) : Tame s s.lseekEnd.2 := by
  have ht := storage_tick_tame s StorageOp.seekEnd
  unfold Storage.lseekEnd
  cases s.outcome <;> exact ht

theorem storage_read_tame (s : Storage) (n : Nat) : Tame s (s.read n).2.2 := by
  have ht := storage_tick_tame s (StorageOp.read n)
  unfold Storage.read
  cases s.outcome <;> exact ht

theorem storage_put_tame (s : Storage) (d : List Byte) : Tame s (s.put d).2 := by
  unfold Storage.put
  split
  · exact tame_refl s
  · split
    · exact tame_refl s
    · exact ⟨rfl, fun h => h⟩

theorem storage_write_tame (s : Storage) (d : List Byte) : Tame s (s.write d).2 := by
  have ht := storage_tick_tame s (StorageOp.write d)
  unfold Storage.write
  dsimp only
  split
  · exact ht
  · cases s.outcome
    · exact tame_trans ht (storage_put_tame _ _)
    · exact tame_trans ht (storage_put_tame _ _)
    · exact ht

theorem zip_seek_file_tame (z : ZIPFile) (pos : Int) : Tame z.store (z.seek_file pos).2.store := by
  unfold ZIPFile.seek_file
  split
  · exact tame_refl _
  · exact storage_lseek_tame _ _

theorem zip_read_tame (z : ZIPFile) (n : Nat) : Tame z.store (z.read n).2.2.store := by
  unfold ZIPFile.read
  split
  · exact tame_refl _
  · exact storage_read_tame _ _

theorem zip_write_tame (z : ZIPFile) (d : List Byte) : Tame z.store (z.write d).2.store := by
  unfold ZIPFile.write
  split
  · exact tame_refl _
  · exact storage_write_tame _ _

theorem patch_current_tame (z : ZIPFile) (ent : ZIPFileEntry) :
    Tame z.store (z.patch_current ent).store := by
  unfold ZIPFile.patch_current
  have a := zip_seek_file_tame z ent.file_header_offset
  have b := tame_trans a
    (zip_read_tame (z.seek_file ent.file_header_offset).2 sizeofLocal)
  have c := tame_trans b (zip_seek_file_tame
    ((z.seek_file ent.file_header_offset).2.read sizeofLocal).2.2 ent.file_header_offset)
  simp only []
  split
  · split
    · split
      · exact tame_trans c (zip_write_tame _ _)
      · exact c
    · exact b
  · exact a

theorem close_current_tame (z : ZIPFile) : Tame z.store z.close_current.store := by
  by_cases hw : z.can_write = true
  · rcases close_current_cases z hw with ⟨ent, _, _, _, h⟩ | ⟨_, h⟩
    · rw [h]
      exact patch_current_tame
        { z with
            entries := z.entries.update (cstr z.current_entry)
              (fun e => { e with can_write := false, can_extend := false }) } ent
    · rw [h]
      exact tame_refl _
  · have : z.close_current = z := by
      unfold ZIPFile.close_current
      rw [if_pos (by simpa using hw)]
    rw [this]
    exact tame_refl _

theorem close_current_ideal {z : ZIPFile} (h : Ideal z) : Ideal z.close_current := by
  have ht := close_current_tame z
  exact ⟨by rw [(close_current_fields z).1]; exact h.1, ht.2 h.2.1, ht.1.trans h.2.2⟩

/-- The header patch-up of `close_current` on a storage that accepts every call: the
size of the file stays and only bytes of the 30 at the header offset can change. -/
theorem patch_current_frame (z : ZIPFile) (ent : ZIPFileEntry) (hI : Ideal z)
    (h0 : 0 ≤ ent.file_header_offset) (hmax : z.store.bytes.length ≤ maxOff) :
    (z.patch_current ent).store.bytes.length = z.store.bytes.length ∧
    ∀ i : Nat, ((i : Int) < ent.file_header_offset ∨
        ent.file_header_offset + sizeofLocal ≤ (i : Int)) →
      (z.patch_current ent).store.bytes[i]? = z.store.bytes[i]? := by
  have h30 : sizeofLocal = 30 := rfl
  have hm : maxOff = 2 ^ 63 - 1 := rfl
  obtain ⟨h, hh⟩ : ∃ h : Nat, ent.file_header_offset = (h : Int) :=
    ⟨ent.file_header_offset.toNat, by omega⟩
  by_cases hin : h + sizeofLocal ≤ z.store.bytes.length
  · have hlenX : (z.store.bytes.take h).length = h := by
      rw [List.length_take]
      omega
    have hlenx : ((z.store.bytes.drop h).take sizeofLocal).length = sizeofLocal := by
      rw [List.length_take, List.length_drop]
      omega
    obtain ⟨_, hb⟩ := patch_current_ideal z ent (z.store.bytes.take h)
      ((z.store.bytes.drop h).take sizeofLocal) (z.store.bytes.drop (h + sizeofLocal)) hI
      (take_add_drop_split z.store.bytes h) hlenx (by rw [hh, hlenX]) hmax
    have hw : (z.patch_current ent).store.bytes = writeAt z.store.bytes h
        (patchHeader (ZIPLocalFileHeader.ofBytes ((z.store.bytes.drop h).take sizeofLocal))
          ent).toBytes := by
      rw [hb]
      have := writeAt_middle (z.store.bytes.take h) ((z.store.bytes.drop h).take sizeofLocal)
        (z.store.bytes.drop (h + sizeofLocal))
        (patchHeader (ZIPLocalFileHeader.ofBytes ((z.store.bytes.drop h).take sizeofLocal))
          ent).toBytes (by rw [hlenx, local_toBytes_length])
      rw [← take_add_drop_split, hlenX] at this
      exact this.symm
    have hlen : (z.patch_current ent).store.bytes.length = z.store.bytes.length := by
      rw [hw, writeAt_length, local_toBytes_length]
      omega
    refine ⟨hlen, ?_⟩
    intro i hi
    by_cases hil : i < z.store.bytes.length
    · rw [hw]
      exact writeAt_getElem_outside _ _ _ _ hil (by rw [local_toBytes_length]; omega)
    · rw [List.getElem?_eq_none (by omega), List.getElem?_eq_none (by omega)]
  · have hshort : ((z.store.bytes.drop h).take sizeofLocal).length ≠ sizeofLocal := by
      rw [List.length_take, List.length_drop]
      omega
    have hlt : ((z.store.bytes.drop h).take sizeofLocal).length < 2 ^ 64 := by
      rw [List.length_take]
      omega
    have : (z.patch_current ent).store.bytes = z.store.bytes := by
      unfold ZIPFile.patch_current
      simp only [hh, zip_seek_file_ok, zip_read_ok, hI.1, hI.2.1, Nat.cast_nonneg,
        Int.toNat_ofNat, if_true, toSize_natCast hlt, hshort, if_false]
    rw [this]
    exact ⟨rfl, fun _ _ => rfl⟩

/-! ## Layout of a new entry -/

/-- The storage steps of `new_entry` (source lines 151-175) on a container whose file
has `n` bytes, the storage accepting every call: the header and the name are appended
and the descriptor is left at the payload offset. -/
theorem entry_header_steps (x : ZIPFile) (nm : List Byte) (hI : Ideal x) (hne : nm ≠ [])
    (hmax : x.store.bytes.length + (sizeofLocal + nm.length) ≤ maxOff) :
    (x.seek_file (x.store.bytes.length : Int)).1 = (x.store.bytes.length : Int) ∧
    toSize ((x.seek_file (x.store.bytes.length : Int)).2.write
      (newLocalHeader nm).toBytes).1 = sizeofLocal ∧
    toSize (((x.seek_file (x.store.bytes.length : Int)).2.write
      (newLocalHeader nm).toBytes).2.write nm).1 = nm.length ∧
    ((((x.seek_file (x.store.bytes.length : Int)).2.write
      (newLocalHeader nm).toBytes).2.write nm).2.seek_file
        ((x.store.bytes.length + (sizeofLocal + nm.length) : Nat) : Int)).1
      = ((x.store.bytes.length + (sizeofLocal + nm.length) : Nat) : Int) ∧
    Ideal ((((x.seek_file (x.store.bytes.length : Int)).2.write
      (newLocalHeader nm).toBytes).2.write nm).2.seek_file
        ((x.store.bytes.length + (sizeofLocal + nm.length) : Nat) : Int)).2 ∧
    ((((x.seek_file (x.store.bytes.length : Int)).2.write
      (newLocalHeader nm).toBytes).2.write nm).2.seek_file
        ((x.store.bytes.length + (sizeofLocal + nm.length) : Nat) : Int)).2.store.bytes
      = x.store.bytes ++ (newLocalHeader nm).toBytes ++ nm ∧
    ((((x.seek_file (x.store.bytes.length : Int)).2.write
      (newLocalHeader nm).toBytes).2.write nm).2.seek_file
        ((x.store.bytes.length + (sizeofLocal + nm.length) : Nat) : Int)).2.store.cursor
      = x.store.bytes.length + (sizeofLocal + nm.length) := by
  have hm : maxOff = 2 ^ 63 - 1 := rfl
  have h30 : sizeofLocal = 30 := rfl
  have hw1 : writeAt x.store.bytes x.store.bytes.length (newLocalHeader nm).toBytes
      = x.store.bytes ++ (newLocalHeader nm).toBytes := writeAt_append_end _ _
  have hw2 : writeAt (x.store.bytes ++ (newLocalHeader nm).toBytes)
      (x.store.bytes.length + sizeofLocal) nm
      = x.store.bytes ++ (newLocalHeader nm).toBytes ++ nm := by
    have := writeAt_append_end (x.store.bytes ++ (newLocalHeader nm).toBytes) nm
    rwa [List.length_append, local_toBytes_length] at this
  simp only [zip_seek_file_ok, zip_write_if, hI.1, hI.2.1, hI.2.2, Nat.cast_nonneg,
    Int.toNat_ofNat, local_toBytes_ne_nil, hne, ne_eq, not_false_eq_true, not_true_eq_false,
    local_toBytes_length, hw1, hw2,
    show x.store.bytes.length + sizeofLocal ≤ maxOff by omega,
    show x.store.bytes.length + sizeofLocal + nm.length ≤ maxOff by omega, if_true,
    toSize_natCast (show sizeofLocal < 2 ^ 64 by omega),
    toSize_natCast (show nm.length < 2 ^ 64 by omega)]
  exact ⟨trivial, trivial, trivial, trivial, ⟨hI.1, rfl, rfl⟩, trivial, trivial⟩

/-- `new_entry` on a writable container, for a fresh non-empty name, the storage
accepting every call. -/
theorem new_entry_ideal (z : ZIPFile) (name : List Byte) (hI : Ideal z)
    (hw : z.can_write = true) (hfresh : z.entries.find (cstr name) = none)
    (hne : cstr name ≠ [])
    (hmax : z.close_current.store.bytes.length + (sizeofLocal + (cstr name).length) ≤ maxOff) :
    z.entry_start (cstr name) = (z.close_current.store.bytes.length : Int) ∧
    z.entry_payload (cstr name)
      = ((z.close_current.store.bytes.length + (sizeofLocal + (cstr name).length) : Nat) : Int) ∧
    (z.new_entry name).1 = some (cstr name) ∧
    StoreOnly (z.begin_entry (cstr name)) (z.new_entry name).2 ∧
    Ideal (z.new_entry name).2 ∧
    (z.new_entry name).2.store.bytes
      = z.close_current.store.bytes ++ (newLocalHeader (cstr name)).toBytes ++ cstr name ∧
    (z.new_entry name).2.store.cursor
      = z.close_current.store.bytes.length + (sizeofLocal + (cstr name).length) := by
  have hm : maxOff = 2 ^ 63 - 1 := rfl
  have hcc := close_current_ideal hI
  have hstart : z.entry_start (cstr name) = (z.close_current.store.bytes.length : Int) := by
    unfold ZIPFile.entry_start
    rw [zip_end_of_file_ok (by exact hcc.1) (by exact hcc.2.1)]
  have hpay : z.entry_payload (cstr name)
      = ((z.close_current.store.bytes.length + (sizeofLocal + (cstr name).length) : Nat) : Int) := by
    unfold ZIPFile.entry_payload
    rw [hstart, toSize_natCast (by omega), Nat.mod_eq_of_lt (by omega),
      wrapOff_id (by omega) (by omega)]
  have hbI : Ideal (z.begin_entry (cstr name)) ∧
      (z.begin_entry (cstr name)).store.bytes = z.close_current.store.bytes := by
    unfold ZIPFile.begin_entry
    rw [zip_end_of_file_ok (by exact hcc.1) (by exact hcc.2.1)]
    exact ⟨⟨hcc.1, hcc.2.1, hcc.2.2⟩, rfl⟩
  obtain ⟨hbI, hbb⟩ := hbI
  obtain ⟨s1, s2, s3, s4, s5, s6, s7⟩ := entry_header_steps (z.begin_entry (cstr name))
    (cstr name) hbI hne (by rw [hbb]; exact hmax)
  rw [hbb] at s1 s2 s3 s4 s5 s6 s7
  refine ⟨hstart, hpay, ?_⟩
  rw [new_entry_steps z name hI.1 hw hfresh hne, hstart, hpay, if_neg (by rw [s1]; simp),
    if_neg (by rw [s2]; simp), if_neg (by rw [s3]; simp), if_neg (by rw [s4]; simp)]
  exact ⟨rfl, storeOnly_trans (storeOnly_trans (storeOnly_trans
      (zip_seek_file_storeOnly _ _) (zip_write_storeOnly _ _)) (zip_write_storeOnly _ _))
      (zip_seek_file_storeOnly _ _), s5, s6, s7⟩

theorem close_current_keys (z : ZIPFile) :
    z.close_current.entries.map Prod.fst = z.entries.map Prod.fst := by
  by_cases hw : z.can_write = true
  · rcases close_current_cases z hw with ⟨ent, _, _, _, h⟩ | ⟨_, h⟩
    · rw [h]
      show (ZIPFile.patch_current _ _).entries.map Prod.fst = _
      rw [(patch_current_storeOnly _ _).2.2.2.2.2]
      exact keys_update _ _ _
    · rw [h]
  · have : z.close_current = z := by
      unfold ZIPFile.close_current
      rw [if_pos (by simpa using hw)]
    rw [this]

/-- `close_current` on a storage that accepts every call keeps the size of the file and
every byte outside the local header of the entry it finalizes. -/
theorem close_current_frame (z : ZIPFile) (hI : Ideal z)
    (hprev : ∀ e, z.get_entry z.current_entry = some e → 0 ≤ e.file_header_offset)
    (hmax : z.store.bytes.length ≤ maxOff) :
    z.close_current.store.bytes.length = z.store.bytes.length ∧
    ∀ i : Nat, (∀ e, z.get_entry z.current_entry = some e →
        (i : Int) < e.file_header_offset ∨ e.file_header_offset + sizeofLocal ≤ (i : Int)) →
      z.close_current.store.bytes[i]? = z.store.bytes[i]? := by
  by_cases hw : z.can_write = true
  · rcases close_current_cases z hw with ⟨ent, _, hg, _, h⟩ | ⟨_, h⟩
    · obtain ⟨f1, f2⟩ := patch_current_frame
        { z with
            entries := z.entries.update (cstr z.current_entry)
              (fun e => { e with can_write := false, can_extend := false }) }
        ent hI (hprev ent hg) hmax
      rw [h]
      exact ⟨f1, fun i hi => f2 i (hi ent hg)⟩
    · rw [h]
      exact ⟨rfl, fun _ _ => rfl⟩
  · have : z.close_current = z := by
      unfold ZIPFile.close_current
      rw [if_pos (by simpa using hw)]
    rw [this]
    exact ⟨rfl, fun _ _ => rfl⟩

theorem cstr_replicate (n : Nat) (b : Byte) (hb : b.val ≠ 0) :
    cstr (List.replicate n b) = List.replicate n b := by
  induction n with
  | zero => rfl
  | succ k ih => simp [List.replicate_succ, cstr, hb, ih]

/-- C13 as stated fails for a name of 65536 bytes: `new_entry` on a container just
opened read-write on an empty file succeeds, and the local header it writes at offset 0
stores the filename length 0 (the low 16 bits of 65536), not the length of the name. -/
theorem new_entry_name_length_wraps :
    cstr (List.replicate 65536 (0x41 : Byte)) ≠ [] ∧
    emptyRW.entries.find (cstr (List.replicate 65536 (0x41 : Byte))) = none ∧
    (emptyRW.new_entry (List.replicate 65536 (0x41 : Byte))).1
      = some (List.replicate 65536 (0x41 : Byte)) ∧
    rd16 (((emptyRW.new_entry (List.replicate 65536 (0x41 : Byte))).2.store.bytes.drop
      0).take sizeofLocal) 26 = 0 ∧
    (List.replicate 65536 (0x41 : Byte)).length = 65536 := by
  have hc : cstr (List.replicate 65536 (0x41 : Byte)) = List.replicate 65536 (0x41 : Byte) :=
    cstr_replicate _ _ (by decide)
  have hne : List.replicate 65536 (0x41 : Byte) ≠ [] := by
    intro h
    have := congrArg List.length h
    rw [List.length_replicate, List.length_nil] at this
    exact absurd this (by decide)
  have hcc : emptyRW.close_current = emptyRW := close_current_idle emptyRW [] emptyRW_idle
  have hb : emptyRW.store.bytes = [] := by decide
  have hfresh : emptyRW.entries.find (cstr (List.replicate 65536 (0x41 : Byte))) = none := by
    have : emptyRW.entries = [] := by decide
    rw [this]
    rfl
  obtain ⟨_, _, r1, _, _, r2, _⟩ := new_entry_ideal emptyRW (List.replicate 65536 (0x41 : Byte))
    emptyRW_idle.ideal emptyRW_idle.writable hfresh (by rw [hc]; exact hne) (by
      rw [hcc, hb, hc, List.length_replicate]
      decide)
  rw [hcc, hb, hc] at r2
  rw [hc] at r1
  refine ⟨by rw [hc]; exact hne, hfresh, r1, ?_, List.length_replicate _ _⟩
  rw [r2, List.drop_zero, List.nil_append, take_append_exact _ _ _ (local_toBytes_length _)]
  simp only [ZIPLocalFileHeader.toBytes, newLocalHeader, ZIPLocalFileHeader.zero,
    List.append_assoc, rd16_skip16, rd16_skip32, rd16_le16, List.length_replicate]
  decide

/-- C13, amended (names shorter than 65536 bytes): `new_entry` on a writable open
container with a file of `n` bytes, for a fresh non-empty name of fewer than 65536 bytes,
the storage accepting every call.  It returns the entry of that name, with
`file_header_offset = n`, `file_offset = n + 30 + length(name)`, `can_write = can_extend
= true` and a freshly initialized checksum, and makes it the active entry; the file has
grown to exactly `file_offset` bytes; the 30 bytes at `n` are a local header with
signature `0x04034b50`, version needed 20, flags 0, method 0, zero time and date, zero
checksum and sizes, filename length `length(name)` and zero extra length; the name bytes
follow; every byte below `n` outside the local header of the entry that was active
before is unchanged; and the descriptor is at `file_offset`. -/
theorem new_entry_layout (z : ZIPFile) (name : List Byte) (hI : Ideal z)
    (hw : z.can_write = true) (hfresh : z.entries.find (cstr name) = none)
    (hne : cstr name ≠ []) (hshort : (cstr name).length < 65536)
    (hprev : ∀ e, z.get_entry z.current_entry = some e → 0 ≤ e.file_header_offset)
    (hmax : z.store.bytes.length + (sizeofLocal + (cstr name).length) ≤ maxOff) :
    (z.new_entry name).1 = some (cstr name) ∧
    (∃ e, (z.new_entry name).2.entries.find (cstr name) = some e ∧
      e.file_header_offset = (z.store.bytes.length : Int) ∧
      e.file_offset = ((z.store.bytes.length + (sizeofLocal + (cstr name).length) : Nat) : Int) ∧
      e.can_write = true ∧ e.can_extend = true ∧ e.write_crc = zipcrc_init ∧
      e.name = cstr name) ∧
    (z.new_entry name).2.current_entry = cstr name ∧
    (z.new_entry name).2.store.bytes.length
      = z.store.bytes.length + (sizeofLocal + (cstr name).length) ∧
    ((z.new_entry name).2.store.bytes.drop z.store.bytes.length).take sizeofLocal
      = (⟨0x04034b50, 20, 0, 0, 0, 0, 0, 0, 0, (cstr name).length, 0⟩ :
          ZIPLocalFileHeader).toBytes ∧
    (z.new_entry name).2.store.bytes.drop (z.store.bytes.length + sizeofLocal) = cstr name ∧
    (∀ i : Nat, i < z.store.bytes.length →
      (∀ e, z.get_entry z.current_entry = some e →
        (i : Int) < e.file_header_offset ∨ e.file_header_offset + sizeofLocal ≤ (i : Int)) →
      (z.new_entry name).2.store.bytes[i]? = z.store.bytes[i]?) ∧
    (z.new_entry name).2.store.cursor
      = z.store.bytes.length + (sizeofLocal + (cstr name).length) := by
  have hm : maxOff = 2 ^ 63 - 1 := rfl
  obtain ⟨c1, c2⟩ := close_current_frame z hI hprev (by omega)
  obtain ⟨n1, n2, n3, n4, _, n6, n7⟩ := new_entry_ideal z name hI hw hfresh hne
    (by rw [c1]; exact hmax)
  obtain ⟨_, _, _, b4, b5, _⟩ := begin_entry_fields z (cstr name)
  rw [c1] at n1 n2 n7
  have hhdr : newLocalHeader (cstr name)
      = (⟨0x04034b50, 20, 0, 0, 0, 0, 0, 0, 0, (cstr name).length, 0⟩ : ZIPLocalFileHeader) := by
    simp only [newLocalHeader, ZIPLocalFileHeader.zero, toU16_natCast]
    rw [Nat.mod_eq_of_lt hshort]
  have hl := local_toBytes_length (newLocalHeader (cstr name))
  have hfind := b5
  rw [← n4.2.2.2.2.2] at hfind
  refine ⟨n3, ⟨_, hfind, n1, n2, rfl, rfl, rfl, rfl⟩, n4.2.2.2.1.trans b4, ?_, ?_, ?_, ?_, n7⟩
  · rw [n6]
    simp only [List.length_append, hl, c1]
    omega
  · rw [n6, List.append_assoc, drop_append_exact _ _ _ c1,
      take_append_exact _ _ _ hl, hhdr]
  · rw [n6, drop_append_exact _ _ _ (by rw [List.length_append, hl, c1])]
  · intro i hi hout
    rw [n6, List.append_assoc, List.getElem?_append_left (by rw [c1]; exact hi)]
    exact c2 i hout

set_option maxRecDepth 100000 in
/-- Witness of `new_entry_layout`: a second entry `A` on the sample container, whose
active entry `STATE.BIN` has its header at offset 0 and four bytes written; the new
header is at offset 43. -/
theorem new_entry_layout_witness :
    (sampleActive.new_entry [0x41]).1 = some [0x41] ∧
    (sampleActive.new_entry [0x41]).2.store.bytes.length = 74 ∧
    (sampleActive.new_entry [0x41]).2.store.cursor = 74 :=
  ⟨(new_entry_layout sampleActive [0x41] (by decide) (by decide) (by decide) (by decide)
      (by decide) (by decide) (by decide)).1,
   (new_entry_layout sampleActive [0x41] (by decide) (by decide) (by decide) (by decide)
      (by decide) (by decide) (by decide)).2.2.2.1.trans (by decide),
   (new_entry_layout sampleActive [0x41] (by decide) (by decide) (by decide) (by decide)
      (by decide) (by decide) (by decide)).2.2.2.2.2.2.2.trans (by decide)⟩

/-! ## Layout of the footer -/

/-- `writeZIPFooter` on a writable container whose trailer is not yet written, the
storage accepting every call: the central directory of the map and the end record are
appended to the file as `close_current` leaves it. -/
theorem writeZIPFooter_ideal (z : ZIPFile) (hI : Ideal z) (hw : z.can_write = true)
    (htr : z.wrote_trailer = false)
    (hnames : ∀ ke ∈ z.close_current.entries, ke.2.name ≠ [])
    (hmax : z.close_current.store.bytes.length
      + (dirBytes (directoryOf z.close_current.entries)).length + sizeofEnd ≤ maxOff) :
    z.writeZIPFooter.store.bytes = z.close_current.store.bytes ++
      dirBytes (directoryOf z.close_current.entries) ++
      (endRecord (z.close_current.entries.length % 2 ^ 32)
        ((dirBytes (directoryOf z.close_current.entries)).length % 2 ^ 32)
        (z.close_current.store.bytes.length : Int)).toBytes ∧
    Ideal z.writeZIPFooter := by
  have hm : maxOff = 2 ^ 63 - 1 := rfl
  have h22 : sizeofEnd = 22 := rfl
  have hcc := close_current_ideal hI
  have hg : ¬ (z.file_fd < 0 ∨ z.wrote_trailer = true ∨ z.can_write = false) := by
    simp [htr, hw, Int.not_lt.mpr hI.1]
  have hcd := write_central_directory_ideal z.close_current.entries 0 0
    { z.close_current with store := { z.close_current.store with
        cursor := z.close_current.store.bytes.length,
        log := StorageOp.seekEnd :: z.close_current.store.log } }
    hcc hnames (by decide) (by decide) rfl (by
      show z.close_current.store.bytes.length + _ ≤ maxOff
      omega)
  obtain ⟨c1, c2, c3, c4, c5, c6⟩ := hcd
  unfold ZIPFile.writeZIPFooter
  rw [if_neg hg]
  simp only [zip_end_of_file_ok hcc.1 hcc.2.1, c1, c2]
  have hwr := zip_write_ideal c3 (end_toBytes_ne_nil (endRecord
    ((0 + z.close_current.entries.length) % 2 ^ 32)
    ((0 + (dirBytes (directoryOf z.close_current.entries)).length) % 2 ^ 32)
    (z.close_current.store.bytes.length : Int))) (by
      rw [c5, end_toBytes_length]
      show z.close_current.store.bytes.length + _ + _ ≤ maxOff
      omega)
  rw [hwr]
  refine ⟨?_, ⟨c3.1, c3.2.1, c3.2.2⟩⟩
  show writeAt _ _ _ = _
  rw [c5, c4]
  have : z.close_current.store.bytes.length
      + (dirBytes (directoryOf z.close_current.entries)).length
      = (z.close_current.store.bytes
        ++ dirBytes (directoryOf z.close_current.entries)).length := by
    rw [List.length_append]
  show writeAt (z.close_current.store.bytes ++ _)
    (z.close_current.store.bytes.length + _) _ = _
  rw [this, writeAt_append_end]
  simp only [Nat.zero_add]

theorem hugeName_length : sampleHugeName.length = 4294967250 := List.length_replicate _ _

theorem hugeName_valid : ValidName sampleHugeName := by
  refine ⟨cstr_replicate _ _ (by decide), ?_⟩
  intro h
  have := congrArg List.length h
  rw [hugeName_length, List.length_nil] at this
  exact absurd this (by decide)

/-- The archive of a session that stores one entry with no payload. -/
theorem archive_single (nm : List Byte) (hv : ValidName nm)
    (hsize : sizeofLocal + nm.length + (sizeofCentral + nm.length) + sizeofEnd ≤ maxOff) :
    ∃ m : Entries, m.length = 1 ∧ (∀ ke ∈ m, ke.2.name = nm) ∧
      (blocks (streamsOf [(nm, [])])).length = sizeofLocal + nm.length ∧
      (dirBytes (directoryOf m)).length = sizeofCentral + nm.length ∧
      archiveOf [(nm, [])] = blocks (streamsOf [(nm, [])]) ++ dirBytes (directoryOf m) ++
        (endRecord (1 % 2 ^ 32) ((sizeofCentral + nm.length) % 2 ^ 32)
          ((sizeofLocal + nm.length : Nat) : Int)).toBytes := by
  have hs : streamsOf [(nm, ([] : List (List Byte)))] = [(nm, [])] := rfl
  have hbody : bodySize [(nm, ([] : List Byte))] = sizeofLocal + nm.length := by
    simp [bodySize]
  have hdir : dirSize [nm] = sizeofCentral + nm.length := by
    simp [dirSize]
  obtain ⟨m, _, _, hnode, hd, hlen, harch⟩ := archive_layout [(nm, [])]
    (by
      intro s hs1
      rw [List.mem_singleton] at hs1
      rw [hs1]
      exact hv)
    (by rw [hs]; simp)
    (by
      rw [hs]
      unfold archiveSize
      simp only [List.map_cons, List.map_nil]
      rw [hbody, hdir]
      exact hsize)
  rw [hs] at hnode hd hlen harch
  simp only [List.map_cons, List.map_nil, List.length_singleton] at hd hlen harch
  rw [hdir] at hd harch
  rw [blocks_length, hbody] at harch
  refine ⟨m, hlen, ?_, by rw [hs, blocks_length, hbody], hd, ?_⟩
  · intro ke hke
    obtain ⟨pre, p, post, h1, _, h3⟩ := hnode ke hke
    have hk : ke.1 = nm := by
      have hmem : (ke.1, p) ∈ [(nm, ([] : List Byte))] := by
        rw [h1]
        simp
      rw [List.mem_singleton] at hmem
      exact (Prod.mk.inj hmem).1
    rw [h3, ← hk]
    rfl
  · rw [harch, hlen, hs]

/-- C12 as stated fails: a session on an empty file that stores one entry with no
payload under a name of 4294967250 bytes leaves one entry (fewer than 2^16) in a file of
4294967280 bytes (fewer than 2^32) when the footer is written; the central directory
written has 2^32 bytes, its record stores the filename length 65490, and the end record
stores the central-directory size 0. -/
theorem footer_directory_size_wraps :
    ∃ m : Entries, m.length = 1 ∧
      (∀ ke ∈ m, ke.2.name.length = 4294967250 ∧
        (centralRecord ke.2).filename_length = 65490) ∧
      (blocks (streamsOf [(sampleHugeName, [])])).length = 4294967280 ∧
      (dirBytes (directoryOf m)).length = 4294967296 ∧
      archiveOf [(sampleHugeName, [])] = blocks (streamsOf [(sampleHugeName, [])]) ++
        dirBytes (directoryOf m) ++ (endRecord 1 0 4294967280).toBytes ∧
      (endRecord 1 0 4294967280).size_of_central_directory = 0 := by
  obtain ⟨m, h1, h2, h3, h4, h5⟩ := archive_single sampleHugeName hugeName_valid (by
    rw [hugeName_length]
    norm_num [sizeofLocal, sizeofCentral, sizeofEnd, maxOff])
  rw [hugeName_length] at h3 h4 h5
  have e0 : sizeofLocal + 4294967250 = 4294967280 := by norm_num [sizeofLocal]
  have e1 : (1 % 2 ^ 32 : Nat) = 1 := by norm_num
  have e2 : ((sizeofCentral + 4294967250) % 2 ^ 32 : Nat) = 0 := by norm_num [sizeofCentral]
  have e3 : sizeofCentral + 4294967250 = 4294967296 := by norm_num [sizeofCentral]
  rw [e1, e2, e0] at h5
  rw [e0] at h3
  rw [e3] at h4
  simp only [Nat.cast_ofNat] at h5
  refine ⟨m, h1, ?_, h3, h4, h5, rfl⟩
  intro ke hke
  have hn := h2 ke hke
  refine ⟨by rw [hn, hugeName_length], ?_⟩
  have : (centralRecord ke.2).filename_length = toU16 ((ke.2.name.length : Nat) : Int) := rfl
  rw [this, hn, hugeName_length, toU16_natCast]

theorem directoryOf_update (m : Entries) (k : List Byte) (f : ZIPFileEntry → ZIPFileEntry)
    (hf : ∀ e, centralRecord (f e) = centralRecord e ∧ (f e).name = e.name) :
    directoryOf (m.update k f) = directoryOf m := by
  induction m with
  | nil => rfl
  | cons a t ih =>
    obtain ⟨k1, v1⟩ := a
    unfold Entries.update
    split
    · simp only [directoryOf, List.map_cons, (hf v1).1, (hf v1).2]
    · simp only [directoryOf, List.map_cons, List.cons.injEq, true_and]
      exact ih

/-- The central directory `writeZIPFooter` emits does not depend on the flags
`close_current` clears. -/
theorem directoryOf_close_current (z : ZIPFile) :
    directoryOf z.close_current.entries = directoryOf z.entries := by
  by_cases hw : z.can_write = true
  · rcases close_current_cases z hw with ⟨ent, _, _, _, h⟩ | ⟨_, h⟩
    · rw [h]
      show directoryOf (ZIPFile.patch_current _ _).entries = _
      rw [(patch_current_storeOnly _ _).2.2.2.2.2]
      exact directoryOf_update _ _ _ (fun e => ⟨rfl, rfl⟩)
    · rw [h]
  · have : z.close_current = z := by
      unfold ZIPFile.close_current
      rw [if_pos (by simpa using hw)]
    rw [this]

theorem dirBytes_directoryOf (m : Entries) :
    dirBytes (directoryOf m)
      = (m.map (fun ke => (centralRecord ke.2).toBytes ++ ke.2.name)).flatten := by
  induction m with
  | nil => rfl
  | cons a t ih =>
    have : directoryOf (a :: t) = ((centralRecord a.2).toBytes, a.2.name) :: directoryOf t := rfl
    rw [this]
    simp only [dirBytes, List.map_cons, List.flatten_cons, ih, List.append_assoc]

theorem directory_length_names (m : Entries) :
    (dirBytes (directoryOf m)).length
      = (m.map (fun ke => sizeofCentral + ke.2.name.length)).sum := by
  induction m with
  | nil => rfl
  | cons a t ih =>
    have : directoryOf (a :: t) = ((centralRecord a.2).toBytes, a.2.name) :: directoryOf t := rfl
    rw [this]
    simp only [dirBytes, List.length_append, central_toBytes_length, ih, List.map_cons,
      List.sum_cons]

theorem directoryOf_length (m : Entries) : (directoryOf m).length = m.length := by
  simp [directoryOf]

theorem directoryOf_names (m : Entries) :
    (directoryOf m).map Prod.snd = m.map (fun ke => ke.2.name) := by
  simp [directoryOf]

/-- The central-directory record of an entry whose fields fit the widths of the
record. -/
theorem centralRecord_explicit (e : ZIPFileEntry) (hn : e.name.length < 2 ^ 16)
    (hl0 : 0 ≤ e.file_length) (hl : e.file_length < 2 ^ 32) (ho0 : 0 ≤ e.file_header_offset)
    (ho : e.file_header_offset < 2 ^ 32) (hc : e.write_crc < 2 ^ 32) :
    centralRecord e =
      { sig := PKZIP_CENTRAL_DIRECTORY_HEADER_SIG
        version_made_by := 20
        version_needed_to_extract := 20
        general_purpose_bit_flag := 0
        compression_method := 0
        last_mod_file_time := 0
        last_mod_file_date := 0
        crc32 := zipcrc_finalize e.write_crc
        compressed_size := e.file_length.toNat
        uncompressed_size := e.file_length.toNat
        filename_length := e.name.length
        extra_field_length := 0
        file_comment_length := 0
        disk_number_start := 1
        internal_file_attributes := 0
        external_file_attributes := 0
        relative_offset_of_local_header := e.file_header_offset.toNat } := by
  have h1 : toU32 e.file_length = e.file_length.toNat := by
    unfold toU32
    rw [Int.emod_eq_of_lt hl0 (by omega)]
  have h2 : toU32 e.file_header_offset = e.file_header_offset.toNat := by
    unfold toU32
    rw [Int.emod_eq_of_lt ho0 (by omega)]
  have h3 : toU16 ((e.name.length : Nat) : Int) = e.name.length := by
    rw [toU16_natCast]
    exact Nat.mod_eq_of_lt hn
  have h4 : toU32 ((zipcrc_finalize e.write_crc : Nat) : Int) = zipcrc_finalize e.write_crc := by
    rw [toU32_natCast]
    exact Nat.mod_eq_of_lt hc
  unfold centralRecord pkzip_central_directory_header_main.zero
  simp only [h1, h2, h3, h4]

/-- The bytes `writeZIPFooter` appends on a writable open container whose trailer is not
yet written, with fewer than 2^16 entries, each with a non-empty name and with name
length, length, header offset and checksum inside the widths of the record fields, a
file below 2^32 bytes once the active entry is finalized and a central directory below
2^32 bytes, the storage accepting every byte: for each node of the map, in the order of
the nodes, one central-directory record and the filename bytes, then the end record. -/
theorem footer_bytes (z : ZIPFile) (hI : Ideal z) (hw : z.can_write = true)
    (htr : z.wrote_trailer = false) (hn : z.entries.length < 2 ^ 16)
    (hs : z.close_current.store.bytes.length < 2 ^ 32)
    (hd : (z.entries.map (fun ke => sizeofCentral + ke.2.name.length)).sum < 2 ^ 32)
    (hent : ∀ ke ∈ z.entries, ke.2.name ≠ [] ∧ ke.2.name.length < 2 ^ 16 ∧
      0 ≤ ke.2.file_length ∧ ke.2.file_length < 2 ^ 32 ∧ 0 ≤ ke.2.file_header_offset ∧
      ke.2.file_header_offset < 2 ^ 32 ∧ ke.2.write_crc < 2 ^ 32) :
    z.writeZIPFooter.store.bytes = z.close_current.store.bytes ++
      (z.entries.map (fun ke =>
        ({ sig := PKZIP_CENTRAL_DIRECTORY_HEADER_SIG
           version_made_by := 20
           version_needed_to_extract := 20
           general_purpose_bit_flag := 0
           compression_method := 0
           last_mod_file_time := 0
           last_mod_file_date := 0
           crc32 := zipcrc_finalize ke.2.write_crc
           compressed_size := ke.2.file_length.toNat
           uncompressed_size := ke.2.file_length.toNat
           filename_length := ke.2.name.length
           extra_field_length := 0
           file_comment_length := 0
           disk_number_start := 1
           internal_file_attributes := 0
           external_file_attributes := 0
           relative_offset_of_local_header := ke.2.file_header_offset.toNat } :
          pkzip_central_directory_header_main).toBytes ++ ke.2.name)).flatten ++
      ({ sig := PKZIP_CENTRAL_DIRECTORY_END_SIG
         number_of_this_disk := 0
         number_of_disk_with_start_of_central_directory := 0
         total_number_of_entries_of_central_dir_on_this_disk := z.entries.length
         total_number_of_entries_of_central_dir := z.entries.length
         size_of_central_directory :=
           (z.entries.map (fun ke => sizeofCentral + ke.2.name.length)).sum
         offset_of_central_directory_from_start_disk := z.close_current.store.bytes.length
         zipfile_comment_length := 0 } : pkzip_central_directory_header_end).toBytes ∧
    z.writeZIPFooter.wrote_trailer = true ∧ z.writeZIPFooter.current_entry = [] := by
  have hm : maxOff = 2 ^ 63 - 1 := rfl
  have h22 : sizeofEnd = 22 := rfl
  have hdir := directoryOf_close_current z
  have hlen : z.close_current.entries.length = z.entries.length := by
    rw [← directoryOf_length, hdir, directoryOf_length]
  have hnames : ∀ ke ∈ z.close_current.entries, ke.2.name ≠ [] := by
    intro ke hke
    have h1 : ke.2.name ∈ (directoryOf z.close_current.entries).map Prod.snd := by
      rw [directoryOf_names]
      exact List.mem_map_of_mem (fun ke => ke.2.name) hke
    rw [hdir, directoryOf_names] at h1
    obtain ⟨ke0, hke0, heq⟩ := List.mem_map.mp h1
    rw [← heq]
    exact (hent ke0 hke0).1
  have hdl := directory_length_names z.entries
  obtain ⟨f1, _⟩ := writeZIPFooter_ideal z hI hw htr hnames (by
    rw [hdir, hdl]
    omega)
  obtain ⟨_, _, g3, g4, _⟩ := writeZIPFooter_fields z
    (by simp [htr, hw, Int.not_lt.mpr hI.1])
  have hrecs : dirBytes (directoryOf z.entries) = (z.entries.map (fun ke =>
        ({ sig := PKZIP_CENTRAL_DIRECTORY_HEADER_SIG
           version_made_by := 20
           version_needed_to_extract := 20
           general_purpose_bit_flag := 0
           compression_method := 0
           last_mod_file_time := 0
           last_mod_file_date := 0
           crc32 := zipcrc_finalize ke.2.write_crc
           compressed_size := ke.2.file_length.toNat
           uncompressed_size := ke.2.file_length.toNat
           filename_length := ke.2.name.length
           extra_field_length := 0
           file_comment_length := 0
           disk_number_start := 1
           internal_file_attributes := 0
           external_file_attributes := 0
           relative_offset_of_local_header := ke.2.file_header_offset.toNat } :
          pkzip_central_directory_header_main).toBytes ++ ke.2.name)).flatten := by
    rw [dirBytes_directoryOf]
    apply congrArg List.flatten
    apply List.map_congr_left
    intro ke hke
    obtain ⟨_, a, b, c, d, e, f⟩ := hent ke hke
    rw [centralRecord_explicit ke.2 a b c d e f]
  have hend : endRecord z.entries.length
      (z.entries.map (fun ke => sizeofCentral + ke.2.name.length)).sum
      (z.close_current.store.bytes.length : Int) =
      ({ sig := PKZIP_CENTRAL_DIRECTORY_END_SIG
         number_of_this_disk := 0
         number_of_disk_with_start_of_central_directory := 0
         total_number_of_entries_of_central_dir_on_this_disk := z.entries.length
         total_number_of_entries_of_central_dir := z.entries.length
         size_of_central_directory :=
           (z.entries.map (fun ke => sizeofCentral + ke.2.name.length)).sum
         offset_of_central_directory_from_start_disk := z.close_current.store.bytes.length
         zipfile_comment_length := 0 } : pkzip_central_directory_header_end) := by
    have e1 : toU16 ((z.entries.length : Nat) : Int) = z.entries.length := by
      rw [toU16_natCast]
      exact Nat.mod_eq_of_lt hn
    have e2 : toU32 ((z.close_current.store.bytes.length : Nat) : Int)
        = z.close_current.store.bytes.length := by
      rw [toU32_natCast]
      exact Nat.mod_eq_of_lt hs
    unfold endRecord pkzip_central_directory_header_end.zero
    simp only [e1, e2]
  refine ⟨?_, g3, g4⟩
  rw [f1, hdir, hlen, hdl, Nat.mod_eq_of_lt (by omega : z.entries.length < 2 ^ 32),
    Nat.mod_eq_of_lt hd, hrecs, hend]

/-! ## The trailer flag -/

/-- What `new_entry` never touches, whatever the storage does. -/
theorem new_entry_fields (z : ZIPFile) (name : List Byte) :
    (z.new_entry name).2.file_fd = z.file_fd ∧ (z.new_entry name).2.can_write = z.can_write ∧
    (z.new_entry name).2.wrote_trailer = z.wrote_trailer := by
  by_cases hg : z.file_fd < 0 ∨ z.can_write = false ∨
      (z.entries.find (cstr name)).isSome = true ∨ cstr name = []
  · have : z.new_entry name = (none, z) := by
      unfold ZIPFile.new_entry
      by_cases h1 : z.file_fd < 0 ∨ z.can_write = false
      · rw [if_pos h1]
      · rw [if_neg h1]
        by_cases h2 : (z.entries.find (cstr name)).isSome = true
        · rw [if_pos h2]
        · rw [if_neg h2]
          have h3 : cstr name = [] := by
            rcases hg with hg | hg | hg | hg
            · exact absurd (Or.inl hg) h1
            · exact absurd (Or.inr hg) h1
            · exact absurd hg h2
            · exact hg
          rw [if_pos h3]
    rw [this]
    exact ⟨rfl, rfl, rfl⟩
  · simp only [not_or] at hg
    obtain ⟨g1, g2, g3, g4⟩ := hg
    have hfd : 0 ≤ z.file_fd := by omega
    have hw : z.can_write = true := by simpa using g2
    have hfresh : z.entries.find (cstr name) = none := by simpa using g3
    obtain ⟨b1, b2, b3, _, _, _⟩ := begin_entry_fields z (cstr name)
    have st : ∀ x, StoreOnly (z.begin_entry (cstr name)) x →
        x.file_fd = z.file_fd ∧ x.can_write = z.can_write ∧
        x.wrote_trailer = z.wrote_trailer :=
      fun x hx => ⟨hx.1.trans b1, hx.2.1.trans b2, hx.2.2.1.trans b3⟩
    have cc : ∀ x, StoreOnly (z.begin_entry (cstr name)) x →
        x.close_current.file_fd = z.file_fd ∧ x.close_current.can_write = z.can_write ∧
        x.close_current.wrote_trailer = z.wrote_trailer := by
      intro x hx
      obtain ⟨c1, c2, c3, _⟩ := close_current_fields x
      obtain ⟨x1, x2, x3⟩ := st x hx
      exact ⟨c1.trans x1, c2.trans x2, c3.trans x3⟩
    rw [new_entry_steps z name hfd hw hfresh g4]
    refine ite_pred (fun r : Option (List Byte) × ZIPFile =>
      r.2.file_fd = z.file_fd ∧ r.2.can_write = z.can_write ∧
        r.2.wrote_trailer = z.wrote_trailer)
      (cc _ (zip_seek_file_storeOnly _ _)) ?_
    refine ite_pred (fun r : Option (List Byte) × ZIPFile =>
      r.2.file_fd = z.file_fd ∧ r.2.can_write = z.can_write ∧
        r.2.wrote_trailer = z.wrote_trailer)
      (cc _ (storeOnly_trans (zip_seek_file_storeOnly _ _) (zip_write_storeOnly _ _))) ?_
    refine ite_pred (fun r : Option (List Byte) × ZIPFile =>
      r.2.file_fd = z.file_fd ∧ r.2.can_write = z.can_write ∧
        r.2.wrote_trailer = z.wrote_trailer)
      (cc _ (storeOnly_trans (storeOnly_trans (zip_seek_file_storeOnly _ _)
        (zip_write_storeOnly _ _)) (zip_write_storeOnly _ _))) ?_
    refine ite_pred (fun r : Option (List Byte) × ZIPFile =>
      r.2.file_fd = z.file_fd ∧ r.2.can_write = z.can_write ∧
        r.2.wrote_trailer = z.wrote_trailer)
      (cc _ (storeOnly_trans (storeOnly_trans (storeOnly_trans
        (zip_seek_file_storeOnly _ _) (zip_write_storeOnly _ _)) (zip_write_storeOnly _ _))
        (zip_seek_file_storeOnly _ _))) ?_
    exact st _ (storeOnly_trans (storeOnly_trans (storeOnly_trans
        (zip_seek_file_storeOnly _ _) (zip_write_storeOnly _ _)) (zip_write_storeOnly _ _))
        (zip_seek_file_storeOnly _ _))

/-- No call of a session clears the trailer flag. -/
theorem wrote_trailer_call {z : ZIPFile} (h : z.wrote_trailer = true) (c : Call) :
    (z.call c).wrote_trailer = true := by
  cases c with
  | new_entry name => exact (new_entry_fields z name).2.2.trans h
  | close_current => exact (close_current_fields z).2.2.1.trans h
  | writeZIPFooter =>
    show z.writeZIPFooter.wrote_trailer = true
    unfold ZIPFile.writeZIPFooter
    rw [if_pos (Or.inr (Or.inl h))]
    exact h
  | close =>
    show z.close.wrote_trailer = true
    unfold ZIPFile.close
    split <;> exact h
  | get_entry name => exact h
  | entry_seek name pos =>
    show (z.entry_seek name pos).2.wrote_trailer = true
    unfold ZIPFile.entry_seek
    cases z.entries.find name with
    | none => exact h
    | some e => exact (entry_seek_frame e z pos).2.1.2.2.1.trans h
  | entry_read name count =>
    show (z.entry_read name count).2.2.wrote_trailer = true
    unfold ZIPFile.entry_read
    cases z.entries.find name with
    | none => exact h
    | some e => exact (entry_read_frame e z count).2.1.2.2.1.trans h
  | entry_write name buffer count =>
    show (z.entry_write name buffer count).2.wrote_trailer = true
    unfold ZIPFile.entry_write
    cases z.entries.find name with
    | none => exact h
    | some e => exact (entry_write_frame e z buffer count).2.2.2.1.trans h

theorem wrote_trailer_run (calls : List Call) :
    ∀ z : ZIPFile, z.wrote_trailer = true → (z.run calls).wrote_trailer = true := by
  induction calls with
  | nil => intro z h; exact h
  | cons c t ih => intro z h; exact ih _ (wrote_trailer_call h c)

/-- `writeZIPFooter` once the trailer flag is set, source line 324. -/
theorem writeZIPFooter_again {z : ZIPFile} (h : z.wrote_trailer = true) :
    z.writeZIPFooter = z := by
  unfold ZIPFile.writeZIPFooter
  rw [if_pos (Or.inr (Or.inl h))]

theorem close_current_names (z : ZIPFile) (h : ∀ ke ∈ z.entries, ke.2.name ≠ []) :
    ∀ ke ∈ z.close_current.entries, ke.2.name ≠ [] := by
  intro ke hke
  have h1 : ke.2.name ∈ (directoryOf z.close_current.entries).map Prod.snd := by
    rw [directoryOf_names]
    exact List.mem_map_of_mem (fun ke => ke.2.name) hke
  rw [directoryOf_close_current, directoryOf_names] at h1
  obtain ⟨ke0, hke0, heq⟩ := List.mem_map.mp h1
  rw [← heq]
  exact h ke0 hke0

/-- C20: on a writable open container in a state of a session (`WriterInv`), the storage
accepting every call, after `writeZIPFooter` has written the central directory and the
end record at the end of the file, `new_entry` with a fresh non-empty name still returns
an entry; its local header is placed at the end of the end record (the size of the file
after `writeZIPFooter`), so the file grows and the end record is no longer its end; no
record of the central directory written carries the new name; and after any further
calls of the session `writeZIPFooter` changes nothing, the file bytes included. -/
theorem trailer_does_not_seal (z : ZIPFile) (name : List Byte) (calls : List Call)
    (hI : Ideal z) (hw : z.can_write = true) (htr : z.wrote_trailer = false)
    (hinv : WriterInv z) (hfresh : z.entries.find (cstr name) = none)
    (hne : cstr name ≠ [])
    (hmax : z.close_current.store.bytes.length + (dirBytes (directoryOf z.entries)).length
      + sizeofEnd + (sizeofLocal + (cstr name).length) ≤ maxOff) :
    z.writeZIPFooter.store.bytes = z.close_current.store.bytes ++
      dirBytes (directoryOf z.entries) ++
      (endRecord (z.entries.length % 2 ^ 32)
        ((dirBytes (directoryOf z.entries)).length % 2 ^ 32)
        (z.close_current.store.bytes.length : Int)).toBytes ∧
    (z.writeZIPFooter.new_entry name).1 = some (cstr name) ∧
    (∃ e, (z.writeZIPFooter.new_entry name).2.entries.find (cstr name) = some e ∧
      e.file_header_offset = (z.writeZIPFooter.store.bytes.length : Int)) ∧
    (z.writeZIPFooter.new_entry name).2.store.bytes = z.writeZIPFooter.store.bytes ++
      (newLocalHeader (cstr name)).toBytes ++ cstr name ∧
    z.writeZIPFooter.store.bytes.length
      < (z.writeZIPFooter.new_entry name).2.store.bytes.length ∧
    (∀ r ∈ directoryOf z.entries, r.2 ≠ cstr name) ∧
    ((z.writeZIPFooter.new_entry name).2.run calls).writeZIPFooter
      = (z.writeZIPFooter.new_entry name).2.run calls := by
  obtain ⟨hnd, _, _, hent⟩ := hinv
  have hdir := directoryOf_close_current z
  have hlen : z.close_current.entries.length = z.entries.length := by
    rw [← directoryOf_length, hdir, directoryOf_length]
  have hnames : ∀ ke ∈ z.entries, ke.2.name = ke.1 ∧ ke.1 ≠ [] := by
    intro ke hke
    obtain ⟨a, _, c, _⟩ := hent ke.1 ke.2 (find_of_mem _ hnd _ _ hke)
    exact ⟨c, a⟩
  obtain ⟨f1, f2⟩ := writeZIPFooter_ideal z hI hw htr
    (close_current_names z (fun ke hke => by
      rw [(hnames ke hke).1]
      exact (hnames ke hke).2))
    (by rw [hdir]; omega)
  rw [hdir, hlen] at f1
  obtain ⟨_, g2, g3, g4, g5⟩ := writeZIPFooter_fields z
    (by simp [htr, hw, Int.not_lt.mpr hI.1])
  have hcc : z.writeZIPFooter.close_current.store.bytes = z.writeZIPFooter.store.bytes := by
    rw [close_current_skip z.writeZIPFooter (g2.trans hw) (Or.inl g4)]
  have hfresh1 : z.writeZIPFooter.entries.find (cstr name) = none := by
    rw [find_none_iff, g5, close_current_keys, ← find_none_iff]
    exact hfresh
  have hsz : z.writeZIPFooter.store.bytes.length = z.close_current.store.bytes.length
      + (dirBytes (directoryOf z.entries)).length + sizeofEnd := by
    rw [f1]
    simp only [List.length_append, end_toBytes_length]
  obtain ⟨n1, _, n3, n4, _, n6, _⟩ := new_entry_ideal z.writeZIPFooter name f2 (g2.trans hw)
    hfresh1 hne (by rw [hcc, hsz]; exact hmax)
  rw [hcc] at n1 n6
  obtain ⟨_, _, b3, _, b5, _⟩ := begin_entry_fields z.writeZIPFooter (cstr name)
  have hfind := b5
  rw [← n4.2.2.2.2.2] at hfind
  have htr2 : (z.writeZIPFooter.new_entry name).2.wrote_trailer = true :=
    (n4.2.2.1.trans b3).trans g3
  refine ⟨f1, n3, ⟨_, hfind, n1⟩, n6, ?_, ?_, writeZIPFooter_again (wrote_trailer_run calls _ htr2)⟩
  · rw [n6]
    simp only [List.length_append, local_toBytes_length, sizeofLocal]
    omega
  · intro r hr hrn
    obtain ⟨ke, hke, rfl⟩ := List.mem_map.mp hr
    have hk : ke.1 = cstr name := by
      rw [← (hnames ke hke).1]
      exact hrn
    have hmem : cstr name ∈ z.entries.map Prod.fst := by
      rw [← hk]
      exact List.mem_map_of_mem Prod.fst hke
    exact (find_none_iff _ _).mp hfresh hmem

set_option maxRecDepth 100000 in
/-- Witness of `trailer_does_not_seal`: the sample container; after the footer (file of
120 bytes) the entry `A` gets its header at offset 120, and a second `writeZIPFooter`
after a write to `A` changes nothing. -/
theorem trailer_does_not_seal_witness :
    sampleActive.writeZIPFooter.store.bytes.length = 120 ∧
    (sampleActive.writeZIPFooter.new_entry [0x41]).1 = some [0x41] ∧
    (((sampleActive.writeZIPFooter.new_entry [0x41]).2.run
        [Call.entry_write [0x41] [7] 1]).writeZIPFooter
      = (sampleActive.writeZIPFooter.new_entry [0x41]).2.run [Call.entry_write [0x41] [7] 1]) :=
  ⟨by decide,
    (trailer_does_not_seal sampleActive [0x41] [Call.entry_write [0x41] [7] 1] (by decide)
      (by decide) (by decide)
      (writerInv_run [Call.new_entry stateBin, Call.entry_write stateBin [1, 2, 3, 4] 4] _
        (writerInv_open (show cstr ZIPFile.init.current_entry = ZIPFile.init.current_entry
          from rfl) (some (Storage.ofBytes [])) O_RDWR))
      (by decide) (by decide) (by decide)).2.1,
    (trailer_does_not_seal sampleActive [0x41] [Call.entry_write [0x41] [7] 1] (by decide)
      (by decide) (by decide)
      (writerInv_run [Call.new_entry stateBin, Call.entry_write stateBin [1, 2, 3, 4] 4] _
        (writerInv_open (show cstr ZIPFile.init.current_entry = ZIPFile.init.current_entry
          from rfl) (some (Storage.ofBytes [])) O_RDWR))
      (by decide) (by decide) (by decide)).2.2.2.2.2.2⟩

/-! ## Append-only layout -/

theorem update_same (m : Entries) (k : List Byte) (e : ZIPFileEntry)
    (h : m.find k = some e) : m.update k (fun _ => e) = m := by
  induction m with
  | nil => rfl
  | cons a t ih =>
    obtain ⟨k1, v1⟩ := a
    unfold Entries.update
    by_cases hk : k = k1
    · rw [if_pos hk]
      simp only [Entries.find, hk, if_true, Option.some.injEq] at h
      rw [h]
    · rw [if_neg hk]
      simp only [Entries.find, hk, if_false] at h
      rw [ih h]

theorem new_entry_cstr (z : ZIPFile) (name : List Byte) :
    z.new_entry name = z.new_entry (cstr name) := by
  unfold ZIPFile.new_entry
  rw [cstr_idem]

theorem entry_write_take (e : ZIPFileEntry) (c : ZIPFile) (buffer : List Byte) (count : Nat)
    (h : count ≤ buffer.length) :
    e.write c buffer count = e.write c (buffer.take count) (buffer.take count).length := by
  have hl : (buffer.take count).length = count := by
    rw [List.length_take]
    omega
  have ht : ∀ m, m ≤ count → (buffer.take count).take m = buffer.take m := by
    intro m hm
    rw [List.take_take, Nat.min_eq_left hm]
  unfold ZIPFileEntry.write
  rw [hl]
  by_cases hx : e.can_extend = true
  · simp only [hx, if_true, ht count (Nat.le_refl _)]
  · have hx2 : e.can_extend = false := by simpa using hx
    have hle : (if toSize (e.file_length - e.position) > count then count
        else toSize (e.file_length - e.position)) ≤ count := by
      split <;> omega
    simp only [hx2, Bool.false_eq_true, if_false, ht _ hle, ht count (Nat.le_refl _)]

theorem ready_size {z : ZIPFile} {done : List Stream} (h : Ready z done) :
    z.store.bytes.length = (blocks done).length := by
  rcases h with h | ⟨pre, n, p, hd, h⟩
  · rw [h.bytes]
  · rw [active_bytes_length h, hd, blocks_length_append, blocks_single_length]
    simp only
    omega

theorem ready_ideal {z : ZIPFile} {done : List Stream} (h : Ready z done) : Ideal z := by
  rcases h with h | ⟨_, _, _, _, h⟩
  · exact h.ideal
  · exact h.ideal

/-- The entries of a writer are those of its streams, up to the flags of the open
stream. -/
theorem ready_find {z : ZIPFile} {done : List Stream} (h : Ready z done) (k : List Byte)
    (e : ZIPFileEntry) (hf : z.entries.find k = some e) :
    ∃ e1, specFind 0 done k = some e1 ∧ e.file_header_offset = e1.file_header_offset ∧
      e.file_offset = e1.file_offset ∧ e.file_length = e1.file_length ∧ e.name = e1.name ∧
      e.position = e1.position ∧
      (e.can_extend = true → e.file_offset + e.file_length = (z.store.bytes.length : Int)) := by
  rcases h with h | ⟨pre, n, p, hd, h⟩
  · rw [h.find k] at hf
    refine ⟨e, hf, rfl, rfl, rfl, rfl, rfl, ?_⟩
    obtain ⟨_, _, _, _, _, he⟩ := specFind_some _ _ _ _ hf
    intro hx
    rw [he] at hx
    exact absurd hx (by simp [finalEntry])
  · rw [h.find k] at hf
    by_cases hk : k = n
    · rw [if_pos hk] at hf
      simp only [Option.some.injEq] at hf
      refine ⟨finalEntry (blocks pre).length n p, ?_, ?_, ?_, ?_, ?_, ?_, ?_⟩
      · rw [hd, hk, specFind_append_none _ _ _ _ h.fresh]
        simp [specFind]
      · rw [← hf]; rfl
      · rw [← hf]; rfl
      · rw [← hf]; rfl
      · rw [← hf]; rfl
      · rw [← hf]; rfl
      · intro _
        rw [← hf, active_bytes_length h]
        simp only [activeEntry]
        push_cast
        omega
    · rw [if_neg hk] at hf
      refine ⟨e, ?_, rfl, rfl, rfl, rfl, rfl, ?_⟩
      · rw [hd]
        exact specFind_append_some _ _ _ _ _ hf
      · obtain ⟨_, _, _, _, _, he⟩ := specFind_some _ _ _ _ hf
        intro hx
        rw [he] at hx
        exact absurd hx (by simp [finalEntry])

/-- Place of the entry of a stream of a session. -/
theorem specFind_layout (l : List Stream) (k : List Byte) :
    ∀ (off : Nat) (e : ZIPFileEntry), specFind off l k = some e →
      e.file_offset = e.file_header_offset + sizeofLocal + e.name.length ∧
      e.position = e.file_length ∧ (off : Int) ≤ e.file_header_offset ∧
      e.file_offset + e.file_length ≤ ((off + (blocks l).length : Nat) : Int) := by
  intro off e h
  obtain ⟨pre, p, post, hl, _, he⟩ := specFind_some _ _ _ _ h
  rw [he, hl, blocks_append]
  simp only [finalEntry, activeEntry, blocks, List.length_append, block_length]
  push_cast
  refine ⟨by omega, trivial, by omega, by omega⟩

/-- The entries of two streams of a session occupy disjoint ranges of the file. -/
theorem specFind_disjoint (l : List Stream) (k1 k2 : List Byte) (hk : k1 ≠ k2) :
    ∀ (off : Nat) (e1 e2 : ZIPFileEntry), specFind off l k1 = some e1 →
      specFind off l k2 = some e2 →
      e1.file_offset + e1.file_length ≤ e2.file_header_offset ∨
      e2.file_offset + e2.file_length ≤ e1.file_header_offset := by
  induction l with
  | nil => intro off e1 e2 h1; simp [specFind] at h1
  | cons s t ih =>
    intro off e1 e2 h1 h2
    simp only [specFind] at h1 h2
    by_cases a1 : k1 = s.1
    · have a2 : k2 ≠ s.1 := fun h => hk (a1.trans h.symm)
      rw [if_pos a1] at h1
      rw [if_neg a2] at h2
      simp only [Option.some.injEq] at h1
      obtain ⟨_, _, lo, _⟩ := specFind_layout _ _ _ _ h2
      left
      rw [← h1]
      simp only [finalEntry, activeEntry]
      rw [block_length] at lo
      push_cast at lo ⊢
      omega
    · rw [if_neg a1] at h1
      by_cases a2 : k2 = s.1
      · rw [if_pos a2] at h2
        simp only [Option.some.injEq] at h2
        obtain ⟨_, _, lo, _⟩ := specFind_layout _ _ _ _ h1
        right
        rw [← h2]
        simp only [finalEntry, activeEntry]
        rw [block_length] at lo
        push_cast at lo ⊢
        omega
      · rw [if_neg a2] at h2
        exact ih _ _ _ h1 h2

/-- A `write` through the pointer to an entry that is not writable changes nothing. -/
theorem entry_write_final (z : ZIPFile) (k : List Byte) (e : ZIPFileEntry)
    (buffer : List Byte) (count : Nat) (hf : z.entries.find k = some e)
    (hw : e.can_write = false) : (z.entry_write k buffer count).2 = z := by
  have he : e.write z buffer count = (-1, e, z) := by
    unfold ZIPFileEntry.write
    rw [if_pos (Or.inr (Or.inr hw))]
  unfold ZIPFile.entry_write
  simp only [hf, he, update_same _ _ _ hf]

theorem specFind_final (l : List Stream) (k : List Byte) (off : Nat) (e : ZIPFileEntry)
    (h : specFind off l k = some e) : e.can_write = false := by
  obtain ⟨_, _, _, _, _, he⟩ := specFind_some _ _ _ _ h
  rw [he]
  rfl

/-- One call of an appending session on a writer. -/
theorem ready_call {z : ZIPFile} {done : List Stream} (h : Ready z done) (c : Call)
    (hc : c.isAppend = true) (hmax : z.store.bytes.length + c.growth ≤ maxOff) :
    ∃ done1, Ready (z.call c) done1 ∧
      (z.call c).store.bytes.length ≤ z.store.bytes.length + c.growth := by
  have hsz := ready_size h
  have hm : maxOff = 2 ^ 63 - 1 := rfl
  cases c with
  | new_entry name =>
    show ∃ done1, Ready (z.new_entry name).2 done1 ∧
      (z.new_entry name).2.store.bytes.length
        ≤ z.store.bytes.length + (sizeofLocal + (cstr name).length)
    by_cases hg : (z.entries.find (cstr name)).isSome = true ∨ cstr name = []
    · have : z.new_entry name = (none, z) := by
        unfold ZIPFile.new_entry
        by_cases h1 : z.file_fd < 0 ∨ z.can_write = false
        · rw [if_pos h1]
        · rw [if_neg h1]
          by_cases h2 : (z.entries.find (cstr name)).isSome = true
          · rw [if_pos h2]
          · rw [if_neg h2, if_pos (hg.resolve_left h2)]
      rw [this]
      exact ⟨done, h, Nat.le_add_right _ _⟩
    · simp only [not_or] at hg
      obtain ⟨g1, g2⟩ := hg
      have hnone : z.entries.find (cstr name) = none := by simpa using g1
      have hfresh : cstr name ∉ done.map Prod.fst := by
        rcases h with h | ⟨pre, n, p, hd, h⟩
        · rw [h.find] at hnone
          exact (specFind_none_iff _ _ _).mp hnone
        · rw [h.find] at hnone
          by_cases hk : cstr name = n
          · rw [if_pos hk] at hnone
            exact absurd hnone (by simp)
          · rw [if_neg hk] at hnone
            rw [hd]
            simp only [List.map_append, List.map_cons, List.map_nil, List.mem_append,
              List.mem_singleton, not_or]
            exact ⟨(specFind_none_iff _ _ _).mp hnone, hk⟩
      have hmax2 : z.store.bytes.length + (sizeofLocal + (cstr name).length) ≤ maxOff := hmax
      obtain ⟨_, r2, _, _⟩ := new_entry_ready z done (cstr name) h ⟨cstr_idem name, g2⟩ hfresh
        (by rw [← hsz]; exact hmax2)
      rw [new_entry_cstr]
      refine ⟨done ++ [(cstr name, [])], Or.inr ⟨done, cstr name, [], rfl, r2⟩, ?_⟩
      rw [active_bytes_length r2, hsz]
      simp only [List.length_nil]
      omega
  | entry_write k buffer count =>
    have hcount : count ≤ buffer.length := by simpa [Call.isAppend] using hc
    have hmax2 : z.store.bytes.length + count ≤ maxOff := hmax
    show ∃ done1, Ready (z.entry_write k buffer count).2 done1 ∧
      (z.entry_write k buffer count).2.store.bytes.length ≤ z.store.bytes.length + count
    cases hf : z.entries.find k with
    | none =>
      have : (z.entry_write k buffer count).2 = z := by
        unfold ZIPFile.entry_write
        simp only [hf]
      rw [this]
      exact ⟨done, h, Nat.le_add_right _ _⟩
    | some e =>
      have hfinal : e.can_write = false → ∃ done1, Ready (z.entry_write k buffer count).2 done1 ∧
          (z.entry_write k buffer count).2.store.bytes.length ≤ z.store.bytes.length + count := by
        intro hw
        rw [entry_write_final z k e buffer count hf hw]
        exact ⟨done, h, Nat.le_add_right _ _⟩
      rcases h with h | ⟨pre, n, p, hd, h⟩
      · rw [h.find] at hf
        exact hfinal (specFind_final _ _ _ _ hf)
      · by_cases hk : k = n
        · have hl : (buffer.take count).length = count := by
            rw [List.length_take]
            omega
          have heq : z.entry_write k buffer count
              = z.entry_write n (buffer.take count) (buffer.take count).length := by
            unfold ZIPFile.entry_write
            rw [hk]
            cases z.entries.find n with
            | none => rfl
            | some e1 =>
              simp only [entry_write_take e1 z buffer count hcount]
          obtain ⟨_, w2, _, _⟩ := write_active z pre n p (buffer.take count) h
            (by rw [hl]; exact hmax2)
          rw [heq]
          refine ⟨pre ++ [(n, p ++ buffer.take count)],
            Or.inr ⟨pre, n, p ++ buffer.take count, rfl, w2⟩, ?_⟩
          rw [active_bytes_length w2, active_bytes_length h, List.length_append, hl]
          omega
        · have hf2 := hf
          rw [h.find, if_neg hk] at hf2
          exact hfinal (specFind_final _ _ _ _ hf2)
  | close_current => simp [Call.isAppend] at hc
  | writeZIPFooter => simp [Call.isAppend] at hc
  | close => simp [Call.isAppend] at hc
  | get_entry name => simp [Call.isAppend] at hc
  | entry_seek name pos => simp [Call.isAppend] at hc
  | entry_read name count => simp [Call.isAppend] at hc

theorem ready_run (calls : List Call) :
    ∀ (z : ZIPFile) (done : List Stream), Ready z done →
      (∀ c ∈ calls, c.isAppend = true) →
      z.store.bytes.length + (calls.map Call.growth).sum ≤ maxOff →
      ∃ done1, Ready (z.run calls) done1 := by
  induction calls with
  | nil => intro z done h _ _; exact ⟨done, h⟩
  | cons c t ih =>
    intro z done h happ hmax
    simp only [List.map_cons, List.sum_cons] at hmax
    obtain ⟨d1, r1, s1⟩ := ready_call h c (happ c (List.mem_cons_self _ _)) (by omega)
    exact ih _ d1 r1 (fun x hx => happ x (List.mem_cons_of_mem _ hx)) (by omega)

/-- C18: in every state reached from a container just opened read-write on an empty
file by `new_entry` calls and `write` calls through entry pointers (each buffer holding
the bytes to write), the storage accepting every call and the file staying within the
largest file offset: the entry in extend mode has `position = file_length` and its
payload ends at the end of the file; every entry has `file_offset = file_header_offset +
30 + length(name)`; and the ranges `[file_header_offset, file_offset + file_length)` of
two entries with different names are disjoint. -/
theorem append_only_layout (calls : List Call) (happ : ∀ c ∈ calls, c.isAppend = true)
    (hmax : (calls.map Call.growth).sum ≤ maxOff) :
    (∀ k e, (emptyRW.run calls).entries.find k = some e → e.can_extend = true →
      e.position = e.file_length ∧
      e.file_offset + e.file_length = ((emptyRW.run calls).store.bytes.length : Int)) ∧
    (∀ k e, (emptyRW.run calls).entries.find k = some e →
      e.file_offset = e.file_header_offset + sizeofLocal + e.name.length) ∧
    (∀ k1 e1 k2 e2, k1 ≠ k2 → (emptyRW.run calls).entries.find k1 = some e1 →
      (emptyRW.run calls).entries.find k2 = some e2 →
      e1.file_offset + e1.file_length ≤ e2.file_header_offset ∨
      e2.file_offset + e2.file_length ≤ e1.file_header_offset) := by
  have h0 : emptyRW.store.bytes.length = 0 := by decide
  obtain ⟨done, hr⟩ := ready_run calls emptyRW [] (Or.inl emptyRW_idle) happ (by omega)
  refine ⟨?_, ?_, ?_⟩
  · intro k e hf hx
    obtain ⟨e1, s1, _, _, a3, _, a5, a6⟩ := ready_find hr k e hf
    obtain ⟨_, l2, _, _⟩ := specFind_layout _ _ _ _ s1
    exact ⟨by rw [a5, a3, l2], a6 hx⟩
  · intro k e hf
    obtain ⟨e1, s1, a1, a2, _, a4, _, _⟩ := ready_find hr k e hf
    obtain ⟨l1, _, _, _⟩ := specFind_layout _ _ _ _ s1
    rw [a1, a2, a4]
    exact l1
  · intro k1 e1 k2 e2 hk hf1 hf2
    obtain ⟨x1, s1, a1, a2, a3, _, _, _⟩ := ready_find hr k1 e1 hf1
    obtain ⟨x2, s2, b1, b2, b3, _, _, _⟩ := ready_find hr k2 e2 hf2
    rw [a1, a2, a3, b1, b2, b3]
    exact specFind_disjoint _ _ _ hk _ _ _ s1 s2

set_option maxRecDepth 100000 in
/-- Witness of `append_only_layout`: `STATE.BIN` with four bytes, then `A` with one
byte; `A` is in extend mode with its payload at offset 74, ending the file of 75
bytes. -/
theorem append_only_layout_witness :
    ((emptyRW.run [Call.new_entry stateBin, Call.entry_write stateBin [1, 2, 3, 4] 4,
        Call.new_entry [0x41], Call.entry_write [0x41] [7] 1]).store.bytes.length = 75) ∧
    (∀ k e, (emptyRW.run [Call.new_entry stateBin, Call.entry_write stateBin [1, 2, 3, 4] 4,
        Call.new_entry [0x41], Call.entry_write [0x41] [7] 1]).entries.find k = some e →
      e.file_offset = e.file_header_offset + sizeofLocal + e.name.length) :=
  ⟨by decide,
    (append_only_layout [Call.new_entry stateBin, Call.entry_write stateBin [1, 2, 3, 4] 4,
      Call.new_entry [0x41], Call.entry_write [0x41] [7] 1] (by decide) (by decide)).2.1⟩

/-! ## Abort of `new_entry` -/

theorem storage_put_range (s : Storage) (d : List Byte) :
    -1 ≤ (s.put d).1 ∧ (s.put d).1 ≤ (d.length : Int) := by
  unfold Storage.put
  split
  · simp
  · split
    · simp
      omega
    · simp
      omega

theorem storage_write_range (s : Storage) (d : List Byte) :
    -1 ≤ (s.write d).1 ∧ (s.write d).1 ≤ (d.length : Int) := by
  have hneg : (-1 : Int) ≤ -1 ∧ (-1 : Int) ≤ (d.length : Int) := ⟨le_refl _, by omega⟩
  unfold Storage.write
  dsimp only
  split
  · exact hneg
  · cases s.outcome with
    | ok => exact storage_put_range _ _
    | short k =>
      have h := storage_put_range (s.tick (StorageOp.write d)) (d.take k)
      have hl : (d.take k).length ≤ d.length := by
        rw [List.length_take]
        omega
      show -1 ≤ ((s.tick (StorageOp.write d)).put (d.take k)).1 ∧
        ((s.tick (StorageOp.write d)).put (d.take k)).1 ≤ (d.length : Int)
      exact ⟨h.1, by omega⟩
    | fail => exact hneg

theorem zip_write_range (z : ZIPFile) (d : List Byte) :
    -1 ≤ (z.write d).1 ∧ (z.write d).1 ≤ (d.length : Int) := by
  unfold ZIPFile.write
  split
  · exact ⟨le_refl _, by simp; omega⟩
  · exact storage_write_range _ _

/-- A write that does not return the full count is seen as incomplete by the test of
`new_entry` (`(size_t)write(...) != count`). -/
theorem zip_write_incomplete (z : ZIPFile) (d : List Byte) (hd : d.length < 2 ^ 63) :
    toSize (z.write d).1 = d.length ↔ (z.write d).1 = (d.length : Int) := by
  obtain ⟨h1, h2⟩ := zip_write_range z d
  unfold toSize
  constructor
  · intro h
    omega
  · intro h
    rw [h]
    omega

/-- A failing storage step makes `new_entry` return `NULL`. -/
theorem new_entry_fails (z : ZIPFile) (name : List Byte)
    (hfd : 0 ≤ z.file_fd) (hw : z.can_write = true)
    (hfresh : z.entries.find (cstr name) = none) (hne : cstr name ≠ [])
    (hstart : 0 ≤ z.entry_start (cstr name))
    (hrange : z.entry_start (cstr name) + ((sizeofLocal + (cstr name).length : Nat) : Int)
      < 2 ^ 63)
    (hfail : z.entry_step_fails (cstr name)) : (z.new_entry name).1 = none := by
  have h30 : sizeofLocal = 30 := rfl
  have hpay : 0 ≤ z.entry_payload (cstr name) := by
    unfold ZIPFile.entry_payload
    rw [toSize_id hstart (by omega)]
    have : (z.entry_start (cstr name)).toNat + (sizeofLocal + (cstr name).length) < 2 ^ 63 := by
      omega
    rw [Nat.mod_eq_of_lt (by omega), wrapOff_id (by omega) (by omega)]
    omega
  have hw1 := zip_write_incomplete
    ((z.begin_entry (cstr name)).seek_file (z.entry_start (cstr name))).2
    (newLocalHeader (cstr name)).toBytes (by rw [local_toBytes_length]; decide)
  rw [local_toBytes_length] at hw1
  have hw2 := zip_write_incomplete
    ((((z.begin_entry (cstr name)).seek_file (z.entry_start (cstr name))).2.write
      (newLocalHeader (cstr name)).toBytes).2) (cstr name) (by omega)
  rw [new_entry_steps z name hfd hw hfresh hne]
  by_cases c1 : ((z.begin_entry (cstr name)).seek_file (z.entry_start (cstr name))).1
      ≠ z.entry_start (cstr name)
  · rw [if_pos c1]
  · rw [if_neg c1]
    by_cases c2 : toSize ((((z.begin_entry (cstr name)).seek_file
        (z.entry_start (cstr name))).2.write (newLocalHeader (cstr name)).toBytes).1)
        ≠ sizeofLocal
    · rw [if_pos c2]
    · rw [if_neg c2]
      by_cases c3 : toSize (((((z.begin_entry (cstr name)).seek_file
          (z.entry_start (cstr name))).2.write
            (newLocalHeader (cstr name)).toBytes).2.write (cstr name)).1)
          ≠ (cstr name).length
      · rw [if_pos c3]
      · rw [if_neg c3]
        by_cases c4 : ((((((z.begin_entry (cstr name)).seek_file
            (z.entry_start (cstr name))).2.write
              (newLocalHeader (cstr name)).toBytes).2.write (cstr name)).2).seek_file
                (z.entry_payload (cstr name))).1 ≠ z.entry_payload (cstr name)
        · rw [if_pos c4]
        · exfalso
          have d1 := not_not.mp c1
          have d2 := hw1.mp (not_not.mp c2)
          have d3 := hw2.mp (not_not.mp c3)
          have d4 := not_not.mp c4
          unfold ZIPFile.entry_step_fails at hfail
          rcases hfail with f | ⟨_, f | ⟨_, f | ⟨_, f⟩⟩⟩
          · rw [d1] at f
            omega
          · exact f d2
          · exact f d3
          · rw [d4] at f
            omega

set_option maxRecDepth 100000 in
/-- When the seek to the end of the file fails, the header offset of the new entry is
`-1`, the failing seek to it returns that same `-1`, and `new_entry` carries on: it
returns the entry, in extend mode. -/
theorem new_entry_after_failed_end_seek :
    sampleEndSeekFails.entry_start stateBin = -1 ∧
    ((sampleEndSeekFails.begin_entry stateBin).seek_file (-1)).1 = -1 ∧
    (sampleEndSeekFails.new_entry stateBin).1 = some stateBin ∧
    (sampleEndSeekFails.new_entry stateBin).2.current_entry = stateBin := by
  decide

/-- C14, amended: on a writable open container and for a fresh non-empty name, once the
end of the file has been found (the header offset is not negative and the payload offset
is within `off_t`), whatever the storage does: if a storage step of `new_entry` fails
(the seek to the header offset, the write of the header, the write of the filename, or
the seek to the payload start), `new_entry` returns `NULL`, the container has no active
entry and the entry in progress, still in the map, has `can_write = can_extend = false`.
(The abort is a call of `close_current`, which may issue storage reads and writes of the
local header.) -/
theorem new_entry_aborts (z : ZIPFile) (name : List Byte)
    (hfd : 0 ≤ z.file_fd) (hw : z.can_write = true)
    (hfresh : z.entries.find (cstr name) = none) (hne : cstr name ≠ [])
    (hstart : 0 ≤ z.entry_start (cstr name))
    (hrange : z.entry_start (cstr name) + ((sizeofLocal + (cstr name).length : Nat) : Int)
      < 2 ^ 63)
    (hfail : z.entry_step_fails (cstr name)) :
    (z.new_entry name).1 = none ∧ (z.new_entry name).2.current_entry = [] ∧
    ∃ e, (z.new_entry name).2.entries.find (cstr name) = some e ∧
      e.can_write = false ∧ e.can_extend = false :=
  ⟨new_entry_fails z name hfd hw hfresh hne hstart hrange hfail,
    new_entry_abort_core z name hfd hw hfresh hne
      (new_entry_fails z name hfd hw hfresh hne hstart hrange hfail)⟩

set_option maxRecDepth 100000 in
/-- Witness of `new_entry_aborts`: the write of the filename of `STATE.BIN` fails after
the seeks and the write of the header have succeeded. -/
theorem new_entry_aborts_witness :
    (sampleNameWriteFails.new_entry stateBin).1 = none ∧
    (sampleNameWriteFails.new_entry stateBin).2.current_entry = [] ∧
    ∃ e, (sampleNameWriteFails.new_entry stateBin).2.entries.find (cstr stateBin) = some e ∧
      e.can_write = false ∧ e.can_extend = false :=
  new_entry_aborts sampleNameWriteFails stateBin (by decide) (by decide) (by decide)
    (by decide) (by decide) (by decide) (by decide)

/-! ## Order of the map -/

theorem strLt_trans : ∀ a b c : List Byte, strLt a b = true → strLt b c = true →
    strLt a c = true
  | [], [], _, h, _ => by simp [strLt] at h
  | [], _ :: _, [], _, h => by simp [strLt] at h
  | [], _ :: _, _ :: _, _, _ => by simp [strLt]
  | _ :: _, [], _, h, _ => by simp [strLt] at h
  | _ :: _, _ :: _, [], _, h => by simp [strLt] at h
  | x :: xs, y :: ys, w :: ws, h1, h2 => by
    simp only [strLt] at h1 h2 ⊢
    by_cases a1 : x.val < y.val
    · by_cases a2 : y.val < w.val
      · rw [if_pos (by omega)]
      · rw [if_neg a2] at h2
        by_cases a3 : w.val < y.val
        · rw [if_pos a3] at h2
          exact absurd h2 (by simp)
        · rw [if_pos (by omega)]
    · rw [if_neg a1] at h1
      by_cases b1 : y.val < x.val
      · rw [if_pos b1] at h1
        exact absurd h1 (by simp)
      · rw [if_neg b1] at h1
        by_cases a2 : y.val < w.val
        · rw [if_pos (by omega)]
        · rw [if_neg a2] at h2
          by_cases a3 : w.val < y.val
          · rw [if_pos a3] at h2
            exact absurd h2 (by simp)
          · rw [if_neg a3] at h2
            rw [if_neg (by omega), if_neg (by omega)]
            exact strLt_trans xs ys ws h1 h2

theorem strLt_connex : ∀ a b : List Byte, a ≠ b → strLt a b = false → strLt b a = true
  | [], [], h, _ => absurd rfl h
  | [], _ :: _, _, h => by simp [strLt] at h
  | _ :: _, [], _, _ => by simp [strLt]
  | x :: xs, y :: ys, hne, h => by
    simp only [strLt] at h ⊢
    by_cases a1 : x.val < y.val
    · rw [if_pos a1] at h
      exact absurd h (by simp)
    · rw [if_neg a1] at h
      by_cases a2 : y.val < x.val
      · rw [if_pos a2]
      · rw [if_neg a2] at h
        rw [if_neg a2, if_neg a1]
        have hxy : x = y := Fin.ext (by omega)
        exact strLt_connex xs ys (fun hh => hne (by rw [hxy, hh])) h

/-- Insertion of a new key keeps the keys of the map in ascending order. -/
theorem ascending_insertNew (m : Entries) (k : List Byte) (e : ZIPFileEntry)
    (hs : Ascending (m.map Prod.fst)) (hk : m.find k = none) :
    Ascending ((Entries.insertNew k e m).map Prod.fst) := by
  induction m with
  | nil => simp [Entries.insertNew, Ascending]
  | cons a t ih =>
    obtain ⟨k1, v1⟩ := a
    have hne : k ≠ k1 := by
      intro h
      simp [Entries.find, h] at hk
    have ht : Entries.find t k = none := by
      simpa [Entries.find, hne] using hk
    unfold Ascending at hs ih ⊢
    simp only [List.map_cons, List.pairwise_cons] at hs
    unfold Entries.insertNew
    by_cases hlt : strLt k k1 = true
    · rw [if_pos hlt]
      simp only [List.map_cons, List.pairwise_cons]
      refine ⟨?_, hs.1, hs.2⟩
      intro x hx
      rcases List.mem_cons.mp hx with hx | hx
      · rw [hx]
        exact hlt
      · exact strLt_trans _ _ _ hlt (hs.1 x hx)
    · rw [if_neg hlt]
      simp only [List.map_cons, List.pairwise_cons]
      refine ⟨?_, ih hs.2 ht⟩
      intro x hx
      have hx2 := (keys_insertNew t k e).mem_iff.mp hx
      rcases List.mem_cons.mp hx2 with hx2 | hx2
      · rw [hx2]
        exact strLt_connex _ _ hne (by simpa using hlt)
      · exact hs.1 x hx2

theorem ascending_index_update (m : Entries) (k : List Byte)
    (f : ZIPFileEntry → ZIPFileEntry) (hs : Ascending (m.map Prod.fst)) :
    Ascending (((m.index k).update k f).map Prod.fst) := by
  rw [keys_update]
  unfold Entries.index
  cases hk : m.find k with
  | some v =>
    simp only [Option.isSome_some, if_true]
    exact hs
  | none =>
    simp only [Option.isSome_none, Bool.false_eq_true, if_false]
    exact ascending_insertNew m k _ hs hk

theorem new_entry_guarded (z : ZIPFile) (name : List Byte)
    (hg : z.file_fd < 0 ∨ z.can_write = false ∨
      (z.entries.find (cstr name)).isSome = true ∨ cstr name = []) :
    z.new_entry name = (none, z) := by
  unfold ZIPFile.new_entry
  by_cases h1 : z.file_fd < 0 ∨ z.can_write = false
  · rw [if_pos h1]
  · rw [if_neg h1]
    by_cases h2 : (z.entries.find (cstr name)).isSome = true
    · rw [if_pos h2]
    · rw [if_neg h2]
      have h3 : cstr name = [] := by
        rcases hg with hg | hg | hg | hg
        · exact absurd (Or.inl hg) h1
        · exact absurd (Or.inr hg) h1
        · exact absurd hg h2
        · exact hg
      rw [if_pos h3]

theorem ascending_close_current {z : ZIPFile} (h : Ascending (z.entries.map Prod.fst)) :
    Ascending (z.close_current.entries.map Prod.fst) := by
  rw [close_current_keys]
  exact h

theorem ascending_storeOnly {z z1 : ZIPFile} (h : Ascending (z.entries.map Prod.fst))
    (hs : StoreOnly z z1) : Ascending (z1.entries.map Prod.fst) := by
  rw [hs.2.2.2.2.2]
  exact h

theorem ascending_begin_entry {z : ZIPFile} (h : Ascending (z.entries.map Prod.fst))
    (nm : List Byte) : Ascending ((z.begin_entry nm).entries.map Prod.fst) := by
  have e0 := zip_end_of_file_storeOnly
    ({ z.close_current with current_entry := nm } : ZIPFile)
  unfold ZIPFile.begin_entry
  show Ascending ((Entries.update _ _ (Entries.index _ _)).map Prod.fst)
  apply ascending_index_update
  rw [e0.2.2.2.2.2]
  exact ascending_close_current h

theorem ascending_new_entry {z : ZIPFile} (h : Ascending (z.entries.map Prod.fst))
    (name : List Byte) : Ascending ((z.new_entry name).2.entries.map Prod.fst) := by
  by_cases hg : z.file_fd < 0 ∨ z.can_write = false ∨
      (z.entries.find (cstr name)).isSome = true ∨ cstr name = []
  · rw [new_entry_guarded z name hg]
    exact h
  · simp only [not_or] at hg
    obtain ⟨g1, g2, g3, g4⟩ := hg
    have hfd : 0 ≤ z.file_fd := by omega
    have hw : z.can_write = true := by simpa using g2
    have hfresh : z.entries.find (cstr name) = none := by simpa using g3
    have hb := ascending_begin_entry h (cstr name)
    have st : ∀ x, StoreOnly (z.begin_entry (cstr name)) x →
        Ascending (x.entries.map Prod.fst) := fun x hx => ascending_storeOnly hb hx
    have cc : ∀ x, StoreOnly (z.begin_entry (cstr name)) x →
        Ascending (x.close_current.entries.map Prod.fst) :=
      fun x hx => ascending_close_current (st x hx)
    rw [new_entry_steps z name hfd hw hfresh g4]
    refine ite_pred (fun r : Option (List Byte) × ZIPFile =>
      Ascending (r.2.entries.map Prod.fst)) (cc _ (zip_seek_file_storeOnly _ _)) ?_
    refine ite_pred (fun r : Option (List Byte) × ZIPFile =>
      Ascending (r.2.entries.map Prod.fst))
      (cc _ (storeOnly_trans (zip_seek_file_storeOnly _ _) (zip_write_storeOnly _ _))) ?_
    refine ite_pred (fun r : Option (List Byte) × ZIPFile =>
      Ascending (r.2.entries.map Prod.fst))
      (cc _ (storeOnly_trans (storeOnly_trans (zip_seek_file_storeOnly _ _)
        (zip_write_storeOnly _ _)) (zip_write_storeOnly _ _))) ?_
    refine ite_pred (fun r : Option (List Byte) × ZIPFile =>
      Ascending (r.2.entries.map Prod.fst))
      (cc _ (storeOnly_trans (storeOnly_trans (storeOnly_trans
        (zip_seek_file_storeOnly _ _) (zip_write_storeOnly _ _)) (zip_write_storeOnly _ _))
        (zip_seek_file_storeOnly _ _))) ?_
    exact st _ (storeOnly_trans (storeOnly_trans (storeOnly_trans
        (zip_seek_file_storeOnly _ _) (zip_write_storeOnly _ _)) (zip_write_storeOnly _ _))
        (zip_seek_file_storeOnly _ _))

theorem ascending_call {z : ZIPFile} (h : Ascending (z.entries.map Prod.fst)) (c : Call) :
    Ascending ((z.call c).entries.map Prod.fst) := by
  cases c with
  | new_entry name => exact ascending_new_entry h name
  | close_current => exact ascending_close_current h
  | writeZIPFooter =>
    show Ascending (z.writeZIPFooter.entries.map Prod.fst)
    by_cases hg : z.file_fd < 0 ∨ z.wrote_trailer = true ∨ z.can_write = false
    · have : z.writeZIPFooter = z := by
        unfold ZIPFile.writeZIPFooter
        rw [if_pos hg]
      rw [this]
      exact h
    · rw [(writeZIPFooter_fields z hg).2.2.2.2]
      exact ascending_close_current h
  | close =>
    show Ascending (z.close.entries.map Prod.fst)
    rw [zip_close_entries]
    exact List.Pairwise.nil
  | get_entry name => exact h
  | entry_seek name pos =>
    show Ascending ((z.entry_seek name pos).2.entries.map Prod.fst)
    unfold ZIPFile.entry_seek
    cases z.entries.find name with
    | none => exact h
    | some e =>
      show Ascending ((Entries.update _ _ _).map Prod.fst)
      rw [keys_update]
      exact h
  | entry_read name count =>
    show Ascending ((z.entry_read name count).2.2.entries.map Prod.fst)
    unfold ZIPFile.entry_read
    cases z.entries.find name with
    | none => exact h
    | some e =>
      show Ascending ((Entries.update _ _ _).map Prod.fst)
      rw [keys_update]
      exact h
  | entry_write name buffer count =>
    show Ascending ((z.entry_write name buffer count).2.entries.map Prod.fst)
    unfold ZIPFile.entry_write
    cases z.entries.find name with
    | none => exact h
    | some e =>
      show Ascending ((Entries.update _ _ _).map Prod.fst)
      rw [keys_update]
      exact h

theorem ascending_run (calls : List Call) :
    ∀ z : ZIPFile, Ascending (z.entries.map Prod.fst) →
      Ascending ((z.run calls).entries.map Prod.fst) := by
  induction calls with
  | nil => intro z h; exact h
  | cons c t ih => intro z h; exact ih _ (ascending_call h c)

/-- After `open` the keys of the map are in ascending order, whatever the file holds and
whatever the storage does. -/
theorem ascending_open (z : ZIPFile) (path : Option Storage) (mode : Nat) :
    Ascending ((z.open path mode).2.entries.map Prod.fst) := by
  have hnil : ∀ x : ZIPFile, x.entries = [] → Ascending (x.entries.map Prod.fst) := by
    intro x hx
    rw [hx]
    exact List.Pairwise.nil
  have hcl : ∀ x : ZIPFile, Ascending (x.close.entries.map Prod.fst) :=
    fun x => hnil _ (zip_close_entries x)
  unfold ZIPFile.open
  cases path with
  | none => exact hcl z
  | some disk =>
    dsimp only
    refine ite_pred (fun r : Int × ZIPFile => Ascending (r.2.entries.map Prod.fst))
      (hcl z) ?_
    refine ite_pred (fun r : Int × ZIPFile => Ascending (r.2.entries.map Prod.fst))
      (hnil _ (zip_close_entries z)) ?_
    refine ite_pred (fun r : Int × ZIPFile => Ascending (r.2.entries.map Prod.fst))
      (hcl _) ?_
    refine ite_pred (fun r : Int × ZIPFile => Ascending (r.2.entries.map Prod.fst)) ?_
      (hnil _ rfl)
    exact scan_preserves (fun x => Ascending (x.entries.map Prod.fst))
      (fun x => Ascending (x.entries.map Prod.fst))
      (fun a b ha hs _ => ascending_storeOnly ha hs)
      (fun a chdr name ha _ _ => ascending_index_update _ _ _ ha)
      (fun a _ => hcl a) (fun a ha => ha) _ (hnil _ rfl)

/-- C12, amended (names shorter than 2^16 bytes, central directory smaller than 2^32
bytes): `writeZIPFooter` on a container `z` reached from `open` by any sequence of calls
(on a container whose active-entry marker is a C string), open, writable, its trailer
not yet written, with `n < 2^16` entries, each with name length, length, header offset
and checksum inside the widths of the record fields, in a file of `s < 2^32` bytes once
the active entry is finalized, the storage accepting every byte.  The file becomes the
file as `close_current` leaves it, followed for each entry, in strictly ascending order
of the names (`std::string::operator<`), by one central-directory record (signature,
versions 20, flags 0, method 0, zero time and date, finalized checksum, compressed =
uncompressed = `file_length`, filename length, zero extra and comment lengths,
disk-number-start 1, zero attributes, local-header offset `file_header_offset`) and the
filename bytes, followed by one end record (signature, disk numbers 0, both entry counts
`n`, the size of the central directory as the sum over the entries of 46 + name length,
its offset `s`, comment length 0), which is the end of the file; the trailer flag is set
and the active-entry marker is clear. -/
theorem footer_layout (z0 : ZIPFile) (path : Option Storage) (mode : Nat) (calls : List Call)
    (z : ZIPFile) (h0 : cstr z0.current_entry = z0.current_entry)
    (hz : z = (z0.open path mode).2.run calls)
    (hI : Ideal z) (hw : z.can_write = true)
    (htr : z.wrote_trailer = false) (hn : z.entries.length < 2 ^ 16)
    (hs : z.close_current.store.bytes.length < 2 ^ 32)
    (hd : (z.entries.map (fun ke => sizeofCentral + ke.2.name.length)).sum < 2 ^ 32)
    (hent : ∀ ke ∈ z.entries, ke.2.name.length < 2 ^ 16 ∧
      0 ≤ ke.2.file_length ∧ ke.2.file_length < 2 ^ 32 ∧ 0 ≤ ke.2.file_header_offset ∧
      ke.2.file_header_offset < 2 ^ 32 ∧ ke.2.write_crc < 2 ^ 32) :
    Ascending (z.entries.map (fun ke => ke.2.name)) ∧
    z.writeZIPFooter.store.bytes = z.close_current.store.bytes ++
      (z.entries.map (fun ke =>
        ({ sig := PKZIP_CENTRAL_DIRECTORY_HEADER_SIG
           version_made_by := 20
           version_needed_to_extract := 20
           general_purpose_bit_flag := 0
           compression_method := 0
           last_mod_file_time := 0
           last_mod_file_date := 0
           crc32 := zipcrc_finalize ke.2.write_crc
           compressed_size := ke.2.file_length.toNat
           uncompressed_size := ke.2.file_length.toNat
           filename_length := ke.2.name.length
           extra_field_length := 0
           file_comment_length := 0
           disk_number_start := 1
           internal_file_attributes := 0
           external_file_attributes := 0
           relative_offset_of_local_header := ke.2.file_header_offset.toNat } :
          pkzip_central_directory_header_main).toBytes ++ ke.2.name)).flatten ++
      ({ sig := PKZIP_CENTRAL_DIRECTORY_END_SIG
         number_of_this_disk := 0
         number_of_disk_with_start_of_central_directory := 0
         total_number_of_entries_of_central_dir_on_this_disk := z.entries.length
         total_number_of_entries_of_central_dir := z.entries.length
         size_of_central_directory :=
           (z.entries.map (fun ke => sizeofCentral + ke.2.name.length)).sum
         offset_of_central_directory_from_start_disk := z.close_current.store.bytes.length
         zipfile_comment_length := 0 } : pkzip_central_directory_header_end).toBytes ∧
    z.writeZIPFooter.wrote_trailer = true ∧ z.writeZIPFooter.current_entry = [] := by
  have hinv : WriterInv z := by
    rw [hz]
    exact writerInv_run calls _ (writerInv_open h0 path mode)
  have hasc : Ascending (z.entries.map Prod.fst) := by
    rw [hz]
    exact ascending_run calls _ (ascending_open z0 path mode)
  obtain ⟨hnd, _, _, hnode⟩ := hinv
  have hnames : ∀ ke ∈ z.entries, ke.2.name = ke.1 ∧ ke.1 ≠ [] := by
    intro ke hke
    obtain ⟨a, _, c, _⟩ := hnode ke.1 ke.2 (find_of_mem _ hnd _ _ hke)
    exact ⟨c, a⟩
  have hmap : z.entries.map (fun ke => ke.2.name) = z.entries.map Prod.fst :=
    List.map_congr_left (fun ke hke => (hnames ke hke).1)
  refine ⟨by rw [hmap]; exact hasc, ?_⟩
  exact footer_bytes z hI hw htr hn hs hd (fun ke hke =>
    ⟨by rw [(hnames ke hke).1]; exact (hnames ke hke).2, hent ke hke⟩)

set_option maxRecDepth 100000 in
/-- Witness of `footer_layout`: the session that creates `B` and then `A`; the map holds
`A` before `B`, the footer starts at offset 64 and the file ends at 180. -/
theorem footer_layout_witness :
    sampleBthenA.entries.map (fun ke => ke.2.name) = [[0x41], [0x42]] ∧
    sampleBthenA.writeZIPFooter.store.bytes.length = 180 ∧
    Ascending (sampleBthenA.entries.map (fun ke => ke.2.name)) ∧
    sampleBthenA.writeZIPFooter.wrote_trailer = true :=
  ⟨by decide, by decide,
    (footer_layout ZIPFile.init (some (Storage.ofBytes [])) O_RDWR
      [Call.new_entry [0x42], Call.entry_write [0x42] [2] 1, Call.new_entry [0x41],
        Call.entry_write [0x41] [1] 1] sampleBthenA rfl rfl (by decide) (by decide)
      (by decide) (by decide) (by decide) (by decide) (by decide)).1,
    (footer_layout ZIPFile.init (some (Storage.ofBytes [])) O_RDWR
      [Call.new_entry [0x42], Call.entry_write [0x42] [2] 1, Call.new_entry [0x41],
        Call.entry_write [0x41] [1] 1] sampleBthenA rfl rfl (by decide) (by decide)
      (by decide) (by decide) (by decide) (by decide) (by decide)).2.2.1⟩

end ZipFile
